import Mathlib

/-!
# Key table transform of `keytab.go`

A shallow embedding of `src/Hive/hive_v4_demo/keytab/keytab.go`.

Conventions of the embedding.

* A byte is a natural number (a value below 256 in every real state); byte
  sequences (`[]byte`, file contents) are `List Nat`.  The only byte operation
  of the program is XOR, which is `^^^` on `Nat` and never leaves the byte
  range.
* `file_size` is a non-negative `int64`, so it is a `Nat`; `int` is the 64-bit
  `int` of the platforms the program is built for.  Every intermediate value of
  the block arithmetic is bounded by `30 * file_size`, so nothing wraps
  (`blockArith_no_overflow`).  Quantities that can be negative in the program
  (`block_space`, `file_off`) are `Int`, and Go's `/` on them is `Int.tdiv`
  (truncation towards zero).
* `uint32` arithmetic is written with an explicit `% 2 ^ 32`.
* The file system, the random sources and the RSA primitive are not part of the
  repository.  The file system is an explicit state (`FS`) together with a
  description of which system calls fail in the run under study (`Faults`).  The
  random draws are arguments.  The RSA primitive is a parameter (`Cipher`).
* `crypto/rand.Read` is modelled as package `crypto/rand` documents it from
  Go 1.24 on: it fills the buffer or crashes the program (`cryptorandRead`).  The
  repository names no toolchain; what line 41 does with an older one, where
  `Read` hands the error back, is `GenKeyTabBefore124`.
* The methods are given twice: on values (`EvaluateFilename`, ...), where the key
  table is an argument, and on an explicit memory (`EvaluateFilenameMem`, ...),
  where slices alias their arrays and every element assignment is a store.  The
  two agree (`EvaluateFilenameMem_eq`, `EncryptFilenameMem_eq`, `ExportMem_eq`).
* `blockLoop` and `exportLoop` return, next to the program's own results, a log
  of what each iteration did.  The log is ghost state: nothing is computed from
  it.
-/

namespace Keytab

/-! ## Constants (lines 16-27) -/

/-- Key table size. -/
def EncryptionKeyTabSize : Nat := 0x300000

/-- Max number of blocks. -/
def MaxNumBlocks : Nat := 256

/-- Block size. -/
def BlockSize : Nat := 4096

/-- Key1 size. -/
def Key1Size : Nat := 0x100000

/-- Key2 size. -/
def Key2Size : Nat := 0xC00

/-- Key table structure (lines 31-34).  A slice is modelled by its elements; its
capacity equals its length, as for the table built by `GenKeyTab`. -/
structure EncryptionKeyTab where
  Data : List Nat
  Hash : List Nat

/-! ## Environment: errors, files, faults -/

/-- Errors that a system call can report.  `EOF` is `io.EOF`. -/
inductive Err where
  | EOF
  | notExist
  | negativeOffset
  | other (code : Nat)
deriving DecidableEq, Repr

/-- How a call of the program ends: `return nil`, `return err`, or a run-time
panic (slice bounds out of range, integer divide by zero). -/
inductive Outcome where
  | ok
  | error (e : Err)
  | panic
deriving DecidableEq, Repr

/-- Which system calls misbehave during one call of the program.
`read k = some (n, e)` makes the `ReadAt` of loop iteration `k` deliver only the
first `n` of the available bytes and report `e`; `write k = some (n, e)` makes
the `WriteAt` of iteration `k` store only the first `n` bytes and report `e`. -/
structure Faults where
  rename : Option Err
  openFile : Option Err
  stat : Option Err
  read : Nat → Option (Nat × Option Err)
  write : Nat → Option (Nat × Err)

/-- No system call fails. -/
def Faults.none : Faults :=
  ⟨Option.none, Option.none, Option.none, fun _ => Option.none, fun _ => Option.none⟩

/-- A file system: the content of each existing path. -/
abbrev FS := String → Option (List Nat)

/-- Replace (or remove) the entry of one path. -/
def FS.set (fs : FS) (path : String) (c : Option (List Nat)) : FS :=
  fun p => if p = path then c else fs p

/-- The call `f.ReadAt(buf[:], off)` for a buffer of `len` bytes on a file with the given
content: the bytes delivered and the error reported.  A negative offset is an
error; a read that reaches the end of the file delivers what is there and
reports `io.EOF`. -/
def ReadAt (content : List Nat) (len : Nat) (off : Int)
    (fault : Option (Nat × Option Err)) : List Nat × Option Err :=
  if off < 0 then ([], some Err.negativeOffset)
  else
    let avail := (content.drop off.toNat).take len
    match fault with
    | some (n, e) => (avail.take n, e)
    | Option.none => (avail, if avail.length < len then some Err.EOF else Option.none)

/-- The call `f.WriteAt(b, off)` on a file with the given content (a write past the end
extends the file, filling the gap with zero bytes). -/
def WriteAt (content : List Nat) (b : List Nat) (off : Nat) : List Nat :=
  content.take off ++ List.replicate (off - content.length) 0 ++ b
    ++ content.drop (off + b.length)

/-! ## `EvaluateFilename` (lines 85-177) -/

/-- Lines 103-117: the value of `num_blocks` after the `if` cascade, for a file
of non-zero size (the size-zero return of line 105 comes before the cascade). -/
def numBlocks (file_size : Nat) : Nat :=
  let num_blocks := 30 * (file_size / BlockSize) / 100
  if file_size ≤ BlockSize then 1
  else if num_blocks < 2 then 2
  else if num_blocks > MaxNumBlocks then MaxNumBlocks
  else num_blocks

/-- Lines 129-136: `block_space`. -/
def blockSpace (file_size : Nat) (num_blocks : Nat) : Int :=
  if num_blocks > 1 then
    Int.tdiv ((file_size : Int) - ((num_blocks * BlockSize : Nat) : Int))
      (((num_blocks : Int)) - 1)
  else 0

/-- Lines 140-150: the value of `file_off` at the `ReadAt` of iteration
`block_num`.  `var file_off int64` is declared inside the loop body, so every
iteration starts from a fresh zero. -/
def blockOffset (file_size : Nat) (num_blocks : Nat) (block_space : Int)
    (block_num : Nat) : Int :=
  let file_off : Int := 0
  if block_num = 1 then 0
  else if block_num = num_blocks then
    if (file_size : Int) > file_off + (BlockSize : Int) then
      (file_size : Int) - (BlockSize : Int)
    else file_off
  else file_off + block_space

/-- Line 164: `key_data1[pos % Key1Size] ^ key_data2[pos % Key2Size]`.  Both
slices have exactly the length of their modulus, so the default of `getD` is
never used. -/
def keyByte (key_data1 key_data2 : List Nat) (pos : Nat) : Nat :=
  key_data1.getD (pos % Key1Size) 0 ^^^ key_data2.getD (pos % Key2Size) 0

/-- Lines 162-165: the block after the inner loop. -/
def encryptBlock (key_data1 key_data2 : List Nat) (total_pos : Nat)
    (buf : List Nat) : List Nat :=
  buf.mapIdx (fun i b => b ^^^ keyByte key_data1 key_data2 (total_pos + i))

/-- Log entry of one loop iteration that reached its `WriteAt`. -/
structure BlockOp where
  block_num : Nat
  file_off : Int
  total_pos : Nat
  bytes_in : List Nat
  bytes_out : List Nat
deriving DecidableEq, Repr

/-- Lines 138-174: the loop, started at `block_num` with `remaining` iterations
to go (`remaining = num_blocks + 1 - block_num`, so `remaining = 0` is the exit
test `block_num <= num_blocks` failing).  Returns the outcome, the file content
and the log of the iterations. -/
def blockLoop (key_data1 key_data2 : List Nat) (file_size num_blocks : Nat)
    (block_space : Int) (io : Faults) :
    Nat → Nat → Nat → List Nat → Outcome × List Nat × List BlockOp
  | 0, _, _, content => (Outcome.ok, content, [])
  | remaining + 1, block_num, total_pos, content =>
    let file_off := blockOffset file_size num_blocks block_space block_num
    let rd := ReadAt content BlockSize file_off (io.read block_num)
    let buf := rd.1
    if rd.2 ≠ Option.none ∧ rd.2 ≠ some Err.EOF then
      (Outcome.error (rd.2.getD Err.EOF), content, [])
    else if buf.length = 0 then (Outcome.ok, content, [])
    else
      let out := encryptBlock key_data1 key_data2 total_pos buf
      let op : BlockOp := ⟨block_num, file_off, total_pos, buf, out⟩
      match io.write block_num with
      | some (n, e) =>
        (Outcome.error e, WriteAt content (out.take n) file_off.toNat, [op])
      | Option.none =>
        let r := blockLoop key_data1 key_data2 file_size num_blocks block_space io
          remaining (block_num + 1) (total_pos + buf.length)
          (WriteAt content out file_off.toNat)
        (r.1, r.2.1, op :: r.2.2)

/-- A slice expression `s[lo:hi]` on a slice whose capacity is its length:
`none` is the run-time panic. -/
def slice (s : List Nat) (lo hi : Nat) : Option (List Nat) :=
  if lo ≤ hi ∧ hi ≤ s.length then some ((s.drop lo).take (hi - lo)) else Option.none

/-- Lines 119-120: `key_data1_pos` (a `uint32`). -/
def keyData1Pos (n1 : Nat) : Nat := n1 % 2 ^ 32 % (EncryptionKeyTabSize - Key1Size)

/-- Lines 122-123: `key_data2_pos` (a `uint32`). -/
def keyData2Pos (n2 : Nat) : Nat := n2 % 2 ^ 32 % (EncryptionKeyTabSize - Key2Size)

/-- Lines 101-176 of `EvaluateFilename`, on the content of the opened file. -/
def evaluateContent (keytab : EncryptionKeyTab) (io : Faults) (content : List Nat)
    (n1 n2 : Nat) : Outcome × List Nat × List BlockOp :=
  let file_size := content.length
  if file_size = 0 then (Outcome.ok, content, [])
  else
    let num_blocks := numBlocks file_size
    let key_data1_pos := keyData1Pos n1
    match slice keytab.Data key_data1_pos ((key_data1_pos + Key1Size) % 2 ^ 32) with
    | Option.none => (Outcome.panic, content, [])
    | some key_data1 =>
      let key_data2_pos := keyData2Pos n2
      match slice keytab.Data key_data2_pos ((key_data2_pos + Key2Size) % 2 ^ 32) with
      | Option.none => (Outcome.panic, content, [])
      | some key_data2 =>
        let block_space := blockSpace file_size num_blocks
        blockLoop key_data1 key_data2 file_size num_blocks block_space io
          num_blocks 1 0 content

/-- Function `EvaluateFilename` (lines 85-177): outcome, file system afterwards, and the
log of the block loop. -/
def EvaluateFilename (keytab : EncryptionKeyTab) (io : Faults) (fs : FS)
    (filename : String) (n1 n2 : Nat) : Outcome × FS × List BlockOp :=
  match io.openFile with
  | some e => (Outcome.error e, fs, [])
  | Option.none =>
    match fs filename with
    | Option.none => (Outcome.error Err.notExist, fs, [])
    | some content =>
      match io.stat with
      | some e => (Outcome.error e, fs, [])
      | Option.none =>
        let r := evaluateContent keytab io content n1 n2
        (r.1, FS.set fs filename (some r.2.1), r.2.2)

/-! ## `EncryptFilename` (lines 56-81) -/

/-- The four bytes that the store `*(*uint32)(unsafe.Pointer(&ext_data[k])) = n`
writes, lowest address first, on a little-endian platform. -/
def le32 (n : Nat) : List Nat :=
  [n % 256, n / 256 % 256, n / 65536 % 256, n / 16777216 % 256]

/-- The builtin `copy(dst, src)`: the first `min (len dst) (len src)` elements of
`dst` are overwritten. -/
def copy (dst src : List Nat) : List Nat :=
  src.take dst.length ++ dst.drop src.length

/-- Store a `uint32` at byte index `k` of a buffer (lines 66-67). -/
def store32 (buf : List Nat) (k : Nat) (n : Nat) : List Nat :=
  (((buf.set k ((le32 n).getD 0 0)).set (k + 1) ((le32 n).getD 1 0)).set (k + 2)
    ((le32 n).getD 2 0)).set (k + 3) ((le32 n).getD 3 0)

/-- Lines 62-68: `ext_data` after the five stores. -/
def extData (keytab : EncryptionKeyTab) (n1 n2 : Nat) : List Nat :=
  let ext_data := List.replicate 42 0
  let ext_data := copy (ext_data.take 32) keytab.Hash ++ ext_data.drop 32
  let ext_data := ext_data.set 32 0xFF
  let ext_data := store32 ext_data 33 n1
  let ext_data := store32 ext_data 37 n2
  ext_data.set 41 0x34

/-- The alphabet of `base64.URLEncoding` (RFC 4648, section 5). -/
def encodeURL : List Char :=
  "ABCDEFGHIJKLMNOPQRSTUVWXYZabcdefghijklmnopqrstuvwxyz0123456789-_".toList

/-- The character of a 6-bit value. -/
def b64Char (v : Nat) : Char := encodeURL.getD v '='

/-- The library function `base64.URLEncoding.EncodeToString` (Go standard library,
RFC 4648 with padding), on a list of bytes. -/
def EncodeToString : List Nat → List Char
  | a :: b :: d :: rest =>
    b64Char (a / 4 % 64) :: b64Char (a % 4 * 16 + b / 16 % 16)
      :: b64Char (b % 16 * 4 + d / 64 % 4) :: b64Char (d % 64) :: EncodeToString rest
  | [a, b] => [b64Char (a / 4 % 64), b64Char (a % 4 * 16 + b / 16 % 16), b64Char (b % 16 * 4), '=']
  | [a] => [b64Char (a / 4 % 64), b64Char (a % 4 * 16), '=', '=']
  | [] => []

/-- Lines 70-72: `new_filename`. -/
def newFilename (keytab : EncryptionKeyTab) (filename ransom_ext : String)
    (n1 n2 : Nat) : String :=
  let file_ext := String.mk (EncodeToString (extData keytab n1 n2))
  filename ++ "." ++ file_ext ++ "." ++ ransom_ext

/-- The system call `os.Rename(oldpath, newpath)`: the error, if any, and the file
system afterwards. -/
def Rename (io : Faults) (fs : FS) (oldpath newpath : String) : Option Err × FS :=
  match io.rename with
  | some e => (some e, fs)
  | Option.none =>
    match fs oldpath with
    | Option.none => (some Err.notExist, fs)
    | some content => (Option.none, FS.set (FS.set fs oldpath Option.none) newpath (some content))

/-- Function `EncryptFilename` (lines 56-81).  `n1` and `n2` are the two values drawn from
`mathrand.Uint32()`. -/
def EncryptFilename (keytab : EncryptionKeyTab) (io : Faults) (fs : FS)
    (filename ransom_ext : String) (n1 n2 : Nat) : Outcome × FS × List BlockOp :=
  let new_filename := newFilename keytab filename ransom_ext n1 n2
  match Rename io fs filename new_filename with
  | (some e, fs1) => (Outcome.error e, fs1, [])
  | (Option.none, fs1) => EvaluateFilename keytab io fs1 new_filename n1 n2

/-! ## `Export` (lines 181-216) -/

/-- What `Export` uses of `crypto/rsa`: the size of a public key in bytes and the
randomised encryption `rsa.EncryptOAEP` with SHA-512/256 and no label.  The
second argument of `EncryptOAEP` stands for the bytes drawn from
`cryptorand.Reader` in that call; `none` is a returned error. -/
structure Cipher (PublicKey : Type) where
  Size : PublicKey → Nat
  EncryptOAEP : PublicKey → Nat → List Nat → Option (List Nat)

/-- Log entry of one iteration of the loop of `Export`. -/
structure ChunkOp (PublicKey : Type) where
  i : Nat
  pubkey : PublicKey
  pos : Nat
  chunk : List Nat
  enc_chunk : List Nat

/-- How a run of a loop with a fuel bound ends. -/
inductive Run (α : Type) where
  | done (a : α)
  | panic
  | outOfFuel

/-- Lines 195-198: `chunk_size` for a key of `key_size` bytes when `rem_len`
bytes are left. -/
def chunkSize (key_size rem_len : Nat) : Int :=
  let chunk_size : Int := (key_size : Int) - (2 * 32 + 2)
  if chunk_size > (rem_len : Int) then (rem_len : Int) else chunk_size

/-- Lines 191-213: the loop of `Export`, with a bound `fuel` on the number of
iterations.  `rng i` stands for the random bytes drawn in iteration `i`.  A
negative `chunk_size` makes the slice expression of line 205 panic. -/
def exportLoop {PublicKey : Type} (cipher : Cipher PublicKey) (pubkeys : List PublicKey)
    (data : List Nat) (rng : Nat → Nat) :
    Nat → Nat → Nat → Nat → List Nat → Run (List Nat × List (ChunkOp PublicKey))
  | fuel, pos, rem_len, i, dst_data =>
    if rem_len > 0 then
      match fuel with
      | 0 => Run.outOfFuel
      | fuel + 1 =>
        let num_keys := pubkeys.length
        if num_keys = 0 then Run.panic
        else
          match pubkeys[i % num_keys]? with
          | Option.none => Run.panic
          | some pubkey =>
            let chunk_size := chunkSize (cipher.Size pubkey) rem_len
            if chunk_size < 0 then Run.panic
            else
              match slice data pos (pos + chunk_size.toNat) with
              | Option.none => Run.panic
              | some chunk =>
                let enc_chunk := (cipher.EncryptOAEP pubkey (rng i) chunk).getD []
                match exportLoop cipher pubkeys data rng fuel (pos + chunk_size.toNat)
                    (rem_len - chunk_size.toNat) (i + 1) (dst_data ++ enc_chunk) with
                | Run.done r => Run.done (r.1, ⟨i, pubkey, pos, chunk, enc_chunk⟩ :: r.2)
                | Run.panic => Run.panic
                | Run.outOfFuel => Run.outOfFuel
    else Run.done (dst_data, [])

/-- Function `Export` (lines 181-216), with a bound on the number of loop iterations. -/
def Export {PublicKey : Type} (cipher : Cipher PublicKey) (keytab : EncryptionKeyTab)
    (pubkeys : List PublicKey) (rng : Nat → Nat) (fuel : Nat) :
    Run (List Nat × List (ChunkOp PublicKey)) :=
  exportLoop cipher pubkeys keytab.Data rng fuel 0 keytab.Data.length 0 []

/-! ## `GenKeyTab` (lines 38-52) -/

/-- What `GenKeyTab` uses of `crypto/sha512`: the function `Sum512_256`, whose
result type is `[32]byte`. -/
structure Sha where
  Sum512_256 : List Nat → List Nat
  size : ∀ d, (Sum512_256 d).length = 32

/-- The behaviour of the secure random source during one call of
`cryptorand.Read`: either it fills the buffer entirely (byte `i` of the buffer
becomes `stream i`), or it fails: it reports an error after delivering only
`delivered`, fewer bytes than asked for (a source that runs dry reports
`io.ErrUnexpectedEOF`). -/
inductive RandRead where
  | filled (stream : Nat → Nat)
  | failed (delivered : List Nat) (e : Err)

/-- The call `cryptorand.Read(b)` as package `crypto/rand` documents it from
Go 1.24 on: "It never returns an error, and always fills b entirely", and when
the source fails it "crashes the program irrecoverably".  The result `none` is
that crash; otherwise the buffer afterwards, `n` and `err`.  (Before Go 1.24 the
function handed the error of the source back to its caller.) -/
def cryptorandRead (src : RandRead) (b : List Nat) : Option (List Nat × Nat × Option Err) :=
  match src with
  | RandRead.filled stream => some ((List.range b.length).map stream, b.length, Option.none)
  | RandRead.failed _ _ => Option.none

/-- Function `GenKeyTab` (lines 38-52).  Line 41 discards both results of
`cryptorand.Read`; the result `none` is the program crashed inside that call, so
that no key table is produced. -/
def GenKeyTab (sha : Sha) (src : RandRead) : Option EncryptionKeyTab :=
  let data := List.replicate EncryptionKeyTabSize 0
  match cryptorandRead src data with
  | Option.none => Option.none
  | some r =>
    let data := r.1
    let hash := sha.Sum512_256 data
    some ⟨data, hash⟩

/-- The call `cryptorand.Read(b)` with a toolchain before Go 1.24, where it is
`io.ReadFull(Reader, b)`: a source that fails has overwritten only the first
bytes of the buffer, and `n` and the error are handed back to the caller. -/
def cryptorandReadBefore124 (src : RandRead) (b : List Nat) : List Nat × Nat × Option Err :=
  match src with
  | RandRead.filled stream => ((List.range b.length).map stream, b.length, Option.none)
  | RandRead.failed delivered e => (copy b delivered, min delivered.length b.length, some e)

/-- Function `GenKeyTab` (lines 38-52) built with a toolchain before Go 1.24:
line 41 discards `n` and the error, and the function goes on. -/
def GenKeyTabBefore124 (sha : Sha) (src : RandRead) : EncryptionKeyTab :=
  let data := List.replicate EncryptionKeyTabSize 0
  let data := (cryptorandReadBefore124 src data).1
  let hash := sha.Sum512_256 data
  ⟨data, hash⟩

/-! ## `Erase` (lines 220-231) -/

/-- The loop `for i := range s { s[i] = 0 }` (lines 223-225 and 228-230). -/
def zeroLoop (s : List Nat) : List Nat :=
  (List.range s.length).foldl (fun acc i => acc.set i 0) s

/-- Function `Erase` (lines 220-231): the key table after the call. -/
def Erase (keytab : EncryptionKeyTab) : EncryptionKeyTab :=
  ⟨zeroLoop keytab.Data, zeroLoop keytab.Hash⟩

/-! ## The methods on the memory they share

The methods receive a pointer to the key table, and the slices `key_data1`,
`key_data2` and `keytab.Data[pos : pos + chunk_size]` alias `keytab.Data`.  To
state what a call does to the key table, the methods are given a second time,
on an explicit memory: every assignment of the source to an array element is a
`Heap.store` into the array it addresses, every slice is a `View` of its array,
and every read of a slice element is a load from the memory as it is at that
moment. -/

/-- The byte arrays that the methods read or write. -/
inductive Obj where
  | Data
  | Hash
  | ext_data
  | buf
  | dst_data
deriving DecidableEq, Repr

/-- The memory: the content of every byte array. -/
structure Heap where
  Data : List Nat
  Hash : List Nat
  ext_data : List Nat
  buf : List Nat
  dst_data : List Nat

/-- The content of one array. -/
def Heap.get (h : Heap) : Obj → List Nat
  | Obj.Data => h.Data
  | Obj.Hash => h.Hash
  | Obj.ext_data => h.ext_data
  | Obj.buf => h.buf
  | Obj.dst_data => h.dst_data

/-- The key table behind the receiver pointer. -/
def Heap.keytab (h : Heap) : EncryptionKeyTab := ⟨h.get Obj.Data, h.get Obj.Hash⟩

/-- The memory that holds a given key table and nothing else. -/
def Heap.ofKeytab (keytab : EncryptionKeyTab) : Heap :=
  ⟨keytab.Data, keytab.Hash, [], [], []⟩

/-- A new content for the whole array `o`: a declaration, an `append`, or a
library call that fills the buffer it is given. -/
def Heap.assign (h : Heap) (o : Obj) (bytes : List Nat) : Heap :=
  match o with
  | Obj.Data => ⟨bytes, h.Hash, h.ext_data, h.buf, h.dst_data⟩
  | Obj.Hash => ⟨h.Data, bytes, h.ext_data, h.buf, h.dst_data⟩
  | Obj.ext_data => ⟨h.Data, h.Hash, bytes, h.buf, h.dst_data⟩
  | Obj.buf => ⟨h.Data, h.Hash, h.ext_data, bytes, h.dst_data⟩
  | Obj.dst_data => ⟨h.Data, h.Hash, h.ext_data, h.buf, bytes⟩

/-- The assignment `a[i] = v` to an element of array `o`. -/
def Heap.store (h : Heap) (o : Obj) (i v : Nat) : Heap :=
  h.assign o ((h.get o).set i v)

/-- A slice: the elements `lo .. hi` of an array of the memory, which it
aliases. -/
structure View where
  obj : Obj
  lo : Nat
  hi : Nat

/-- The slice expression `o[lo:hi]`; `none` is the run-time panic. -/
def Heap.sliceOf (h : Heap) (o : Obj) (lo hi : Nat) : Option View :=
  if lo ≤ hi ∧ hi ≤ (h.get o).length then some ⟨o, lo, hi⟩ else Option.none

/-- The load `v[i]` from a slice. -/
def Heap.index (h : Heap) (v : View) (i : Nat) : Nat :=
  (h.get v.obj).getD (v.lo + i) 0

/-- The elements of a slice, as a callee that only reads it sees them. -/
def Heap.bytes (h : Heap) (v : View) : List Nat :=
  ((h.get v.obj).drop v.lo).take (v.hi - v.lo)

/-- Lines 162-165 on the memory: the inner loop stores into `buf` and loads from
the two key slices. -/
def encryptBlockMem (h : Heap) (key_data1 key_data2 : View) (total_pos bytes_read : Nat) :
    Heap :=
  (List.range bytes_read).foldl (fun acc i =>
    let pos := total_pos + i
    acc.store Obj.buf i ((acc.get Obj.buf).getD i 0 ^^^
      (acc.index key_data1 (pos % Key1Size) ^^^ acc.index key_data2 (pos % Key2Size)))) h

/-- Lines 138-174 on the memory (compare `blockLoop`): `ReadAt` fills a prefix of
`buf`, the inner loop works in `buf`, `WriteAt` sends `buf[:bytes_read]`. -/
def blockLoopMem (key_data1 key_data2 : View) (file_size num_blocks : Nat)
    (block_space : Int) (io : Faults) :
    Nat → Nat → Nat → List Nat → Heap → Outcome × List Nat × Heap
  | 0, _, _, content, h => (Outcome.ok, content, h)
  | remaining + 1, block_num, total_pos, content, h =>
    let file_off := blockOffset file_size num_blocks block_space block_num
    let rd := ReadAt content BlockSize file_off (io.read block_num)
    let h := h.assign Obj.buf (copy (h.get Obj.buf) rd.1)
    let bytes_read := rd.1.length
    if rd.2 ≠ Option.none ∧ rd.2 ≠ some Err.EOF then
      (Outcome.error (rd.2.getD Err.EOF), content, h)
    else if bytes_read = 0 then (Outcome.ok, content, h)
    else
      let h := encryptBlockMem h key_data1 key_data2 total_pos bytes_read
      match io.write block_num with
      | some (n, e) =>
        (Outcome.error e,
          WriteAt content (((h.get Obj.buf).take bytes_read).take n) file_off.toNat, h)
      | Option.none =>
        blockLoopMem key_data1 key_data2 file_size num_blocks block_space io
          remaining (block_num + 1) (total_pos + bytes_read)
          (WriteAt content ((h.get Obj.buf).take bytes_read) file_off.toNat) h

/-- Lines 101-176 on the memory (compare `evaluateContent`). -/
def evaluateContentMem (h : Heap) (io : Faults) (content : List Nat) (n1 n2 : Nat) :
    Outcome × List Nat × Heap :=
  let file_size := content.length
  if file_size = 0 then (Outcome.ok, content, h)
  else
    let num_blocks := numBlocks file_size
    let key_data1_pos := keyData1Pos n1
    match h.sliceOf Obj.Data key_data1_pos ((key_data1_pos + Key1Size) % 2 ^ 32) with
    | Option.none => (Outcome.panic, content, h)
    | some key_data1 =>
      let key_data2_pos := keyData2Pos n2
      match h.sliceOf Obj.Data key_data2_pos ((key_data2_pos + Key2Size) % 2 ^ 32) with
      | Option.none => (Outcome.panic, content, h)
      | some key_data2 =>
        let h := h.assign Obj.buf (List.replicate BlockSize 0)
        let block_space := blockSpace file_size num_blocks
        blockLoopMem key_data1 key_data2 file_size num_blocks block_space io
          num_blocks 1 0 content h

/-- Function `EvaluateFilename` on the memory (compare `EvaluateFilename`). -/
def EvaluateFilenameMem (h : Heap) (io : Faults) (fs : FS) (filename : String)
    (n1 n2 : Nat) : Outcome × FS × Heap :=
  match io.openFile with
  | some e => (Outcome.error e, fs, h)
  | Option.none =>
    match fs filename with
    | Option.none => (Outcome.error Err.notExist, fs, h)
    | some content =>
      match io.stat with
      | some e => (Outcome.error e, fs, h)
      | Option.none =>
        let r := evaluateContentMem h io content n1 n2
        (r.1, FS.set fs filename (some r.2.1), r.2.2)

/-- Store a `uint32` at byte index `k` of `ext_data` (lines 66-67). -/
def store32Mem (h : Heap) (k : Nat) (n : Nat) : Heap :=
  (((h.store Obj.ext_data k ((le32 n).getD 0 0)).store Obj.ext_data (k + 1)
    ((le32 n).getD 1 0)).store Obj.ext_data (k + 2) ((le32 n).getD 2 0)).store
      Obj.ext_data (k + 3) ((le32 n).getD 3 0)

/-- Lines 62-68 on the memory: `ext_data` is declared and filled. -/
def extDataMem (h : Heap) (n1 n2 : Nat) : Heap :=
  let h := h.assign Obj.ext_data (List.replicate 42 0)
  let h := h.assign Obj.ext_data
    (copy ((h.get Obj.ext_data).take 32) (h.get Obj.Hash) ++ (h.get Obj.ext_data).drop 32)
  let h := h.store Obj.ext_data 32 0xFF
  let h := store32Mem h 33 n1
  let h := store32Mem h 37 n2
  h.store Obj.ext_data 41 0x34

/-- Function `EncryptFilename` on the memory (compare `EncryptFilename`). -/
def EncryptFilenameMem (h : Heap) (io : Faults) (fs : FS) (filename ransom_ext : String)
    (n1 n2 : Nat) : Outcome × FS × Heap :=
  let h := extDataMem h n1 n2
  let file_ext := String.mk (EncodeToString (h.get Obj.ext_data))
  let new_filename := filename ++ "." ++ file_ext ++ "." ++ ransom_ext
  match Rename io fs filename new_filename with
  | (some e, fs1) => (Outcome.error e, fs1, h)
  | (Option.none, fs1) => EvaluateFilenameMem h io fs1 new_filename n1 n2

/-- Lines 191-213 on the memory (compare `exportLoop`): the chunk is a slice of
`Data`, which `rsa.EncryptOAEP` reads, and the result is appended to
`dst_data`. -/
def exportLoopMem {PublicKey : Type} (cipher : Cipher PublicKey) (pubkeys : List PublicKey)
    (rng : Nat → Nat) : Nat → Nat → Nat → Nat → Heap → Run Heap
  | fuel, pos, rem_len, i, h =>
    if rem_len > 0 then
      match fuel with
      | 0 => Run.outOfFuel
      | fuel + 1 =>
        let num_keys := pubkeys.length
        if num_keys = 0 then Run.panic
        else
          match pubkeys[i % num_keys]? with
          | Option.none => Run.panic
          | some pubkey =>
            let chunk_size := chunkSize (cipher.Size pubkey) rem_len
            if chunk_size < 0 then Run.panic
            else
              match h.sliceOf Obj.Data pos (pos + chunk_size.toNat) with
              | Option.none => Run.panic
              | some chunk =>
                let enc_chunk := (cipher.EncryptOAEP pubkey (rng i) (h.bytes chunk)).getD []
                let h := h.assign Obj.dst_data (h.get Obj.dst_data ++ enc_chunk)
                exportLoopMem cipher pubkeys rng fuel (pos + chunk_size.toNat)
                  (rem_len - chunk_size.toNat) (i + 1) h
    else Run.done h

/-- Function `Export` on the memory (compare `Export`): the returned bytes and the
memory afterwards. -/
def ExportMem {PublicKey : Type} (cipher : Cipher PublicKey) (h : Heap)
    (pubkeys : List PublicKey) (rng : Nat → Nat) (fuel : Nat) : Run (List Nat × Heap) :=
  let h := h.assign Obj.dst_data []
  match exportLoopMem cipher pubkeys rng fuel 0 (h.get Obj.Data).length 0 h with
  | Run.done h2 => Run.done (h2.get Obj.dst_data, h2)
  | Run.panic => Run.panic
  | Run.outOfFuel => Run.outOfFuel

/-- The loop `for i := range s { s[i] = 0 }` on array `o` of the memory. -/
def zeroLoopMem (h : Heap) (o : Obj) : Heap :=
  (List.range (h.get o).length).foldl (fun acc i => acc.store o i 0) h

/-- Function `Erase` on the memory. -/
def EraseMem (h : Heap) : Heap :=
  zeroLoopMem (zeroLoopMem h Obj.Data) Obj.Hash

/-- A call of one of the four methods of `*EncryptionKeyTab`, with its arguments
and the behaviour of its environment. -/
inductive Op (PublicKey : Type) where
  | EncryptFilename (io : Faults) (filename ransom_ext : String) (n1 n2 : Nat)
  | EvaluateFilename (io : Faults) (filename : String) (n1 n2 : Nat)
  | Export (cipher : Cipher PublicKey) (pubkeys : List PublicKey) (rng : Nat → Nat)
      (fuel : Nat)
  | Erase

/-- The state a sequence of calls acts on: the memory and the file system. -/
structure World where
  heap : Heap
  fs : FS

/-- The state after one call, taken from what the method did to the memory and
the file system; `none` when the call does not return (a run-time panic, or a
loop that is not finished within its bound). -/
def step {PublicKey : Type} (w : World) : Op PublicKey → Option World
  | Op.EncryptFilename io filename ransom_ext n1 n2 =>
    match EncryptFilenameMem w.heap io w.fs filename ransom_ext n1 n2 with
    | (Outcome.panic, _, _) => Option.none
    | (_, fs, h) => some ⟨h, fs⟩
  | Op.EvaluateFilename io filename n1 n2 =>
    match EvaluateFilenameMem w.heap io w.fs filename n1 n2 with
    | (Outcome.panic, _, _) => Option.none
    | (_, fs, h) => some ⟨h, fs⟩
  | Op.Export cipher pubkeys rng fuel =>
    match ExportMem cipher w.heap pubkeys rng fuel with
    | Run.done r => some ⟨r.2, w.fs⟩
    | _ => Option.none
  | Op.Erase => some ⟨EraseMem w.heap, w.fs⟩

/-- The state after a sequence of calls that all return. -/
def run {PublicKey : Type} (w : World) : List (Op PublicKey) → Option World
  | [] => some w
  | op :: rest =>
    match step w op with
    | Option.none => Option.none
    | some w2 => run w2 rest

/-- The operation is a call of `Erase`. -/
def Op.isErase {PublicKey : Type} : Op PublicKey → Bool
  | Op.Erase => true
  | _ => false

/-! ## Auxiliary notions used to state the properties -/

/-- XOR the byte at every index `j` of `fc` with `μ j`. -/
def xorMask (μ : Nat → Nat) (fc : List Nat) : List Nat :=
  fc.mapIdx (fun j x => x ^^^ μ j)

/-- The mask that one loop iteration applies to the file: the key stream of
positions `total_pos, total_pos + 1, ...` laid over the block at `off`. -/
def blockMask (key_data1 key_data2 : List Nat) (total_pos off : Nat) (j : Nat) : Nat :=
  if off ≤ j ∧ j < off + BlockSize then keyByte key_data1 key_data2 (total_pos + (j - off))
  else 0

/-- Apply the writes of a log, in order, to a file content. -/
def replay (log : List BlockOp) (fc : List Nat) : List Nat :=
  log.foldl (fun acc op => WriteAt acc op.bytes_out op.file_off.toNat) fc

/-- The first key window of `EvaluateFilename`: `key_data1` (line 120). -/
def window1 (keytab : EncryptionKeyTab) (n1 : Nat) : List Nat :=
  (keytab.Data.drop (keyData1Pos n1)).take Key1Size

/-- The second key window of `EvaluateFilename`: `key_data2` (line 123). -/
def window2 (keytab : EncryptionKeyTab) (n2 : Nat) : List Nat :=
  (keytab.Data.drop (keyData2Pos n2)).take Key2Size

/-- Index `j` of `Data` belongs to the first window. -/
def inWindow1 (n1 j : Nat) : Prop :=
  keyData1Pos n1 ≤ j ∧ j < keyData1Pos n1 + Key1Size

/-- Index `j` of `Data` belongs to the second window. -/
def inWindow2 (n2 j : Nat) : Prop :=
  keyData2Pos n2 ≤ j ∧ j < keyData2Pos n2 + Key2Size

/-- A key table of the size that `GenKeyTab` builds, all zero. -/
def zeroKeyTab : EncryptionKeyTab :=
  ⟨List.replicate EncryptionKeyTabSize 0, List.replicate 32 0⟩

/-- Read four bytes as a little-endian 32-bit integer. -/
def readLE32 (b : List Nat) : Nat :=
  b.getD 0 0 + 256 * b.getD 1 0 + 65536 * b.getD 2 0 + 16777216 * b.getD 3 0

/-- Modelled from the spec: the repository has no import routine.  The
decryption side as the specification describes it: cut the blob into
consecutive pieces of the key sizes of the recipients taken round-robin,
decrypt piece `j` with the private key that matches `pubkeys[j mod len]`
(`decrypt` is indexed by the public key), and concatenate.  `none` is a failed
decryption, a missing recipient, or too little fuel. -/
def specImportLoop {PublicKey : Type} (size : PublicKey → Nat)
    (decrypt : PublicKey → List Nat → Option (List Nat)) (pubkeys : List PublicKey) :
    Nat → Nat → List Nat → Option (List Nat)
  | fuel, j, blob =>
    if blob = [] then some []
    else
      match fuel with
      | 0 => Option.none
      | fuel + 1 =>
        match pubkeys[j % pubkeys.length]? with
        | Option.none => Option.none
        | some pubkey =>
          match decrypt pubkey (blob.take (size pubkey)) with
          | Option.none => Option.none
          | some m =>
            match specImportLoop size decrypt pubkeys fuel (j + 1) (blob.drop (size pubkey)) with
            | Option.none => Option.none
            | some rest => some (m ++ rest)

/-- Modelled from the spec: the import of a whole blob (see `specImportLoop`);
one iteration per byte of the blob is always enough. -/
def specImport {PublicKey : Type} (size : PublicKey → Nat)
    (decrypt : PublicKey → List Nat → Option (List Nat)) (pubkeys : List PublicKey)
    (blob : List Nat) : Option (List Nat) :=
  specImportLoop size decrypt pubkeys blob.length 0 blob

/-- A toy cipher on keys that are their own size: the ciphertext is the length
of the message, the message, and padding up to the key size.  It rejects
messages longer than the key size minus 66, as `rsa.EncryptOAEP` does. -/
def toyCipher : Cipher Nat :=
  ⟨fun k => k, fun k r m =>
    if m.length + 66 ≤ k then some (m.length :: (m ++ List.replicate (k - 1 - m.length) r))
    else Option.none⟩

/-- Decryption for `toyCipher`. -/
def toyDecrypt (_k : Nat) (ct : List Nat) : Option (List Nat) :=
  match ct with
  | [] => Option.none
  | n :: rest => some (rest.take n)

/-- The result of the `ReadAt` of loop iteration `k`, performed on the file
content `fc`. -/
def readOfBlock (io : Faults) (file_size num_blocks : Nat) (block_space : Int)
    (fc : List Nat) (k : Nat) : List Nat × Option Err :=
  ReadAt fc BlockSize (blockOffset file_size num_blocks block_space k) (io.read k)

/-- The test of line 153 on the result of a read: an error other than `io.EOF`. -/
def readFailed (r : List Nat × Option Err) : Prop :=
  r.2 ≠ Option.none ∧ r.2 ≠ some Err.EOF

/-- The number of blocks that `EvaluateFilename` plans for a file of the given
size: none after the return of line 105, `num_blocks` otherwise. -/
def blockCount (file_size : Nat) : Nat :=
  if file_size = 0 then 0 else numBlocks file_size

/-- The indices at which two byte sequences differ. -/
def diffIndices (a b : List Nat) : Finset Nat :=
  (Finset.range a.length).filter (fun j => a[j]? ≠ b[j]?)

/-- A hash function of the right result size, for examples. -/
def zeroSha : Sha := ⟨fun _ => List.replicate 32 0, fun _ => List.length_replicate 32 0⟩

/-! ## Block arithmetic -/

theorem numBlocks_pos (s : Nat) : 1 ≤ numBlocks s := by
  unfold numBlocks MaxNumBlocks BlockSize
  simp only []
  split_ifs <;> omega

theorem numBlocks_le_max (s : Nat) : numBlocks s ≤ MaxNumBlocks := by
  unfold numBlocks MaxNumBlocks BlockSize
  simp only []
  split_ifs <;> omega

/-- For a file size that fits `int64`, the intermediate values of lines 103 and
132 fit `int64` as well. -/
theorem blockArith_no_overflow (s : Nat) (h : s < 2 ^ 63) :
    30 * (s / BlockSize) < 2 ^ 63 ∧ numBlocks s * BlockSize < 2 ^ 63 := by
  have h1 := numBlocks_le_max s
  unfold MaxNumBlocks at h1
  unfold BlockSize
  omega

theorem numBlocks_small (s : Nat) (h : s ≤ BlockSize) : numBlocks s = 1 := by
  unfold numBlocks
  simp [h]

theorem numBlocks_large (s : Nat) (h : BlockSize < s) : 2 ≤ numBlocks s := by
  unfold numBlocks MaxNumBlocks
  unfold BlockSize at *
  simp only []
  split_ifs <;> omega

theorem numBlocks_mul_le (s : Nat) (h : 3 ≤ numBlocks s) :
    numBlocks s * BlockSize ≤ s := by
  unfold numBlocks MaxNumBlocks at *
  unfold BlockSize at *
  simp only [] at *
  split_ifs at * <;> omega

theorem blockSpace_bounds (s : Nat) (h : 3 ≤ numBlocks s) :
    0 ≤ blockSpace s (numBlocks s) ∧
      blockSpace s (numBlocks s) + (BlockSize : Int) ≤ (s : Int) := by
  have hm := numBlocks_mul_le s h
  unfold blockSpace
  rw [if_pos (by omega)]
  have h1 : (0 : Int) ≤ (s : Int) - ((numBlocks s * BlockSize : Nat) : Int) := by omega
  have h2 : (0 : Int) ≤ (numBlocks s : Int) - 1 := by omega
  rw [Int.tdiv_eq_ediv h1 h2]
  constructor
  · exact Int.ediv_nonneg h1 h2
  · have h3 := Int.ediv_le_self ((numBlocks s : Int) - 1) h1
    unfold BlockSize at *
    push_cast at *
    nlinarith

/-! ## Files as lists: reading, writing, masks -/

theorem xorMask_length (μ : Nat → Nat) (fc : List Nat) :
    (xorMask μ fc).length = fc.length := by
  simp [xorMask]

theorem xorMask_getElem? (μ : Nat → Nat) (fc : List Nat) (j : Nat) :
    (xorMask μ fc)[j]? = Option.map (fun x => x ^^^ μ j) fc[j]? := by
  simp [xorMask, List.getElem?_mapIdx]

theorem xorMask_xorMask (μ ν : Nat → Nat) (fc : List Nat) :
    xorMask ν (xorMask μ fc) = xorMask (fun j => μ j ^^^ ν j) fc := by
  apply List.ext_getElem?
  intro j
  simp only [xorMask_getElem?, Option.map_map]
  congr 1
  funext x
  simp [Nat.xor_assoc]

theorem xorMask_self (μ : Nat → Nat) (fc : List Nat) :
    xorMask μ (xorMask μ fc) = fc := by
  apply List.ext_getElem?
  intro j
  rw [xorMask_xorMask, xorMask_getElem?]
  simp

theorem readAt_ok (fc : List Nat) (off : Int) (h0 : 0 ≤ off) :
    (ReadAt fc BlockSize off Option.none).1 = (fc.drop off.toNat).take BlockSize ∧
    ((ReadAt fc BlockSize off Option.none).2 = Option.none ∨
      (ReadAt fc BlockSize off Option.none).2 = some Err.EOF) := by
  unfold ReadAt
  rw [if_neg (by omega)]
  simp only [true_and]
  split_ifs <;> simp

theorem WriteAt_length (fc b : List Nat) (off : Nat) (h : off + b.length ≤ fc.length) :
    (WriteAt fc b off).length = fc.length := by
  simp [WriteAt]
  omega

theorem WriteAt_encryptBlock (k1 k2 fc : List Nat) (tp off : Nat) (h : off < fc.length) :
    WriteAt fc (encryptBlock k1 k2 tp ((fc.drop off).take BlockSize)) off
      = xorMask (blockMask k1 k2 tp off) fc := by
  apply List.ext_getElem?
  intro j
  have hr : off - fc.length = 0 := by omega
  have hl : (encryptBlock k1 k2 tp ((fc.drop off).take BlockSize)).length
      = min BlockSize (fc.length - off) := by
    simp [encryptBlock]
  rw [xorMask_getElem?]
  unfold WriteAt
  rw [hr, List.replicate_zero, List.append_nil, List.append_assoc]
  by_cases h1 : j < off
  · rw [List.getElem?_append_left (by simp; omega), List.getElem?_take_of_lt h1]
    have : ¬ (off ≤ j ∧ j < off + BlockSize) := by omega
    simp [blockMask, this]
  · rw [List.getElem?_append_right (by simp; omega)]
    have hto : (List.take off fc).length = off := by simp; omega
    rw [hto]
    by_cases h2 : j < off + min BlockSize (fc.length - off)
    · rw [List.getElem?_append_left (by rw [hl]; omega)]
      have hin : off ≤ j ∧ j < off + BlockSize := by omega
      simp only [encryptBlock, List.getElem?_mapIdx, List.getElem?_take, List.getElem?_drop,
        blockMask, hin, and_self, if_true]
      have h3 : j - off < BlockSize := by omega
      have h4 : off + (j - off) = j := by omega
      simp [h3, h4]
    · rw [List.getElem?_append_right (by rw [hl]; omega), hl, List.getElem?_drop]
      by_cases h5 : j < fc.length
      · have h6 : off + min BlockSize (fc.length - off) + (j - off - min BlockSize (fc.length - off)) = j := by
          omega
        have : ¬ (off ≤ j ∧ j < off + BlockSize) := by omega
        simp [h6, blockMask, this]
      · rw [List.getElem?_eq_none (by omega), List.getElem?_eq_none (by omega)]
        rfl

/-! ## The planned offsets lie inside the file -/

theorem blockOffset_first (s N : Nat) (bs : Int) : blockOffset s N bs 1 = 0 := by
  simp [blockOffset]

theorem blockOffset_last (s N : Nat) (bs : Int) (hN : 2 ≤ N) (hs : BlockSize < s) :
    blockOffset s N bs N = (s : Int) - (BlockSize : Int) := by
  unfold blockOffset
  simp only []
  rw [if_neg (by omega), if_pos (by trivial), if_pos (by omega)]

theorem blockOffset_middle (s N : Nat) (bs : Int) (k : Nat) (h1 : k ≠ 1) (h2 : k ≠ N) :
    blockOffset s N bs k = bs := by
  unfold blockOffset
  simp only []
  rw [if_neg h1, if_neg h2]
  omega

theorem blockOffset_in_file (s : Nat) (hs : 0 < s) (k : Nat) (h1 : 1 ≤ k)
    (h2 : k ≤ numBlocks s) :
    0 ≤ blockOffset s (numBlocks s) (blockSpace s (numBlocks s)) k ∧
    (blockOffset s (numBlocks s) (blockSpace s (numBlocks s)) k).toNat < s ∧
    (BlockSize < s →
      blockOffset s (numBlocks s) (blockSpace s (numBlocks s)) k + (BlockSize : Int)
        ≤ (s : Int)) := by
  by_cases hk1 : k = 1
  · subst hk1
    rw [blockOffset_first]
    refine ⟨le_refl _, by simpa using hs, ?_⟩
    intro h
    omega
  · have hlarge : BlockSize < s := by
      by_contra hc
      have := numBlocks_small s (by omega)
      omega
    by_cases hkN : k = numBlocks s
    · have hN : 2 ≤ numBlocks s := by omega
      rw [hkN, blockOffset_last s _ _ hN hlarge]
      unfold BlockSize at *
      omega
    · rw [blockOffset_middle s _ _ k hk1 hkN]
      have hb := blockSpace_bounds s (by omega)
      unfold BlockSize at *
      omega

/-! ## The block loop without faults -/

theorem blockLoop_step (k1 k2 : List Nat) (s N : Nat) (bs : Int) (rem bn tp : Nat)
    (fc : List Nat) (h0 : 0 ≤ blockOffset s N bs bn)
    (h1 : (blockOffset s N bs bn).toNat < fc.length) :
    blockLoop k1 k2 s N bs Faults.none (rem + 1) bn tp fc =
      ((blockLoop k1 k2 s N bs Faults.none rem (bn + 1)
          (tp + ((fc.drop (blockOffset s N bs bn).toNat).take BlockSize).length)
          (WriteAt fc
            (encryptBlock k1 k2 tp ((fc.drop (blockOffset s N bs bn).toNat).take BlockSize))
            (blockOffset s N bs bn).toNat)).1,
       (blockLoop k1 k2 s N bs Faults.none rem (bn + 1)
          (tp + ((fc.drop (blockOffset s N bs bn).toNat).take BlockSize).length)
          (WriteAt fc
            (encryptBlock k1 k2 tp ((fc.drop (blockOffset s N bs bn).toNat).take BlockSize))
            (blockOffset s N bs bn).toNat)).2.1,
       (⟨bn, blockOffset s N bs bn, tp,
          (fc.drop (blockOffset s N bs bn).toNat).take BlockSize,
          encryptBlock k1 k2 tp ((fc.drop (blockOffset s N bs bn).toNat).take BlockSize)⟩
          : BlockOp) ::
        (blockLoop k1 k2 s N bs Faults.none rem (bn + 1)
          (tp + ((fc.drop (blockOffset s N bs bn).toNat).take BlockSize).length)
          (WriteAt fc
            (encryptBlock k1 k2 tp ((fc.drop (blockOffset s N bs bn).toNat).take BlockSize))
            (blockOffset s N bs bn).toNat)).2.2) := by
  have hr := readAt_ok fc (blockOffset s N bs bn) h0
  obtain ⟨hr1, hr2⟩ := hr
  have hne : ¬ (((ReadAt fc BlockSize (blockOffset s N bs bn) Option.none).2 ≠ Option.none) ∧
      ((ReadAt fc BlockSize (blockOffset s N bs bn) Option.none).2 ≠ some Err.EOF)) := by
    rcases hr2 with h | h <;> simp [h]
  have hlen : ¬ ((fc.drop (blockOffset s N bs bn).toNat).take BlockSize).length = 0 := by
    simp [BlockSize]
    omega
  simp only [blockLoop, Faults.none]
  rw [if_neg hne, hr1, if_neg hlen]

theorem encryptBlock_length (k1 k2 : List Nat) (tp : Nat) (buf : List Nat) :
    (encryptBlock k1 k2 tp buf).length = buf.length := by
  simp [encryptBlock]

theorem WriteAt_block_length (k1 k2 fc : List Nat) (tp off : Nat) (h : off < fc.length) :
    (WriteAt fc (encryptBlock k1 k2 tp ((fc.drop off).take BlockSize)) off).length
      = fc.length := by
  rw [WriteAt_encryptBlock k1 k2 fc tp off h, xorMask_length]

/-- The loop without faults, on offsets that lie inside the file: it runs all
its iterations, and its log describes each of them. -/
theorem blockLoop_log (k1 k2 : List Nat) (s N : Nat) (bs : Int) :
    ∀ (rem bn tp : Nat) (fc : List Nat), fc.length = s →
      (∀ k, bn ≤ k → k < bn + rem →
        0 ≤ blockOffset s N bs k ∧ (blockOffset s N bs k).toNat < s) →
      (blockLoop k1 k2 s N bs Faults.none rem bn tp fc).1 = Outcome.ok ∧
      (blockLoop k1 k2 s N bs Faults.none rem bn tp fc).2.1
        = replay (blockLoop k1 k2 s N bs Faults.none rem bn tp fc).2.2 fc ∧
      (blockLoop k1 k2 s N bs Faults.none rem bn tp fc).2.1.length = s ∧
      (blockLoop k1 k2 s N bs Faults.none rem bn tp fc).2.2.length = rem ∧
      ∀ (k : Nat) (op : BlockOp),
        (blockLoop k1 k2 s N bs Faults.none rem bn tp fc).2.2[k]? = some op →
        op.block_num = bn + k ∧
        op.file_off = blockOffset s N bs (bn + k) ∧
        op.total_pos = tp + (((blockLoop k1 k2 s N bs Faults.none rem bn tp fc).2.2.take k).map
          (fun o => o.bytes_in.length)).sum ∧
        op.bytes_in = ((replay ((blockLoop k1 k2 s N bs Faults.none rem bn tp fc).2.2.take k)
          fc).drop op.file_off.toNat).take BlockSize ∧
        op.bytes_out = encryptBlock k1 k2 op.total_pos op.bytes_in ∧
        op.bytes_in.length = min BlockSize (s - op.file_off.toNat) := by
  intro rem
  induction rem with
  | zero =>
    intro bn tp fc hlen _
    simp [blockLoop, replay, hlen]
  | succ rem ih =>
    intro bn tp fc hlen hoff
    obtain ⟨h0, h1s⟩ := hoff bn (le_refl _) (by omega)
    have h1 : (blockOffset s N bs bn).toNat < fc.length := by rw [hlen]; exact h1s
    rw [blockLoop_step k1 k2 s N bs rem bn tp fc h0 h1]
    have hlen2 := WriteAt_block_length k1 k2 fc tp (blockOffset s N bs bn).toNat h1
    obtain ⟨i1, i2, i3, i4, i5⟩ := ih (bn + 1)
      (tp + ((fc.drop (blockOffset s N bs bn).toNat).take BlockSize).length)
      (WriteAt fc
        (encryptBlock k1 k2 tp ((fc.drop (blockOffset s N bs bn).toNat).take BlockSize))
        (blockOffset s N bs bn).toNat)
      (by rw [hlen2, hlen])
      (fun k hk1 hk2 => hoff k (by omega) (by omega))
    refine ⟨i1, ?_, i3, by simp only [List.length_cons, i4], ?_⟩
    · simp only [replay, List.foldl_cons]
      exact i2
    · intro k op hk
      cases k with
      | zero =>
        simp only [List.getElem?_cons_zero, Option.some.injEq] at hk
        subst hk
        simp [replay, hlen]
      | succ k =>
        simp only [List.getElem?_cons_succ] at hk
        obtain ⟨j1, j2, j3, j4, j5, j6⟩ := i5 k op hk
        refine ⟨by omega, by rw [j2]; congr 1; omega, ?_, ?_, j5, j6⟩
        · rw [j3]
          simp only [List.take_succ_cons, List.map_cons, List.sum_cons]
          omega
        · rw [j4]
          simp only [List.take_succ_cons, replay, List.foldl_cons]

theorem xorMask_zero (fc : List Nat) : xorMask (fun _ => 0) fc = fc := by
  apply List.ext_getElem?
  intro j
  rw [xorMask_getElem?]
  simp

/-- Without faults and on offsets inside the file, the loop XORs the file with
a mask that depends on the file size only, not on the content. -/
theorem blockLoop_mask (k1 k2 : List Nat) (s N : Nat) (bs : Int) :
    ∀ (rem bn tp : Nat),
      (∀ k, bn ≤ k → k < bn + rem →
        0 ≤ blockOffset s N bs k ∧ (blockOffset s N bs k).toNat < s) →
      ∃ μ : Nat → Nat, ∀ fc : List Nat, fc.length = s →
        (blockLoop k1 k2 s N bs Faults.none rem bn tp fc).2.1 = xorMask μ fc := by
  intro rem
  induction rem with
  | zero =>
    intro bn tp _
    exact ⟨fun _ => 0, fun fc _ => by simp [blockLoop, xorMask_zero]⟩
  | succ rem ih =>
    intro bn tp hoff
    obtain ⟨h0, h1s⟩ := hoff bn (le_refl _) (by omega)
    obtain ⟨μ, hμ⟩ := ih (bn + 1)
      (tp + min BlockSize (s - (blockOffset s N bs bn).toNat))
      (fun k hk1 hk2 => hoff k (by omega) (by omega))
    refine ⟨fun j => blockMask k1 k2 tp (blockOffset s N bs bn).toNat j ^^^ μ j, ?_⟩
    intro fc hlen
    have h1 : (blockOffset s N bs bn).toNat < fc.length := by rw [hlen]; exact h1s
    rw [blockLoop_step k1 k2 s N bs rem bn tp fc h0 h1]
    have hn : ((fc.drop (blockOffset s N bs bn).toNat).take BlockSize).length
        = min BlockSize (s - (blockOffset s N bs bn).toNat) := by
      simp [hlen]
    simp only []
    rw [hn, WriteAt_encryptBlock k1 k2 fc tp _ h1,
      hμ _ (by rw [xorMask_length, hlen]), xorMask_xorMask]

/-! ## The key windows -/

theorem keyData1Pos_lt (n1 : Nat) : keyData1Pos n1 < EncryptionKeyTabSize - Key1Size := by
  unfold keyData1Pos
  exact Nat.mod_lt _ (by decide)

theorem keyData2Pos_lt (n2 : Nat) : keyData2Pos n2 < EncryptionKeyTabSize - Key2Size := by
  unfold keyData2Pos
  exact Nat.mod_lt _ (by decide)

theorem slice_window1 (keytab : EncryptionKeyTab)
    (hD : keytab.Data.length = EncryptionKeyTabSize) (n1 : Nat) :
    slice keytab.Data (keyData1Pos n1) ((keyData1Pos n1 + Key1Size) % 2 ^ 32)
      = some (window1 keytab n1) := by
  have h := keyData1Pos_lt n1
  unfold EncryptionKeyTabSize Key1Size at h
  have hm : (keyData1Pos n1 + Key1Size) % 2 ^ 32 = keyData1Pos n1 + Key1Size := by
    apply Nat.mod_eq_of_lt
    unfold Key1Size
    omega
  unfold slice
  rw [hm, if_pos (by rw [hD]; unfold EncryptionKeyTabSize Key1Size; omega)]
  simp [window1]

theorem slice_window2 (keytab : EncryptionKeyTab)
    (hD : keytab.Data.length = EncryptionKeyTabSize) (n2 : Nat) :
    slice keytab.Data (keyData2Pos n2) ((keyData2Pos n2 + Key2Size) % 2 ^ 32)
      = some (window2 keytab n2) := by
  have h := keyData2Pos_lt n2
  unfold EncryptionKeyTabSize Key2Size at h
  have hm : (keyData2Pos n2 + Key2Size) % 2 ^ 32 = keyData2Pos n2 + Key2Size := by
    apply Nat.mod_eq_of_lt
    unfold Key2Size
    omega
  unfold slice
  rw [hm, if_pos (by rw [hD]; unfold EncryptionKeyTabSize Key2Size; omega)]
  simp [window2]

/-! ## `EvaluateFilename` without faults -/

theorem evaluateContent_eq (keytab : EncryptionKeyTab)
    (hD : keytab.Data.length = EncryptionKeyTabSize) (io : Faults) (content : List Nat)
    (hs : content.length ≠ 0) (n1 n2 : Nat) :
    evaluateContent keytab io content n1 n2 =
      blockLoop (window1 keytab n1) (window2 keytab n2) content.length
        (numBlocks content.length) (blockSpace content.length (numBlocks content.length)) io
        (numBlocks content.length) 1 0 content := by
  unfold evaluateContent
  simp only []
  rw [if_neg hs, slice_window1 keytab hD n1, slice_window2 keytab hD n2]

theorem evaluateContent_empty (keytab : EncryptionKeyTab) (io : Faults) (content : List Nat)
    (hs : content.length = 0) (n1 n2 : Nat) :
    evaluateContent keytab io content n1 n2 = (Outcome.ok, content, []) := by
  unfold evaluateContent
  simp only []
  rw [if_pos hs]

theorem EvaluateFilename_eq (keytab : EncryptionKeyTab) (fs : FS) (filename : String)
    (content : List Nat) (hf : fs filename = some content) (n1 n2 : Nat) :
    EvaluateFilename keytab Faults.none fs filename n1 n2 =
      ((evaluateContent keytab Faults.none content n1 n2).1,
        FS.set fs filename (some (evaluateContent keytab Faults.none content n1 n2).2.1),
        (evaluateContent keytab Faults.none content n1 n2).2.2) := by
  unfold EvaluateFilename
  simp [Faults.none, hf]

theorem plan_offsets_in_file (s : Nat) (hs : s ≠ 0) (k : Nat) (h1 : 1 ≤ k)
    (h2 : k < 1 + numBlocks s) :
    0 ≤ blockOffset s (numBlocks s) (blockSpace s (numBlocks s)) k ∧
      (blockOffset s (numBlocks s) (blockSpace s (numBlocks s)) k).toNat < s := by
  obtain ⟨a, b, _⟩ := blockOffset_in_file s (by omega) k h1 (by omega)
  exact ⟨a, b⟩

theorem FS_set_same (fs : FS) (path : String) (x : Option (List Nat)) :
    FS.set fs path x path = x := by
  simp [FS.set]

theorem FS_set_set (fs : FS) (path : String) (x y : Option (List Nat)) :
    FS.set (FS.set fs path x) path y = FS.set fs path y := by
  funext p
  unfold FS.set
  split_ifs <;> rfl

theorem FS_set_self (fs : FS) (path : String) (x : Option (List Nat)) (h : fs path = x) :
    FS.set fs path x = fs := by
  funext p
  unfold FS.set
  split_ifs with hp
  · rw [hp, h]
  · rfl

/-- The result of the whole loop of `EvaluateFilename` on a non-empty file. -/
theorem evaluateContent_log (keytab : EncryptionKeyTab)
    (hD : keytab.Data.length = EncryptionKeyTabSize) (content : List Nat)
    (hs : content.length ≠ 0) (n1 n2 : Nat) :
    (evaluateContent keytab Faults.none content n1 n2).1 = Outcome.ok ∧
    (evaluateContent keytab Faults.none content n1 n2).2.1
      = replay (evaluateContent keytab Faults.none content n1 n2).2.2 content ∧
    (evaluateContent keytab Faults.none content n1 n2).2.1.length = content.length ∧
    (evaluateContent keytab Faults.none content n1 n2).2.2.length = numBlocks content.length ∧
    ∀ (k : Nat) (op : BlockOp),
      (evaluateContent keytab Faults.none content n1 n2).2.2[k]? = some op →
      op.block_num = 1 + k ∧
      op.file_off = blockOffset content.length (numBlocks content.length)
        (blockSpace content.length (numBlocks content.length)) (1 + k) ∧
      op.total_pos = 0 + (((evaluateContent keytab Faults.none content n1 n2).2.2.take k).map
        (fun o => o.bytes_in.length)).sum ∧
      op.bytes_in = ((replay ((evaluateContent keytab Faults.none content n1 n2).2.2.take k)
        content).drop op.file_off.toNat).take BlockSize ∧
      op.bytes_out = encryptBlock (window1 keytab n1) (window2 keytab n2) op.total_pos
        op.bytes_in ∧
      op.bytes_in.length = min BlockSize (content.length - op.file_off.toNat) := by
  rw [evaluateContent_eq keytab hD Faults.none content hs n1 n2]
  exact blockLoop_log (window1 keytab n1) (window2 keytab n2) content.length
    (numBlocks content.length) (blockSpace content.length (numBlocks content.length))
    (numBlocks content.length) 1 0 content rfl
    (fun k hk1 hk2 => plan_offsets_in_file content.length hs k hk1 hk2)

theorem evaluateContent_twice (keytab : EncryptionKeyTab)
    (hD : keytab.Data.length = EncryptionKeyTabSize) (content : List Nat) (n1 n2 : Nat) :
    (evaluateContent keytab Faults.none content n1 n2).1 = Outcome.ok ∧
    (evaluateContent keytab Faults.none
      (evaluateContent keytab Faults.none content n1 n2).2.1 n1 n2).1 = Outcome.ok ∧
    (evaluateContent keytab Faults.none
      (evaluateContent keytab Faults.none content n1 n2).2.1 n1 n2).2.1 = content := by
  by_cases hs : content.length = 0
  · rw [evaluateContent_empty keytab Faults.none content hs n1 n2]
    simp only []
    rw [evaluateContent_empty keytab Faults.none content hs n1 n2]
    simp
  · obtain ⟨a1, _, a3, _, _⟩ := evaluateContent_log keytab hD content hs n1 n2
    have hs2 : (evaluateContent keytab Faults.none content n1 n2).2.1.length ≠ 0 := by
      rw [a3]; exact hs
    obtain ⟨b1, _, _, _, _⟩ := evaluateContent_log keytab hD
      (evaluateContent keytab Faults.none content n1 n2).2.1 hs2 n1 n2
    refine ⟨a1, b1, ?_⟩
    obtain ⟨μ, hμ⟩ := blockLoop_mask (window1 keytab n1) (window2 keytab n2) content.length
      (numBlocks content.length) (blockSpace content.length (numBlocks content.length))
      (numBlocks content.length) 1 0
      (fun k hk1 hk2 => plan_offsets_in_file content.length hs k hk1 hk2)
    rw [evaluateContent_eq keytab hD Faults.none _ hs2 n1 n2, a3, hμ _ a3,
      evaluateContent_eq keytab hD Faults.none content hs n1 n2, hμ content rfl, xorMask_self]

theorem window1_getD (keytab : EncryptionKeyTab) (n1 p : Nat) :
    (window1 keytab n1).getD (p % Key1Size) 0
      = keytab.Data.getD (keyData1Pos n1 + p % Key1Size) 0 := by
  have h : p % Key1Size < Key1Size := Nat.mod_lt _ (by decide)
  simp [window1, List.getD_eq_getElem?_getD, List.getElem?_take, List.getElem?_drop, h]

theorem window2_getD (keytab : EncryptionKeyTab) (n2 p : Nat) :
    (window2 keytab n2).getD (p % Key2Size) 0
      = keytab.Data.getD (keyData2Pos n2 + p % Key2Size) 0 := by
  have h : p % Key2Size < Key2Size := Nat.mod_lt _ (by decide)
  simp [window2, List.getD_eq_getElem?_getD, List.getElem?_take, List.getElem?_drop, h]

theorem evaluateContent_offsets (keytab : EncryptionKeyTab)
    (hD : keytab.Data.length = EncryptionKeyTabSize) (content : List Nat)
    (hs : content.length ≠ 0) (n1 n2 : Nat) :
    (evaluateContent keytab Faults.none content n1 n2).2.2.map (fun o => o.file_off)
      = (List.range (numBlocks content.length)).map (fun k =>
          blockOffset content.length (numBlocks content.length)
            (blockSpace content.length (numBlocks content.length)) (1 + k)) := by
  obtain ⟨_, _, _, a4, a5⟩ := evaluateContent_log keytab hD content hs n1 n2
  apply List.ext_getElem
  · simp [a4]
  · intro k hk1 hk2
    simp only [List.length_map, a4] at hk1
    have hget := List.getElem?_eq_getElem (show
      k < (evaluateContent keytab Faults.none content n1 n2).2.2.length by rw [a4]; exact hk1)
    obtain ⟨_, b2, _⟩ := a5 k _ hget
    simp only [List.getElem_map, List.getElem_range]
    exact b2
theorem extData_eq (keytab : EncryptionKeyTab) (hH : keytab.Hash.length = 32) (n1 n2 : Nat) :
    extData keytab n1 n2 = keytab.Hash ++ [0xFF] ++ le32 n1 ++ le32 n2 ++ [0x34] := by
  have hz : List.replicate 42 0 = List.replicate 32 0 ++ List.replicate 10 0 := by decide
  have h10 : List.replicate 10 0 = [0, 0, 0, 0, 0, 0, 0, 0, 0, 0] := by decide
  have htk : (List.replicate 32 0 ++ List.replicate 10 0).take 32 = List.replicate 32 0 := by
    decide
  have hdr : (List.replicate 32 0 ++ List.replicate 10 0).drop 32 = List.replicate 10 0 := by
    decide
  unfold extData
  simp only []
  rw [hz, htk, hdr]
  have hc : copy (List.replicate 32 0) keytab.Hash = keytab.Hash := by
    unfold copy
    rw [List.length_replicate, ← hH, List.take_length, List.drop_of_length_le (by simp [hH])]
    simp
  rw [hc, h10]
  unfold store32 le32
  simp [List.set_append, hH]

theorem readLE32_le32 (n : Nat) (h : n < 2 ^ 32) : readLE32 (le32 n) = n := by
  unfold readLE32 le32
  simp only [List.getD_cons_zero, List.getD_cons_succ]
  omega

/-! ## `Export` -/

theorem chunkSize_eq (key_size rem_len : Nat) (h : 66 < key_size) :
    ¬ chunkSize key_size rem_len < 0 ∧
      (chunkSize key_size rem_len).toNat = min rem_len (key_size - 66) := by
  unfold chunkSize
  simp only []
  split_ifs <;> omega

theorem exportLoop_zero {PublicKey : Type} (cipher : Cipher PublicKey)
    (pubkeys : List PublicKey) (data : List Nat) (rng : Nat → Nat) (fuel pos i : Nat)
    (dst : List Nat) :
    exportLoop cipher pubkeys data rng fuel pos 0 i dst = Run.done (dst, []) := by
  unfold exportLoop
  simp

theorem exportLoop_step {PublicKey : Type} (cipher : Cipher PublicKey)
    (pubkeys : List PublicKey) (data : List Nat) (rng : Nat → Nat) (fuel pos rem_len i : Nat)
    (dst : List Nat) (pubkey : PublicKey) (hrem : 0 < rem_len)
    (hk : pubkeys[i % pubkeys.length]? = some pubkey) (hsz : 66 < cipher.Size pubkey)
    (hpos : pos + rem_len = data.length) :
    exportLoop cipher pubkeys data rng (fuel + 1) pos rem_len i dst =
      match exportLoop cipher pubkeys data rng fuel
          (pos + min rem_len (cipher.Size pubkey - 66))
          (rem_len - min rem_len (cipher.Size pubkey - 66)) (i + 1)
          (dst ++ (cipher.EncryptOAEP pubkey (rng i)
            ((data.drop pos).take (min rem_len (cipher.Size pubkey - 66)))).getD []) with
      | Run.done r => Run.done (r.1,
          ⟨i, pubkey, pos, (data.drop pos).take (min rem_len (cipher.Size pubkey - 66)),
            (cipher.EncryptOAEP pubkey (rng i)
              ((data.drop pos).take (min rem_len (cipher.Size pubkey - 66)))).getD []⟩ :: r.2)
      | Run.panic => Run.panic
      | Run.outOfFuel => Run.outOfFuel := by
  obtain ⟨c1, c2⟩ := chunkSize_eq (cipher.Size pubkey) rem_len hsz
  have hne : pubkeys.length ≠ 0 := by
    intro h0
    rw [h0] at hk
    have : pubkeys = [] := List.length_eq_zero.mp h0
    rw [this] at hk
    simp at hk
  have hsl : slice data pos (pos + min rem_len (cipher.Size pubkey - 66))
      = some ((data.drop pos).take (min rem_len (cipher.Size pubkey - 66))) := by
    unfold slice
    rw [if_pos (by omega)]
    simp
  rw [exportLoop]
  simp only [hrem, if_true, hne, if_false, hk, c1, c2, hsl]

/-- The loop of `Export` for recipient keys larger than 66 bytes: with at least
`rem_len` iterations allowed it finishes, and its log describes each chunk. -/
theorem exportLoop_log {PublicKey : Type} (cipher : Cipher PublicKey)
    (pubkeys : List PublicKey) (data : List Nat) (rng : Nat → Nat)
    (hne : pubkeys ≠ []) (hsz : ∀ pk ∈ pubkeys, 66 < cipher.Size pk) :
    ∀ (fuel pos rem_len i : Nat) (dst : List Nat),
      pos + rem_len = data.length → rem_len ≤ fuel →
      ∃ log : List (ChunkOp PublicKey),
        exportLoop cipher pubkeys data rng fuel pos rem_len i dst
          = Run.done (dst ++ (log.map (fun o => o.enc_chunk)).flatten, log) ∧
        (log.map (fun o => o.chunk)).flatten = data.drop pos ∧
        log.length ≤ rem_len ∧
        ∀ (j : Nat) (op : ChunkOp PublicKey), log[j]? = some op →
          op.i = i + j ∧
          pubkeys[(i + j) % pubkeys.length]? = some op.pubkey ∧
          op.pos = pos + ((log.take j).map (fun o => o.chunk.length)).sum ∧
          op.chunk = (data.drop op.pos).take
            (min (data.length - op.pos) (cipher.Size op.pubkey - 66)) ∧
          op.chunk.length = min (data.length - op.pos) (cipher.Size op.pubkey - 66) ∧
          1 ≤ op.chunk.length ∧
          op.enc_chunk = (cipher.EncryptOAEP op.pubkey (rng op.i) op.chunk).getD [] := by
  have hdone : ∀ (fuel pos i : Nat) (dst : List Nat), pos + 0 = data.length →
      ∃ log : List (ChunkOp PublicKey),
        exportLoop cipher pubkeys data rng fuel pos 0 i dst
          = Run.done (dst ++ (log.map (fun o => o.enc_chunk)).flatten, log) ∧
        (log.map (fun o => o.chunk)).flatten = data.drop pos ∧
        log.length ≤ 0 ∧
        ∀ (j : Nat) (op : ChunkOp PublicKey), log[j]? = some op →
          op.i = i + j ∧
          pubkeys[(i + j) % pubkeys.length]? = some op.pubkey ∧
          op.pos = pos + ((log.take j).map (fun o => o.chunk.length)).sum ∧
          op.chunk = (data.drop op.pos).take
            (min (data.length - op.pos) (cipher.Size op.pubkey - 66)) ∧
          op.chunk.length = min (data.length - op.pos) (cipher.Size op.pubkey - 66) ∧
          1 ≤ op.chunk.length ∧
          op.enc_chunk = (cipher.EncryptOAEP op.pubkey (rng op.i) op.chunk).getD [] := by
    intro fuel pos i dst hpos
    refine ⟨[], ?_, ?_, le_refl _, ?_⟩
    · rw [exportLoop_zero]
      simp
    · rw [List.drop_eq_nil_of_le (by omega)]
      rfl
    · intro j op hj
      simp at hj
  intro fuel
  induction fuel with
  | zero =>
    intro pos rem_len i dst hpos hfuel
    have h0 : rem_len = 0 := by omega
    subst h0
    exact hdone 0 pos i dst hpos
  | succ fuel ih =>
    intro pos rem_len i dst hpos hfuel
    by_cases h0 : rem_len = 0
    · subst h0
      exact hdone (fuel + 1) pos i dst hpos
    · have hlenpos : 0 < pubkeys.length := List.length_pos.mpr hne
      have hidx : i % pubkeys.length < pubkeys.length := Nat.mod_lt _ hlenpos
      have hk := List.getElem?_eq_getElem hidx
      have hs := hsz _ (List.getElem_mem hidx)
      generalize pubkeys[i % pubkeys.length] = pubkey at hk hs
      have hm1 : 1 ≤ min rem_len (cipher.Size pubkey - 66) := by omega
      have hm2 : min rem_len (cipher.Size pubkey - 66) ≤ rem_len := Nat.min_le_left _ _
      obtain ⟨log, e1, e2, e3, e4⟩ := ih (pos + min rem_len (cipher.Size pubkey - 66))
        (rem_len - min rem_len (cipher.Size pubkey - 66)) (i + 1)
        (dst ++ (cipher.EncryptOAEP pubkey (rng i)
          ((data.drop pos).take (min rem_len (cipher.Size pubkey - 66)))).getD [])
        (by omega) (by omega)
      have hclen : ((data.drop pos).take (min rem_len (cipher.Size pubkey - 66))).length
          = min rem_len (cipher.Size pubkey - 66) := by
        rw [List.length_take, List.length_drop]
        omega
      refine ⟨⟨i, pubkey, pos, (data.drop pos).take (min rem_len (cipher.Size pubkey - 66)),
        (cipher.EncryptOAEP pubkey (rng i)
          ((data.drop pos).take (min rem_len (cipher.Size pubkey - 66)))).getD []⟩ :: log,
        ?_, ?_, ?_, ?_⟩
      · rw [exportLoop_step cipher pubkeys data rng fuel pos rem_len i dst pubkey
          (by omega) hk hs hpos, e1]
        simp only [List.map_cons, List.flatten_cons, List.append_assoc]
      · simp only [List.map_cons, List.flatten_cons]
        rw [e2, ← List.drop_drop, List.take_append_drop]
      · simp only [List.length_cons]
        omega
      · intro j op hj
        cases j with
        | zero =>
          simp only [List.getElem?_cons_zero, Option.some.injEq] at hj
          subst hj
          have hrl : data.length - pos = rem_len := by omega
          simp only [hrl, hclen]
          refine ⟨rfl, hk, ?_, trivial, trivial, hm1, trivial⟩
          simp
        | succ j =>
          simp only [List.getElem?_cons_succ] at hj
          obtain ⟨f1, f2, f3, f4, f5, f6, f7⟩ := e4 j op hj
          have hij : i + (j + 1) = i + 1 + j := by omega
          refine ⟨by omega, by rw [hij]; exact f2, ?_, f4, f5, f6, f7⟩
          rw [f3]
          simp only [List.take_succ_cons, List.map_cons, List.sum_cons, hclen]
          omega

theorem specImportLoop_nil {PublicKey : Type} (size : PublicKey → Nat)
    (decrypt : PublicKey → List Nat → Option (List Nat)) (pubkeys : List PublicKey)
    (fuel j : Nat) :
    specImportLoop size decrypt pubkeys fuel j [] = some [] := by
  unfold specImportLoop
  simp

/-- Importing the concatenated ciphertexts of a list of chunk records gives
back the concatenated plaintexts. -/
theorem specImportLoop_log {PublicKey : Type} (size : PublicKey → Nat)
    (decrypt : PublicKey → List Nat → Option (List Nat)) (pubkeys : List PublicKey) :
    ∀ (log : List (ChunkOp PublicKey)) (i fuel : Nat),
      (∀ (j : Nat) (op : ChunkOp PublicKey), log[j]? = some op →
        pubkeys[(i + j) % pubkeys.length]? = some op.pubkey ∧
        0 < size op.pubkey ∧
        op.enc_chunk.length = size op.pubkey ∧
        decrypt op.pubkey op.enc_chunk = some op.chunk) →
      ((log.map (fun o => o.enc_chunk)).flatten).length ≤ fuel →
      specImportLoop size decrypt pubkeys fuel i (log.map (fun o => o.enc_chunk)).flatten
        = some (log.map (fun o => o.chunk)).flatten := by
  intro log
  induction log with
  | nil =>
    intro i fuel _ _
    simp [specImportLoop_nil]
  | cons op rest ih =>
    intro i fuel hops hfuel
    obtain ⟨g1, g2, g3, g4⟩ := hops 0 op (by simp)
    simp only [List.map_cons, List.flatten_cons, List.length_append] at hfuel ⊢
    have hne : op.enc_chunk ++ (rest.map (fun o => o.enc_chunk)).flatten ≠ [] := by
      intro h
      have := congrArg List.length h
      simp only [List.length_append, List.length_nil] at this
      omega
    cases fuel with
    | zero => omega
    | succ fuel =>
      have hrest := ih (i + 1) fuel
        (fun j o hj => by
          have := hops (j + 1) o (by simpa using hj)
          have hij : i + (j + 1) = i + 1 + j := by omega
          rw [hij] at this
          exact this)
        (by omega)
      rw [specImportLoop]
      simp only [hne, if_false]
      rw [Nat.add_zero] at g1
      rw [g1]
      simp only []
      rw [← g3, List.take_left, List.drop_left, g4]
      simp only []
      rw [hrest]

/-! ## `Erase` and `GenKeyTab` -/

theorem zeroLoop_upto (s : List Nat) (n j : Nat) :
    ((List.range n).foldl (fun acc i => acc.set i 0) s)[j]?
      = if j < n then Option.map (fun _ => 0) s[j]? else s[j]? := by
  induction n with
  | zero => simp
  | succ n ih =>
    rw [List.range_succ, List.foldl_append]
    simp only [List.foldl_cons, List.foldl_nil]
    rw [List.getElem?_set]
    by_cases hj : n = j
    · subst hj
      have hlen : ((List.range n).foldl (fun acc i => acc.set i 0) s).length = s.length := by
        clear ih
        induction n generalizing s with
        | zero => simp
        | succ m ihm =>
          rw [List.range_succ, List.foldl_append]
          simp only [List.foldl_cons, List.foldl_nil, List.length_set]
          exact ihm s
      simp only [if_true, hlen, Nat.lt_succ_self]
      by_cases hl : n < s.length
      · simp [hl]
      · simp [hl, List.getElem?_eq_none (Nat.le_of_not_lt hl)]
    · rw [if_neg hj, ih]
      by_cases h1 : j < n
      · rw [if_pos h1, if_pos (by omega)]
      · rw [if_neg h1, if_neg (by omega)]

theorem zeroLoop_eq (s : List Nat) : zeroLoop s = List.replicate s.length 0 := by
  apply List.ext_getElem?
  intro j
  unfold zeroLoop
  rw [zeroLoop_upto, List.getElem?_replicate]
  by_cases hj : j < s.length
  · simp [hj]
  · simp [hj, List.getElem?_eq_none (Nat.le_of_not_lt hj)]

/-! ## The block loop with arbitrary faults -/

theorem blockLoop_succ (k1 k2 : List Nat) (s N : Nat) (bs : Int) (io : Faults)
    (rem bn tp : Nat) (fc : List Nat) :
    blockLoop k1 k2 s N bs io (rem + 1) bn tp fc =
      if (ReadAt fc BlockSize (blockOffset s N bs bn) (io.read bn)).2 ≠ Option.none ∧
          (ReadAt fc BlockSize (blockOffset s N bs bn) (io.read bn)).2 ≠ some Err.EOF then
        (Outcome.error ((ReadAt fc BlockSize (blockOffset s N bs bn) (io.read bn)).2.getD Err.EOF),
          fc, [])
      else if (ReadAt fc BlockSize (blockOffset s N bs bn) (io.read bn)).1.length = 0 then
        (Outcome.ok, fc, [])
      else
        match io.write bn with
        | some (n, e) =>
          (Outcome.error e,
            WriteAt fc ((encryptBlock k1 k2 tp
              (ReadAt fc BlockSize (blockOffset s N bs bn) (io.read bn)).1).take n)
              (blockOffset s N bs bn).toNat,
            [⟨bn, blockOffset s N bs bn, tp,
              (ReadAt fc BlockSize (blockOffset s N bs bn) (io.read bn)).1,
              encryptBlock k1 k2 tp
                (ReadAt fc BlockSize (blockOffset s N bs bn) (io.read bn)).1⟩])
        | Option.none =>
          ((blockLoop k1 k2 s N bs io rem (bn + 1)
              (tp + (ReadAt fc BlockSize (blockOffset s N bs bn) (io.read bn)).1.length)
              (WriteAt fc (encryptBlock k1 k2 tp
                (ReadAt fc BlockSize (blockOffset s N bs bn) (io.read bn)).1)
                (blockOffset s N bs bn).toNat)).1,
           (blockLoop k1 k2 s N bs io rem (bn + 1)
              (tp + (ReadAt fc BlockSize (blockOffset s N bs bn) (io.read bn)).1.length)
              (WriteAt fc (encryptBlock k1 k2 tp
                (ReadAt fc BlockSize (blockOffset s N bs bn) (io.read bn)).1)
                (blockOffset s N bs bn).toNat)).2.1,
           (⟨bn, blockOffset s N bs bn, tp,
              (ReadAt fc BlockSize (blockOffset s N bs bn) (io.read bn)).1,
              encryptBlock k1 k2 tp
                (ReadAt fc BlockSize (blockOffset s N bs bn) (io.read bn)).1⟩ : BlockOp) ::
            (blockLoop k1 k2 s N bs io rem (bn + 1)
              (tp + (ReadAt fc BlockSize (blockOffset s N bs bn) (io.read bn)).1.length)
              (WriteAt fc (encryptBlock k1 k2 tp
                (ReadAt fc BlockSize (blockOffset s N bs bn) (io.read bn)).1)
                (blockOffset s N bs bn).toNat)).2.2) := by
  rw [blockLoop]

theorem readAt_general (fc : List Nat) (len : Nat) (off : Int)
    (fault : Option (Nat × Option Err)) :
    (ReadAt fc len off fault).1.length ≤ len ∧
    ((ReadAt fc len off fault).1 ≠ [] →
      0 ≤ off ∧ off.toNat + (ReadAt fc len off fault).1.length ≤ fc.length) := by
  unfold ReadAt
  by_cases h : off < 0
  · rw [if_pos h]
    simp
  · rw [if_neg h]
    cases fault with
    | none =>
      refine ⟨by simp only [List.length_take, List.length_drop]; omega, fun hne => ?_⟩
      have hpos := List.length_pos.mpr hne
      simp only [List.length_take, List.length_drop] at hpos ⊢
      exact ⟨by omega, by omega⟩
    | some p =>
      obtain ⟨n, e⟩ := p
      refine ⟨by simp only [List.length_take, List.length_drop]; omega, fun hne => ?_⟩
      have hpos := List.length_pos.mpr hne
      simp only [List.length_take, List.length_drop] at hpos ⊢
      exact ⟨by omega, by omega⟩

theorem WriteAt_outside (fc b : List Nat) (off j : Nat) (h : off + b.length ≤ fc.length)
    (hj : j < off ∨ off + b.length ≤ j) :
    (WriteAt fc b off)[j]? = fc[j]? := by
  have hr : off - fc.length = 0 := by omega
  unfold WriteAt
  rw [hr, List.replicate_zero, List.append_nil, List.append_assoc]
  have hto : (List.take off fc).length = off := by
    rw [List.length_take]
    omega
  by_cases h1 : j < off
  · rw [List.getElem?_append_left (by rw [hto]; exact h1), List.getElem?_take_of_lt h1]
  · have h2 : off + b.length ≤ j := by omega
    rw [List.getElem?_append_right (by rw [hto]; omega), hto,
      List.getElem?_append_right (by omega), List.getElem?_drop]
    congr 1
    omega

/-- Facts about the loop that hold whatever the system calls do: the number of
logged blocks, the size of the file, where and how much each logged block read
and wrote, the position counter, and the bytes no logged block covers. -/
theorem blockLoop_bounds (k1 k2 : List Nat) (s N : Nat) (bs : Int) (io : Faults) :
    ∀ (rem bn tp : Nat) (fc : List Nat),
      (blockLoop k1 k2 s N bs io rem bn tp fc).2.2.length ≤ rem ∧
      (blockLoop k1 k2 s N bs io rem bn tp fc).2.1.length = fc.length ∧
      (∀ (k : Nat) (op : BlockOp),
        (blockLoop k1 k2 s N bs io rem bn tp fc).2.2[k]? = some op →
        op.block_num = bn + k ∧
        op.file_off = blockOffset s N bs (bn + k) ∧
        0 ≤ op.file_off ∧
        op.file_off.toNat + op.bytes_in.length ≤ fc.length ∧
        1 ≤ op.bytes_in.length ∧
        op.bytes_in.length ≤ BlockSize ∧
        op.bytes_out = encryptBlock k1 k2 op.total_pos op.bytes_in ∧
        op.total_pos = tp + (((blockLoop k1 k2 s N bs io rem bn tp fc).2.2.take k).map
          (fun o => o.bytes_in.length)).sum ∧
        op.total_pos ≤ tp + k * BlockSize) ∧
      (∀ j : Nat,
        (∀ op ∈ (blockLoop k1 k2 s N bs io rem bn tp fc).2.2,
          ¬ (op.file_off.toNat ≤ j ∧ j < op.file_off.toNat + op.bytes_in.length)) →
        (blockLoop k1 k2 s N bs io rem bn tp fc).2.1[j]? = fc[j]?) := by
  intro rem
  induction rem with
  | zero =>
    intro bn tp fc
    simp [blockLoop]
  | succ rem ih =>
    intro bn tp fc
    rw [blockLoop_succ]
    obtain ⟨g1, g2⟩ := readAt_general fc BlockSize (blockOffset s N bs bn) (io.read bn)
    generalize ReadAt fc BlockSize (blockOffset s N bs bn) (io.read bn) = rd at g1 g2 ⊢
    by_cases hfail : rd.2 ≠ Option.none ∧ rd.2 ≠ some Err.EOF
    · rw [if_pos hfail]
      simp
    · rw [if_neg hfail]
      by_cases hzero : rd.1.length = 0
      · rw [if_pos hzero]
        simp
      · rw [if_neg hzero]
        have hne : rd.1 ≠ [] := fun h => hzero (by rw [h]; rfl)
        obtain ⟨g3, g4⟩ := g2 hne
        have hpos : 1 ≤ rd.1.length := Nat.one_le_iff_ne_zero.mpr hzero
        cases hw : io.write bn with
        | some p =>
          obtain ⟨n, e⟩ := p
          simp only []
          have hwl : (blockOffset s N bs bn).toNat
              + ((encryptBlock k1 k2 tp rd.1).take n).length ≤ fc.length := by
            rw [List.length_take, encryptBlock_length]
            omega
          refine ⟨by simp, WriteAt_length _ _ _ hwl, ?_, ?_⟩
          · intro k op hk
            cases k with
            | zero =>
              simp only [List.getElem?_cons_zero, Option.some.injEq] at hk
              subst hk
              simp only [Nat.add_zero, List.take_zero, List.map_nil, List.sum_nil, Nat.zero_mul]
              exact ⟨trivial, trivial, g3, g4, hpos, g1, trivial, trivial, le_refl _⟩
            | succ k => simp at hk
          · intro j hj
            have hj0 := hj _ (List.mem_singleton.mpr rfl)
            simp only [] at hj0
            apply WriteAt_outside _ _ _ _ hwl
            rw [List.length_take, encryptBlock_length]
            omega
        | none =>
          simp only []
          have hwl : (blockOffset s N bs bn).toNat
              + (encryptBlock k1 k2 tp rd.1).length ≤ fc.length := by
            rw [encryptBlock_length]
            exact g4
          obtain ⟨i1, i2, i3, i4⟩ := ih (bn + 1) (tp + rd.1.length)
            (WriteAt fc (encryptBlock k1 k2 tp rd.1) (blockOffset s N bs bn).toNat)
          rw [WriteAt_length _ _ _ hwl] at i2 i3
          refine ⟨by simp only [List.length_cons]; omega, i2, ?_, ?_⟩
          · intro k op hk
            cases k with
            | zero =>
              simp only [List.getElem?_cons_zero, Option.some.injEq] at hk
              subst hk
              simp only [Nat.add_zero, List.take_zero, List.map_nil, List.sum_nil, Nat.zero_mul]
              exact ⟨trivial, trivial, g3, g4, hpos, g1, trivial, trivial, le_refl _⟩
            | succ k =>
              simp only [List.getElem?_cons_succ] at hk
              obtain ⟨j1, j2, j3, j4, j5, j6, j7, j8, j9⟩ := i3 k op hk
              have hij : bn + (k + 1) = bn + 1 + k := by omega
              refine ⟨by omega, by rw [hij]; exact j2, j3, j4, j5, j6, j7, ?_, ?_⟩
              · rw [j8]
                simp only [List.take_succ_cons, List.map_cons, List.sum_cons]
                omega
              · have : (k + 1) * BlockSize = k * BlockSize + BlockSize := by ring
                omega
          · intro j hj
            rw [i4 j (fun op hop => hj op (List.mem_cons_of_mem _ hop))]
            have hj0 := hj _ (List.mem_cons_self _ _)
            simp only [] at hj0
            apply WriteAt_outside _ _ _ _ hwl
            rw [encryptBlock_length]
            omega

theorem evaluateContent_cases (keytab : EncryptionKeyTab) (io : Faults)
    (content : List Nat) (n1 n2 : Nat) :
    evaluateContent keytab io content n1 n2 = (Outcome.ok, content, []) ∨
    evaluateContent keytab io content n1 n2 = (Outcome.panic, content, []) ∨
    (content.length ≠ 0 ∧ ∃ k1 k2 : List Nat,
      evaluateContent keytab io content n1 n2 =
        blockLoop k1 k2 content.length (numBlocks content.length)
          (blockSpace content.length (numBlocks content.length)) io
          (numBlocks content.length) 1 0 content) := by
  unfold evaluateContent
  simp only []
  by_cases hs : content.length = 0
  · rw [if_pos hs]
    exact Or.inl rfl
  · rw [if_neg hs]
    cases h1 : slice keytab.Data (keyData1Pos n1) ((keyData1Pos n1 + Key1Size) % 2 ^ 32) with
    | none => exact Or.inr (Or.inl rfl)
    | some key_data1 =>
      cases h2 : slice keytab.Data (keyData2Pos n2) ((keyData2Pos n2 + Key2Size) % 2 ^ 32) with
      | none => exact Or.inr (Or.inl rfl)
      | some key_data2 => exact Or.inr (Or.inr ⟨hs, key_data1, key_data2, rfl⟩)

/-- The bounds of `blockLoop_bounds` for the whole of `EvaluateFilename` on an
opened file, whatever the key table and the system calls do. -/
theorem evaluateContent_bounds (keytab : EncryptionKeyTab) (io : Faults)
    (content : List Nat) (n1 n2 : Nat) :
    (evaluateContent keytab io content n1 n2).2.2.length ≤ blockCount content.length ∧
    (evaluateContent keytab io content n1 n2).2.1.length = content.length ∧
    (∀ (k : Nat) (op : BlockOp),
      (evaluateContent keytab io content n1 n2).2.2[k]? = some op →
      op.block_num = 1 + k ∧
      op.file_off = blockOffset content.length (numBlocks content.length)
        (blockSpace content.length (numBlocks content.length)) (1 + k) ∧
      0 ≤ op.file_off ∧
      op.file_off.toNat + op.bytes_in.length ≤ content.length ∧
      1 ≤ op.bytes_in.length ∧
      op.bytes_in.length ≤ BlockSize ∧
      op.bytes_out.length = op.bytes_in.length ∧
      op.total_pos = (((evaluateContent keytab io content n1 n2).2.2.take k).map
        (fun o => o.bytes_in.length)).sum ∧
      op.total_pos ≤ k * BlockSize) ∧
    (∀ j : Nat,
      (∀ op ∈ (evaluateContent keytab io content n1 n2).2.2,
        ¬ (op.file_off.toNat ≤ j ∧ j < op.file_off.toNat + op.bytes_in.length)) →
      (evaluateContent keytab io content n1 n2).2.1[j]? = content[j]?) := by
  rcases evaluateContent_cases keytab io content n1 n2 with h | h | ⟨hs, k1, k2, h⟩
  · rw [h]
    simp
  · rw [h]
    simp
  · rw [h]
    obtain ⟨b1, b2, b3, b4⟩ := blockLoop_bounds k1 k2 content.length (numBlocks content.length)
      (blockSpace content.length (numBlocks content.length)) io
      (numBlocks content.length) 1 0 content
    refine ⟨by unfold blockCount; rw [if_neg hs]; exact b1, b2, ?_, b4⟩
    intro k op hk
    obtain ⟨j1, j2, j3, j4, j5, j6, j7, j8, j9⟩ := b3 k op hk
    refine ⟨j1, j2, j3, j4, j5, j6, by rw [j7, encryptBlock_length], ?_, ?_⟩
    · rw [j8, Nat.zero_add]
    · omega

theorem EvaluateFilename_cases (keytab : EncryptionKeyTab) (io : Faults) (fs : FS)
    (filename : String) (n1 n2 : Nat) :
    (∃ e, EvaluateFilename keytab io fs filename n1 n2 = (Outcome.error e, fs, []) ∧
      (io.openFile = some e ∨
        (io.openFile = Option.none ∧ fs filename = Option.none ∧ e = Err.notExist) ∨
        (io.openFile = Option.none ∧ fs filename ≠ Option.none ∧ io.stat = some e))) ∨
    (∃ content, io.openFile = Option.none ∧ fs filename = some content ∧
      io.stat = Option.none ∧
      EvaluateFilename keytab io fs filename n1 n2 =
        ((evaluateContent keytab io content n1 n2).1,
          FS.set fs filename (some (evaluateContent keytab io content n1 n2).2.1),
          (evaluateContent keytab io content n1 n2).2.2)) := by
  unfold EvaluateFilename
  cases ho : io.openFile with
  | some e => exact Or.inl ⟨e, rfl, Or.inl rfl⟩
  | none =>
    cases hf : fs filename with
    | none => exact Or.inl ⟨Err.notExist, rfl, Or.inr (Or.inl ⟨rfl, rfl, rfl⟩)⟩
    | some content =>
      cases hst : io.stat with
      | some e => exact Or.inl ⟨e, rfl, Or.inr (Or.inr ⟨rfl, by simp, rfl⟩)⟩
      | none => exact Or.inr ⟨content, rfl, rfl, rfl, rfl⟩

theorem blockCount_le_256 (s : Nat) : blockCount s ≤ 256 := by
  unfold blockCount
  have := numBlocks_le_max s
  unfold MaxNumBlocks at this
  split_ifs <;> omega

theorem getElem?_pubkey {PublicKey : Type} (pubkeys : List PublicKey) (hne : pubkeys ≠ [])
    (i : Nat) : ∃ pk, pubkeys[i % pubkeys.length]? = some pk ∧ pk ∈ pubkeys := by
  have hidx : i % pubkeys.length < pubkeys.length := Nat.mod_lt _ (List.length_pos.mpr hne)
  exact ⟨pubkeys[i % pubkeys.length], List.getElem?_eq_getElem hidx, List.getElem_mem hidx⟩

/-- With recipient keys larger than 66 bytes, any two iteration bounds of at
least `rem_len` give the same result. -/
theorem exportLoop_fuel_irrelevant {PublicKey : Type} (cipher : Cipher PublicKey)
    (pubkeys : List PublicKey) (data : List Nat) (rng : Nat → Nat)
    (hne : pubkeys ≠ []) (hsz : ∀ pk ∈ pubkeys, 66 < cipher.Size pk) :
    ∀ (fuel fuel2 pos rem_len i : Nat) (dst : List Nat),
      pos + rem_len = data.length → rem_len ≤ fuel → rem_len ≤ fuel2 →
      exportLoop cipher pubkeys data rng fuel pos rem_len i dst
        = exportLoop cipher pubkeys data rng fuel2 pos rem_len i dst := by
  intro fuel
  induction fuel with
  | zero =>
    intro fuel2 pos rem_len i dst _ h1 _
    have h0 : rem_len = 0 := by omega
    subst h0
    rw [exportLoop_zero, exportLoop_zero]
  | succ fuel ih =>
    intro fuel2 pos rem_len i dst hpos h1 h2
    by_cases h0 : rem_len = 0
    · subst h0
      rw [exportLoop_zero, exportLoop_zero]
    · cases fuel2 with
      | zero => omega
      | succ fuel2 =>
        obtain ⟨pk, hk, hmem⟩ := getElem?_pubkey pubkeys hne i
        have hs := hsz pk hmem
        rw [exportLoop_step cipher pubkeys data rng fuel pos rem_len i dst pk
            (by omega) hk hs hpos,
          exportLoop_step cipher pubkeys data rng fuel2 pos rem_len i dst pk
            (by omega) hk hs hpos,
          ih fuel2 _ _ _ _ (by omega) (by omega) (by omega)]

/-- With a single recipient key of size larger than 66, the loop of `Export`
runs `ceil(rem_len / (size - 66))` times. -/
theorem exportLoop_single_count {PublicKey : Type} (cipher : Cipher PublicKey)
    (pk : PublicKey) (data : List Nat) (rng : Nat → Nat) (hs : 66 < cipher.Size pk) :
    ∀ (fuel pos rem_len i : Nat) (dst : List Nat),
      pos + rem_len = data.length → rem_len ≤ fuel →
      ∃ r, exportLoop cipher [pk] data rng fuel pos rem_len i dst = Run.done r ∧
        r.2.length = (rem_len + (cipher.Size pk - 66) - 1) / (cipher.Size pk - 66) := by
  have hc : 0 < cipher.Size pk - 66 := by omega
  intro fuel
  induction fuel with
  | zero =>
    intro pos rem_len i dst _ h1
    have h0 : rem_len = 0 := by omega
    subst h0
    refine ⟨_, exportLoop_zero _ _ _ _ _ _ _ _, ?_⟩
    simp only [List.length_nil, Nat.zero_add]
    exact (Nat.div_eq_of_lt (by omega)).symm
  | succ fuel ih =>
    intro pos rem_len i dst hpos h1
    by_cases h0 : rem_len = 0
    · subst h0
      refine ⟨_, exportLoop_zero _ _ _ _ _ _ _ _, ?_⟩
      simp only [List.length_nil, Nat.zero_add]
      exact (Nat.div_eq_of_lt (by omega)).symm
    · have hk : [pk][i % [pk].length]? = some pk := by
        simp [Nat.mod_one]
      rw [exportLoop_step cipher [pk] data rng fuel pos rem_len i dst pk (by omega) hk hs hpos]
      obtain ⟨r, hr, hlen⟩ := ih (pos + min rem_len (cipher.Size pk - 66))
        (rem_len - min rem_len (cipher.Size pk - 66)) (i + 1)
        (dst ++ (cipher.EncryptOAEP pk (rng i)
          ((data.drop pos).take (min rem_len (cipher.Size pk - 66)))).getD [])
        (by omega) (by omega)
      rw [hr]
      refine ⟨_, rfl, ?_⟩
      simp only [List.length_cons, hlen]
      by_cases hle : rem_len ≤ cipher.Size pk - 66
      · rw [Nat.min_eq_left hle, Nat.sub_self, Nat.zero_add,
          Nat.div_eq_of_lt (by omega), Nat.zero_add]
        symm
        apply Nat.div_eq_of_lt_le <;> omega
      · have hmin : min rem_len (cipher.Size pk - 66) = cipher.Size pk - 66 :=
          Nat.min_eq_right (by omega)
        rw [hmin]
        have e1 : rem_len - (cipher.Size pk - 66) + (cipher.Size pk - 66) - 1 = rem_len - 1 := by
          omega
        have e2 : rem_len + (cipher.Size pk - 66) - 1
            = rem_len - 1 + (cipher.Size pk - 66) := by omega
        rw [e1, e2, Nat.add_div_right _ hc]

theorem getLast?_cons_of_some (a : BlockOp) (l : List BlockOp) (x : BlockOp)
    (h : l.getLast? = some x) :
    (a :: l).getLast? = some x ∧ (a :: l).dropLast = a :: l.dropLast := by
  cases l with
  | nil => simp at h
  | cons b t => exact ⟨by rw [List.getLast?_cons_cons]; exact h, List.dropLast_cons₂⟩

/-- How the loop ends, whatever the system calls do: it never panics; every
logged block was read without failure and not empty, from the file as the
earlier writes left it; it returns `nil` only when no write failed and it either
ran all its iterations or met a read of zero bytes; it returns an error only
for the read that failed right after the logged blocks, or for the write of the
last logged block, and every earlier write is kept. -/
theorem blockLoop_faults (k1 k2 : List Nat) (s N : Nat) (bs : Int) (io : Faults) :
    ∀ (rem bn tp : Nat) (fc : List Nat),
      (blockLoop k1 k2 s N bs io rem bn tp fc).1 ≠ Outcome.panic ∧
      (∀ (k : Nat) (op : BlockOp),
        (blockLoop k1 k2 s N bs io rem bn tp fc).2.2[k]? = some op →
        op.bytes_in = (readOfBlock io s N bs
          (replay ((blockLoop k1 k2 s N bs io rem bn tp fc).2.2.take k) fc) (bn + k)).1 ∧
        ¬ readFailed (readOfBlock io s N bs
          (replay ((blockLoop k1 k2 s N bs io rem bn tp fc).2.2.take k) fc) (bn + k)) ∧
        op.bytes_in ≠ [] ∧
        (k + 1 < (blockLoop k1 k2 s N bs io rem bn tp fc).2.2.length →
          io.write (bn + k) = Option.none)) ∧
      ((blockLoop k1 k2 s N bs io rem bn tp fc).1 = Outcome.ok →
        (∀ op ∈ (blockLoop k1 k2 s N bs io rem bn tp fc).2.2,
          io.write op.block_num = Option.none) ∧
        (blockLoop k1 k2 s N bs io rem bn tp fc).2.1
          = replay (blockLoop k1 k2 s N bs io rem bn tp fc).2.2 fc ∧
        ((blockLoop k1 k2 s N bs io rem bn tp fc).2.2.length = rem ∨
          ((blockLoop k1 k2 s N bs io rem bn tp fc).2.2.length < rem ∧
            ¬ readFailed (readOfBlock io s N bs (blockLoop k1 k2 s N bs io rem bn tp fc).2.1
              (bn + (blockLoop k1 k2 s N bs io rem bn tp fc).2.2.length)) ∧
            (readOfBlock io s N bs (blockLoop k1 k2 s N bs io rem bn tp fc).2.1
              (bn + (blockLoop k1 k2 s N bs io rem bn tp fc).2.2.length)).1 = []))) ∧
      (∀ e, (blockLoop k1 k2 s N bs io rem bn tp fc).1 = Outcome.error e →
        ((blockLoop k1 k2 s N bs io rem bn tp fc).2.2.length < rem ∧
          (∀ op ∈ (blockLoop k1 k2 s N bs io rem bn tp fc).2.2,
            io.write op.block_num = Option.none) ∧
          (blockLoop k1 k2 s N bs io rem bn tp fc).2.1
            = replay (blockLoop k1 k2 s N bs io rem bn tp fc).2.2 fc ∧
          (readOfBlock io s N bs (blockLoop k1 k2 s N bs io rem bn tp fc).2.1
            (bn + (blockLoop k1 k2 s N bs io rem bn tp fc).2.2.length)).2 = some e ∧
          e ≠ Err.EOF) ∨
        (∃ (op : BlockOp) (n : Nat),
          (blockLoop k1 k2 s N bs io rem bn tp fc).2.2.getLast? = some op ∧
          io.write op.block_num = some (n, e) ∧
          (blockLoop k1 k2 s N bs io rem bn tp fc).2.1
            = WriteAt (replay (blockLoop k1 k2 s N bs io rem bn tp fc).2.2.dropLast fc)
                (op.bytes_out.take n) op.file_off.toNat)) := by
  intro rem
  induction rem with
  | zero =>
    intro bn tp fc
    simp [blockLoop, replay]
  | succ rem ih =>
    intro bn tp fc
    rw [blockLoop_succ]
    have hrd : readOfBlock io s N bs fc bn
        = ReadAt fc BlockSize (blockOffset s N bs bn) (io.read bn) := rfl
    rw [← hrd]
    by_cases hfail : (readOfBlock io s N bs fc bn).2 ≠ Option.none ∧
        (readOfBlock io s N bs fc bn).2 ≠ some Err.EOF
    · rw [if_pos hfail]
      refine ⟨by simp, by simp, by simp, ?_⟩
      intro e he
      left
      simp only [Outcome.error.injEq] at he
      obtain ⟨x, hx⟩ := Option.ne_none_iff_exists'.mp hfail.1
      rw [hx, Option.getD_some] at he
      subst he
      refine ⟨by simp, by simp, rfl, ?_, ?_⟩
      · simpa using hx
      · intro hE
        apply hfail.2
        rw [hx, hE]
    · rw [if_neg hfail]
      by_cases hzero : (readOfBlock io s N bs fc bn).1.length = 0
      · rw [if_pos hzero]
        refine ⟨by simp, by simp, ?_, by simp⟩
        intro _
        refine ⟨by simp, rfl, Or.inr ⟨by simp, ?_, ?_⟩⟩
        · simpa [readFailed] using hfail
        · simpa using List.length_eq_zero.mp hzero
      · rw [if_neg hzero]
        have hne : (readOfBlock io s N bs fc bn).1 ≠ [] := fun h => hzero (by rw [h]; rfl)
        cases hw : io.write bn with
        | some p =>
          obtain ⟨n, e⟩ := p
          simp only []
          refine ⟨by simp, ?_, by simp, ?_⟩
          · intro k op hk
            cases k with
            | zero =>
              simp only [List.getElem?_cons_zero, Option.some.injEq] at hk
              subst hk
              simp only [List.take_zero, replay, List.foldl_nil, Nat.add_zero]
              exact ⟨trivial, hfail, hne, by simp⟩
            | succ k => simp at hk
          · intro e2 he2
            right
            simp only [Outcome.error.injEq] at he2
            subst he2
            exact ⟨_, n, rfl, hw, rfl⟩
        | none =>
          simp only []
          obtain ⟨i1, i2, i3, i4⟩ := ih (bn + 1)
            (tp + (readOfBlock io s N bs fc bn).1.length)
            (WriteAt fc (encryptBlock k1 k2 tp (readOfBlock io s N bs fc bn).1)
              (blockOffset s N bs bn).toNat)
          generalize blockLoop k1 k2 s N bs io rem (bn + 1)
            (tp + (readOfBlock io s N bs fc bn).1.length)
            (WriteAt fc (encryptBlock k1 k2 tp (readOfBlock io s N bs fc bn).1)
              (blockOffset s N bs bn).toNat) = rr at i1 i2 i3 i4 ⊢
          have hlast : bn + (rr.2.2.length + 1) = bn + 1 + rr.2.2.length := by omega
          refine ⟨i1, ?_, ?_, ?_⟩
          · intro k op hk
            cases k with
            | zero =>
              simp only [List.getElem?_cons_zero, Option.some.injEq] at hk
              subst hk
              simp only [List.take_zero, replay, List.foldl_nil, Nat.add_zero]
              exact ⟨trivial, hfail, hne, fun _ => hw⟩
            | succ k =>
              simp only [List.getElem?_cons_succ] at hk
              obtain ⟨j1, j2, j3, j4⟩ := i2 k op hk
              have hij : bn + (k + 1) = bn + 1 + k := by omega
              simp only [List.take_succ_cons, replay, List.foldl_cons, List.length_cons, hij]
              exact ⟨j1, j2, j3, fun h => j4 (by omega)⟩
          · intro hok
            obtain ⟨o1, o2, o3⟩ := i3 hok
            refine ⟨?_, ?_, ?_⟩
            · intro op hop
              rcases List.mem_cons.mp hop with h | h
              · rw [h]
                exact hw
              · exact o1 op h
            · simp only [replay, List.foldl_cons]
              exact o2
            · simp only [List.length_cons]
              rw [hlast]
              rcases o3 with h | ⟨h1, h2, h3⟩
              · left
                omega
              · right
                exact ⟨by omega, h2, h3⟩
          · intro e he
            rcases i4 e he with ⟨p1, p2, p3, p4, p5⟩ | ⟨op, n, q1, q2, q3⟩
            · left
              simp only [List.length_cons]
              rw [hlast]
              refine ⟨by omega, ?_, ?_, p4, p5⟩
              · intro op hop
                rcases List.mem_cons.mp hop with h | h
                · rw [h]
                  exact hw
                · exact p2 op h
              · simp only [replay, List.foldl_cons]
                exact p3
            · right
              obtain ⟨g1, g2⟩ := getLast?_cons_of_some _ _ op q1
              refine ⟨op, n, g1, q2, ?_⟩
              rw [g2]
              simp only [replay, List.foldl_cons]
              exact q3

/-! ## The methods on the memory: what they leave alone -/

theorem Heap.get_assign_same (h : Heap) (o : Obj) (bytes : List Nat) :
    (h.assign o bytes).get o = bytes := by
  cases o <;> rfl

theorem Heap.get_assign_ne (h : Heap) (o o2 : Obj) (bytes : List Nat) (hne : o2 ≠ o) :
    (h.assign o bytes).get o2 = h.get o2 := by
  cases o <;> cases o2 <;> first | rfl | exact absurd rfl hne

theorem Heap.get_store_same (h : Heap) (o : Obj) (i v : Nat) :
    (h.store o i v).get o = (h.get o).set i v := by
  unfold Heap.store
  rw [Heap.get_assign_same]

theorem Heap.get_store_ne (h : Heap) (o o2 : Obj) (i v : Nat) (hne : o2 ≠ o) :
    (h.store o i v).get o2 = h.get o2 := by
  unfold Heap.store
  rw [Heap.get_assign_ne _ _ _ _ hne]

/-- The inner loop stores into `buf` only. -/
theorem encryptBlockMem_frame (key_data1 key_data2 : View) (total_pos : Nat) (o : Obj)
    (ho : o ≠ Obj.buf) :
    ∀ (n : Nat) (h : Heap),
      (encryptBlockMem h key_data1 key_data2 total_pos n).get o = h.get o := by
  intro n
  induction n with
  | zero =>
    intro h
    rfl
  | succ n ih =>
    intro h
    unfold encryptBlockMem at ih ⊢
    rw [List.range_succ, List.foldl_append]
    simp only [List.foldl_cons, List.foldl_nil]
    rw [Heap.get_store_ne _ _ _ _ _ ho, ih h]

/-- The block loop changes no array but `buf`, whatever the two key slices are
and whatever the system calls do. -/
theorem blockLoopMem_frame (key_data1 key_data2 : View) (s N : Nat) (bs : Int) (io : Faults)
    (o : Obj) (ho : o ≠ Obj.buf) :
    ∀ (rem bn tp : Nat) (content : List Nat) (h : Heap),
      (blockLoopMem key_data1 key_data2 s N bs io rem bn tp content h).2.2.get o = h.get o := by
  intro rem
  induction rem with
  | zero =>
    intro bn tp content h
    rfl
  | succ rem ih =>
    intro bn tp content h
    rw [blockLoopMem]
    simp only []
    split_ifs
    · exact Heap.get_assign_ne _ _ _ _ ho
    · exact Heap.get_assign_ne _ _ _ _ ho
    · split
      · simp only []
        rw [encryptBlockMem_frame _ _ _ _ ho, Heap.get_assign_ne _ _ _ _ ho]
      · rw [ih, encryptBlockMem_frame _ _ _ _ ho, Heap.get_assign_ne _ _ _ _ ho]

theorem evaluateContentMem_frame (h : Heap) (io : Faults) (content : List Nat) (n1 n2 : Nat)
    (o : Obj) (ho : o ≠ Obj.buf) :
    (evaluateContentMem h io content n1 n2).2.2.get o = h.get o := by
  unfold evaluateContentMem
  simp only []
  split_ifs
  · rfl
  · split
    · rfl
    · split
      · rfl
      · rw [blockLoopMem_frame _ _ _ _ _ _ _ ho, Heap.get_assign_ne _ _ _ _ ho]

/-- The method `EvaluateFilename` changes no array but its local `buf`. -/
theorem EvaluateFilenameMem_frame (h : Heap) (io : Faults) (fs : FS) (filename : String)
    (n1 n2 : Nat) (o : Obj) (ho : o ≠ Obj.buf) :
    (EvaluateFilenameMem h io fs filename n1 n2).2.2.get o = h.get o := by
  unfold EvaluateFilenameMem
  split
  · rfl
  · split
    · rfl
    · split
      · rfl
      · exact evaluateContentMem_frame _ _ _ _ _ _ ho

theorem store32Mem_frame (h : Heap) (k n : Nat) (o : Obj) (ho : o ≠ Obj.ext_data) :
    (store32Mem h k n).get o = h.get o := by
  unfold store32Mem
  rw [Heap.get_store_ne _ _ _ _ _ ho, Heap.get_store_ne _ _ _ _ _ ho,
    Heap.get_store_ne _ _ _ _ _ ho, Heap.get_store_ne _ _ _ _ _ ho]

theorem extDataMem_frame (h : Heap) (n1 n2 : Nat) (o : Obj) (ho : o ≠ Obj.ext_data) :
    (extDataMem h n1 n2).get o = h.get o := by
  unfold extDataMem
  simp only []
  rw [Heap.get_store_ne _ _ _ _ _ ho, store32Mem_frame _ _ _ _ ho,
    store32Mem_frame _ _ _ _ ho, Heap.get_store_ne _ _ _ _ _ ho,
    Heap.get_assign_ne _ _ _ _ ho, Heap.get_assign_ne _ _ _ _ ho]

/-- The method `EncryptFilename` changes no array but its locals `ext_data` and
`buf`. -/
theorem EncryptFilenameMem_frame (h : Heap) (io : Faults) (fs : FS)
    (filename ransom_ext : String) (n1 n2 : Nat) (o : Obj) (ho1 : o ≠ Obj.ext_data)
    (ho2 : o ≠ Obj.buf) :
    (EncryptFilenameMem h io fs filename ransom_ext n1 n2).2.2.get o = h.get o := by
  unfold EncryptFilenameMem
  simp only []
  split
  · exact extDataMem_frame _ _ _ _ ho1
  · rw [EvaluateFilenameMem_frame _ _ _ _ _ _ _ ho2, extDataMem_frame _ _ _ _ ho1]

/-- The loop of `Export` changes no array but `dst_data`. -/
theorem exportLoopMem_frame {PublicKey : Type} (cipher : Cipher PublicKey)
    (pubkeys : List PublicKey) (rng : Nat → Nat) (o : Obj) (ho : o ≠ Obj.dst_data) :
    ∀ (fuel pos rem_len i : Nat) (h h2 : Heap),
      exportLoopMem cipher pubkeys rng fuel pos rem_len i h = Run.done h2 →
      h2.get o = h.get o := by
  intro fuel
  induction fuel with
  | zero =>
    intro pos rem_len i h h2 hrun
    rw [exportLoopMem] at hrun
    by_cases h1 : rem_len > 0
    · simp [h1] at hrun
    · simp only [h1, if_false, Run.done.injEq] at hrun
      rw [← hrun]
  | succ fuel ih =>
    intro pos rem_len i h h2 hrun
    rw [exportLoopMem] at hrun
    split_ifs at hrun with h1
    · simp only [] at hrun
      split_ifs at hrun with h3
      split at hrun
      · simp at hrun
      · split_ifs at hrun with h4
        split at hrun
        · simp at hrun
        · rw [ih _ _ _ _ _ hrun, Heap.get_assign_ne _ _ _ _ ho]
    · simp only [Run.done.injEq] at hrun
      rw [← hrun]

/-- The method `Export` changes no array but `dst_data`. -/
theorem ExportMem_frame {PublicKey : Type} (cipher : Cipher PublicKey) (h : Heap)
    (pubkeys : List PublicKey) (rng : Nat → Nat) (fuel : Nat) (r : List Nat × Heap)
    (hrun : ExportMem cipher h pubkeys rng fuel = Run.done r) (o : Obj)
    (ho : o ≠ Obj.dst_data) :
    r.2.get o = h.get o := by
  unfold ExportMem at hrun
  simp only [] at hrun
  split at hrun
  · rename_i h2 heq
    simp only [Run.done.injEq] at hrun
    rw [← hrun]
    simp only []
    rw [exportLoopMem_frame cipher pubkeys rng o ho _ _ _ _ _ _ heq,
      Heap.get_assign_ne _ _ _ _ ho]
  · simp at hrun
  · simp at hrun

/-! ## The methods on the memory compute what the methods on values compute -/

theorem encryptBlockMem_succ (h : Heap) (key_data1 key_data2 : View) (tp n : Nat) :
    encryptBlockMem h key_data1 key_data2 tp (n + 1) =
      (encryptBlockMem h key_data1 key_data2 tp n).store Obj.buf n
        (((encryptBlockMem h key_data1 key_data2 tp n).get Obj.buf).getD n 0 ^^^
          ((encryptBlockMem h key_data1 key_data2 tp n).index key_data1 ((tp + n) % Key1Size) ^^^
            (encryptBlockMem h key_data1 key_data2 tp n).index key_data2
              ((tp + n) % Key2Size))) := by
  unfold encryptBlockMem
  rw [List.range_succ, List.foldl_append]
  rfl

theorem encryptBlockMem_buf_length (key_data1 key_data2 : View) (tp : Nat) :
    ∀ (n : Nat) (h : Heap),
      ((encryptBlockMem h key_data1 key_data2 tp n).get Obj.buf).length
        = (h.get Obj.buf).length := by
  intro n
  induction n with
  | zero =>
    intro h
    rfl
  | succ n ih =>
    intro h
    rw [encryptBlockMem_succ, Heap.get_store_same, List.length_set, ih]

/-- The content of `buf` after the inner loop, element by element: the first
`n` bytes are XORed with the key bytes loaded from `Data`. -/
theorem encryptBlockMem_buf (key_data1 key_data2 : View) (tp : Nat)
    (h1 : key_data1.obj = Obj.Data) (h2 : key_data2.obj = Obj.Data) :
    ∀ (n : Nat) (h : Heap) (j : Nat),
      ((encryptBlockMem h key_data1 key_data2 tp n).get Obj.buf)[j]? =
        if j < n then
          Option.map (fun b => b ^^^
            ((h.get Obj.Data).getD (key_data1.lo + (tp + j) % Key1Size) 0 ^^^
              (h.get Obj.Data).getD (key_data2.lo + (tp + j) % Key2Size) 0))
            (h.get Obj.buf)[j]?
        else (h.get Obj.buf)[j]? := by
  intro n
  induction n with
  | zero =>
    intro h j
    simp [encryptBlockMem]
  | succ n ih =>
    intro h j
    have hD : (encryptBlockMem h key_data1 key_data2 tp n).get Obj.Data = h.get Obj.Data :=
      encryptBlockMem_frame _ _ _ _ (by decide) n h
    rw [encryptBlockMem_succ, Heap.get_store_same, List.getElem?_set]
    unfold Heap.index
    rw [h1, h2, hD, encryptBlockMem_buf_length]
    by_cases hj : n = j
    · subst hj
      rw [if_pos rfl, if_pos (Nat.lt_succ_self _), List.getD_eq_getElem?_getD, ih h n,
        if_neg (Nat.lt_irrefl _)]
      by_cases hl : n < (h.get Obj.buf).length
      · rw [if_pos hl, List.getElem?_eq_getElem hl]
        rfl
      · rw [if_neg hl, List.getElem?_eq_none (Nat.le_of_not_lt hl)]
        rfl
    · rw [if_neg hj, ih h j]
      by_cases hlt : j < n
      · rw [if_pos hlt, if_pos (by omega)]
      · rw [if_neg hlt, if_neg (by omega)]

theorem take_drop_getD (D : List Nat) (lo len i : Nat) (hi : i < len) :
    ((D.drop lo).take len).getD i 0 = D.getD (lo + i) 0 := by
  simp [List.getD_eq_getElem?_getD, List.getElem?_take, List.getElem?_drop, hi]

/-- After `ReadAt` has filled a prefix of `buf` with `rd` and the inner loop has
run over it, `buf[:len(rd)]` is `encryptBlock` of `rd` under the two windows. -/
theorem encryptBlockMem_eq (h : Heap) (key_data1 key_data2 : View) (tp : Nat) (rd : List Nat)
    (h1 : key_data1.obj = Obj.Data) (h2 : key_data2.obj = Obj.Data)
    (hlen : rd.length ≤ (h.get Obj.buf).length) :
    ((encryptBlockMem (h.assign Obj.buf (copy (h.get Obj.buf) rd)) key_data1 key_data2 tp
        rd.length).get Obj.buf).take rd.length
      = encryptBlock (((h.get Obj.Data).drop key_data1.lo).take Key1Size)
          (((h.get Obj.Data).drop key_data2.lo).take Key2Size) tp rd := by
  apply List.ext_getElem?
  intro j
  rw [List.getElem?_take, encryptBlockMem_buf _ _ _ h1 h2, Heap.get_assign_same,
    Heap.get_assign_ne _ _ _ _ (by decide)]
  unfold encryptBlock
  rw [List.getElem?_mapIdx]
  by_cases hj : j < rd.length
  · rw [if_pos hj, if_pos hj]
    have hc : (copy (h.get Obj.buf) rd)[j]? = rd[j]? := by
      unfold copy
      rw [List.take_of_length_le hlen, List.getElem?_append_left hj]
    rw [hc]
    unfold keyByte
    rw [take_drop_getD _ _ _ _ (Nat.mod_lt _ (by decide)),
      take_drop_getD _ _ _ _ (Nat.mod_lt _ (by decide))]
  · rw [if_neg hj, List.getElem?_eq_none (Nat.le_of_not_lt hj)]
    rfl

theorem copy_length (dst src : List Nat) (h : src.length ≤ dst.length) :
    (copy dst src).length = dst.length := by
  unfold copy
  rw [List.length_append, List.length_take, List.length_drop]
  omega

/-- The block loop on the memory returns the outcome and the file content of
`blockLoop` run on the two windows of `Data`. -/
theorem blockLoopMem_eq (key_data1 key_data2 : View) (s N : Nat) (bs : Int) (io : Faults)
    (h1 : key_data1.obj = Obj.Data) (h2 : key_data2.obj = Obj.Data) (D : List Nat) :
    ∀ (rem bn tp : Nat) (content : List Nat) (h : Heap),
      h.get Obj.Data = D → (h.get Obj.buf).length = BlockSize →
      (blockLoopMem key_data1 key_data2 s N bs io rem bn tp content h).1 =
        (blockLoop ((D.drop key_data1.lo).take Key1Size) ((D.drop key_data2.lo).take Key2Size)
          s N bs io rem bn tp content).1 ∧
      (blockLoopMem key_data1 key_data2 s N bs io rem bn tp content h).2.1 =
        (blockLoop ((D.drop key_data1.lo).take Key1Size) ((D.drop key_data2.lo).take Key2Size)
          s N bs io rem bn tp content).2.1 := by
  intro rem
  induction rem with
  | zero =>
    intro bn tp content h _ _
    exact ⟨rfl, rfl⟩
  | succ rem ih =>
    intro bn tp content h hD hB
    rw [blockLoopMem, blockLoop_succ]
    simp only []
    obtain ⟨g1, _⟩ := readAt_general content BlockSize (blockOffset s N bs bn) (io.read bn)
    generalize ReadAt content BlockSize (blockOffset s N bs bn) (io.read bn) = rd at g1 ⊢
    have hle : rd.1.length ≤ (h.get Obj.buf).length := by rw [hB]; exact g1
    have hout := encryptBlockMem_eq h key_data1 key_data2 tp rd.1 h1 h2 hle
    rw [hD] at hout
    by_cases hfail : rd.2 ≠ Option.none ∧ rd.2 ≠ some Err.EOF
    · rw [if_pos hfail, if_pos hfail]
      exact ⟨rfl, rfl⟩
    · rw [if_neg hfail, if_neg hfail]
      by_cases hzero : rd.1.length = 0
      · rw [if_pos hzero, if_pos hzero]
        exact ⟨rfl, rfl⟩
      · rw [if_neg hzero, if_neg hzero]
        cases hw : io.write bn with
        | some p =>
          obtain ⟨n, e⟩ := p
          simp only []
          rw [hout]
          simp
        | none =>
          simp only []
          rw [hout]
          apply ih
          · rw [encryptBlockMem_frame _ _ _ _ (by decide),
              Heap.get_assign_ne _ _ _ _ (by decide), hD]
          · rw [encryptBlockMem_buf_length, Heap.get_assign_same, copy_length _ _ hle, hB]

theorem Heap.sliceOf_eq (h : Heap) (o : Obj) (lo hi : Nat) :
    (h.sliceOf o lo hi = Option.none ∧ slice (h.get o) lo hi = Option.none) ∨
    (h.sliceOf o lo hi = some ⟨o, lo, hi⟩ ∧
      slice (h.get o) lo hi = some (((h.get o).drop lo).take (hi - lo))) := by
  unfold Heap.sliceOf slice
  by_cases hc : lo ≤ hi ∧ hi ≤ (h.get o).length
  · right
    rw [if_pos hc, if_pos hc]
    exact ⟨rfl, rfl⟩
  · left
    rw [if_neg hc, if_neg hc]
    exact ⟨rfl, rfl⟩

theorem key1_span (n1 : Nat) :
    (keyData1Pos n1 + Key1Size) % 2 ^ 32 - keyData1Pos n1 = Key1Size := by
  have h := keyData1Pos_lt n1
  unfold EncryptionKeyTabSize Key1Size at h
  unfold Key1Size
  omega

theorem key2_span (n2 : Nat) :
    (keyData2Pos n2 + Key2Size) % 2 ^ 32 - keyData2Pos n2 = Key2Size := by
  have h := keyData2Pos_lt n2
  unfold EncryptionKeyTabSize Key2Size at h
  unfold Key2Size
  omega

theorem evaluateContentMem_eq (h : Heap) (io : Faults) (content : List Nat) (n1 n2 : Nat) :
    (evaluateContentMem h io content n1 n2).1 = (evaluateContent h.keytab io content n1 n2).1 ∧
    (evaluateContentMem h io content n1 n2).2.1
      = (evaluateContent h.keytab io content n1 n2).2.1 := by
  unfold evaluateContentMem evaluateContent Heap.keytab
  simp only []
  by_cases hs : content.length = 0
  · rw [if_pos hs, if_pos hs]
    exact ⟨rfl, rfl⟩
  · rw [if_neg hs, if_neg hs]
    rcases Heap.sliceOf_eq h Obj.Data (keyData1Pos n1) ((keyData1Pos n1 + Key1Size) % 2 ^ 32)
      with ⟨a1, a2⟩ | ⟨a1, a2⟩
    · rw [a1, a2]
      exact ⟨rfl, rfl⟩
    · rw [a1, a2]
      simp only []
      rcases Heap.sliceOf_eq h Obj.Data (keyData2Pos n2) ((keyData2Pos n2 + Key2Size) % 2 ^ 32)
        with ⟨b1, b2⟩ | ⟨b1, b2⟩
      · rw [b1, b2]
        exact ⟨rfl, rfl⟩
      · rw [b1, b2]
        simp only []
        rw [key1_span, key2_span]
        exact blockLoopMem_eq _ _ _ _ _ io rfl rfl (h.get Obj.Data) _ _ _ _ _
          (Heap.get_assign_ne _ _ _ _ (by decide))
          (by rw [Heap.get_assign_same, List.length_replicate])

/-- The method `EvaluateFilename` on the memory returns the outcome and the file
system of `EvaluateFilename` on the key table that the memory holds. -/
theorem EvaluateFilenameMem_eq (h : Heap) (io : Faults) (fs : FS) (filename : String)
    (n1 n2 : Nat) :
    (EvaluateFilenameMem h io fs filename n1 n2).1
      = (EvaluateFilename h.keytab io fs filename n1 n2).1 ∧
    (EvaluateFilenameMem h io fs filename n1 n2).2.1
      = (EvaluateFilename h.keytab io fs filename n1 n2).2.1 := by
  unfold EvaluateFilenameMem EvaluateFilename
  cases io.openFile with
  | some e => exact ⟨rfl, rfl⟩
  | none =>
    cases fs filename with
    | none => exact ⟨rfl, rfl⟩
    | some content =>
      cases io.stat with
      | some e => exact ⟨rfl, rfl⟩
      | none =>
        obtain ⟨a, b⟩ := evaluateContentMem_eq h io content n1 n2
        simp only []
        rw [a, b]
        exact ⟨rfl, rfl⟩

theorem extDataMem_eq (h : Heap) (n1 n2 : Nat) :
    (extDataMem h n1 n2).get Obj.ext_data = extData h.keytab n1 n2 := by
  unfold extDataMem extData store32Mem store32 Heap.keytab
  simp only [Heap.get_store_same, Heap.get_assign_same,
    Heap.get_assign_ne _ Obj.ext_data Obj.Hash _ (by decide)]

/-- The method `EncryptFilename` on the memory returns the outcome and the file
system of `EncryptFilename` on the key table that the memory holds. -/
theorem EncryptFilenameMem_eq (h : Heap) (io : Faults) (fs : FS)
    (filename ransom_ext : String) (n1 n2 : Nat) :
    (EncryptFilenameMem h io fs filename ransom_ext n1 n2).1
      = (EncryptFilename h.keytab io fs filename ransom_ext n1 n2).1 ∧
    (EncryptFilenameMem h io fs filename ransom_ext n1 n2).2.1
      = (EncryptFilename h.keytab io fs filename ransom_ext n1 n2).2.1 := by
  have hk : (extDataMem h n1 n2).keytab = h.keytab := by
    unfold Heap.keytab
    rw [extDataMem_frame _ _ _ _ (by decide), extDataMem_frame _ _ _ _ (by decide)]
  unfold EncryptFilenameMem EncryptFilename newFilename
  simp only []
  rw [extDataMem_eq]
  generalize Rename io fs filename
    (filename ++ "." ++ String.mk (EncodeToString (extData h.keytab n1 n2)) ++ "."
      ++ ransom_ext) = rn
  obtain ⟨re, fs1⟩ := rn
  cases re with
  | some e => exact ⟨rfl, rfl⟩
  | none =>
    simp only []
    rw [← hk]
    exact EvaluateFilenameMem_eq _ _ _ _ _ _

/-- The loop of `Export` on the memory ends as `exportLoop` ends on the content
of `Data`, and leaves in `dst_data` what `exportLoop` returns. -/
theorem exportLoopMem_eq {PublicKey : Type} (cipher : Cipher PublicKey)
    (pubkeys : List PublicKey) (rng : Nat → Nat) (D : List Nat) :
    ∀ (fuel pos rem_len i : Nat) (h : Heap), h.get Obj.Data = D →
      (∀ r, exportLoop cipher pubkeys D rng fuel pos rem_len i (h.get Obj.dst_data)
          = Run.done r →
        ∃ h2, exportLoopMem cipher pubkeys rng fuel pos rem_len i h = Run.done h2 ∧
          h2.get Obj.dst_data = r.1) ∧
      (exportLoop cipher pubkeys D rng fuel pos rem_len i (h.get Obj.dst_data) = Run.panic →
        exportLoopMem cipher pubkeys rng fuel pos rem_len i h = Run.panic) ∧
      (exportLoop cipher pubkeys D rng fuel pos rem_len i (h.get Obj.dst_data)
          = Run.outOfFuel →
        exportLoopMem cipher pubkeys rng fuel pos rem_len i h = Run.outOfFuel) := by
  intro fuel
  induction fuel with
  | zero =>
    intro pos rem_len i h _
    rw [exportLoop, exportLoopMem]
    by_cases h1 : rem_len > 0
    · simp [h1]
    · simp only [h1, if_false]
      refine ⟨?_, by simp, by simp⟩
      intro r hr
      simp only [Run.done.injEq] at hr
      exact ⟨h, rfl, by rw [← hr]⟩
  | succ fuel ih =>
    intro pos rem_len i h hD
    rw [exportLoop, exportLoopMem]
    by_cases h1 : rem_len > 0
    · simp only [h1, if_true]
      by_cases h2 : pubkeys.length = 0
      · simp [h2]
      · simp only [h2, if_false]
        cases hk : pubkeys[i % pubkeys.length]? with
        | none => simp
        | some pubkey =>
          simp only []
          by_cases h3 : chunkSize (cipher.Size pubkey) rem_len < 0
          · simp [h3]
          · simp only [h3, if_false]
            rcases Heap.sliceOf_eq h Obj.Data pos
              (pos + (chunkSize (cipher.Size pubkey) rem_len).toNat) with ⟨a1, a2⟩ | ⟨a1, a2⟩
            · rw [hD] at a2
              rw [a1, a2]
              simp
            · rw [hD] at a2
              rw [a1, a2]
              simp only []
              have hb : h.bytes ⟨Obj.Data, pos,
                  pos + (chunkSize (cipher.Size pubkey) rem_len).toNat⟩
                  = (D.drop pos).take
                      (pos + (chunkSize (cipher.Size pubkey) rem_len).toNat - pos) := by
                unfold Heap.bytes
                rw [hD]
              rw [hb]
              obtain ⟨i1, i2, i3⟩ := ih (pos + (chunkSize (cipher.Size pubkey) rem_len).toNat)
                (rem_len - (chunkSize (cipher.Size pubkey) rem_len).toNat) (i + 1)
                (h.assign Obj.dst_data (h.get Obj.dst_data ++
                  (cipher.EncryptOAEP pubkey (rng i) ((D.drop pos).take
                    (pos + (chunkSize (cipher.Size pubkey) rem_len).toNat - pos))).getD []))
                (by rw [Heap.get_assign_ne _ _ _ _ (by decide), hD])
              rw [Heap.get_assign_same] at i1 i2 i3
              generalize exportLoop cipher pubkeys D rng fuel
                (pos + (chunkSize (cipher.Size pubkey) rem_len).toNat)
                (rem_len - (chunkSize (cipher.Size pubkey) rem_len).toNat) (i + 1)
                (h.get Obj.dst_data ++
                  (cipher.EncryptOAEP pubkey (rng i) ((D.drop pos).take
                    (pos + (chunkSize (cipher.Size pubkey) rem_len).toNat - pos))).getD [])
                = rr at i1 i2 i3 ⊢
              cases rr with
              | done r0 =>
                obtain ⟨h2', e1, e2⟩ := i1 r0 rfl
                refine ⟨?_, by simp, by simp⟩
                intro r hr
                simp only [Run.done.injEq] at hr
                exact ⟨h2', e1, by rw [e2, ← hr]⟩
              | panic => exact ⟨by simp, fun _ => i2 rfl, by simp⟩
              | outOfFuel => exact ⟨by simp, by simp, fun _ => i3 rfl⟩
    · simp only [h1, if_false]
      refine ⟨?_, by simp, by simp⟩
      intro r hr
      simp only [Run.done.injEq] at hr
      exact ⟨h, rfl, by rw [← hr]⟩

/-- The method `Export` on the memory returns the bytes that `Export` returns on
the key table that the memory holds. -/
theorem ExportMem_eq {PublicKey : Type} (cipher : Cipher PublicKey) (h : Heap)
    (pubkeys : List PublicKey) (rng : Nat → Nat) (fuel : Nat) :
    (∀ r, Export cipher h.keytab pubkeys rng fuel = Run.done r →
      ∃ h2, ExportMem cipher h pubkeys rng fuel = Run.done (r.1, h2)) ∧
    (Export cipher h.keytab pubkeys rng fuel = Run.panic →
      ExportMem cipher h pubkeys rng fuel = Run.panic) ∧
    (Export cipher h.keytab pubkeys rng fuel = Run.outOfFuel →
      ExportMem cipher h pubkeys rng fuel = Run.outOfFuel) := by
  obtain ⟨i1, i2, i3⟩ := exportLoopMem_eq cipher pubkeys rng (h.get Obj.Data) fuel 0
    (h.get Obj.Data).length 0 (h.assign Obj.dst_data [])
    (Heap.get_assign_ne _ _ _ _ (by decide))
  rw [Heap.get_assign_same] at i1 i2 i3
  unfold Export ExportMem Heap.keytab
  simp only []
  rw [Heap.get_assign_ne _ _ _ _ (by decide)]
  refine ⟨?_, ?_, ?_⟩
  · intro r hr
    obtain ⟨h2, e1, e2⟩ := i1 r hr
    rw [e1]
    exact ⟨h2, by simp only []; rw [e2]⟩
  · intro hr
    rw [i2 hr]
  · intro hr
    rw [i3 hr]

/-! ## `GenKeyTab` and sequences of calls -/

theorem GenKeyTab_filled (sha : Sha) (stream : Nat → Nat) :
    GenKeyTab sha (RandRead.filled stream)
      = some ⟨(List.range EncryptionKeyTabSize).map stream,
          sha.Sum512_256 ((List.range EncryptionKeyTabSize).map stream)⟩ := by
  unfold GenKeyTab cryptorandRead
  simp only [List.length_replicate]

theorem GenKeyTab_failed (sha : Sha) (delivered : List Nat) (e : Err) :
    GenKeyTab sha (RandRead.failed delivered e) = Option.none := rfl

/-- A call that returns and is not `Erase` leaves `Data` and `Hash` as they
were. -/
theorem step_keytab {PublicKey : Type} (w w2 : World) (op : Op PublicKey)
    (hop : op.isErase = false) (hstep : step w op = some w2) :
    w2.heap.keytab = w.heap.keytab := by
  have key : w2.heap.get Obj.Data = w.heap.get Obj.Data ∧
      w2.heap.get Obj.Hash = w.heap.get Obj.Hash := by
    cases op with
    | EncryptFilename io filename ransom_ext n1 n2 =>
      have f1 := EncryptFilenameMem_frame w.heap io w.fs filename ransom_ext n1 n2 Obj.Data
        (by decide) (by decide)
      have f2 := EncryptFilenameMem_frame w.heap io w.fs filename ransom_ext n1 n2 Obj.Hash
        (by decide) (by decide)
      simp only [step] at hstep
      rcases hr : EncryptFilenameMem w.heap io w.fs filename ransom_ext n1 n2 with ⟨out, fs, h⟩
      rw [hr] at hstep f1 f2
      cases out with
      | ok =>
        simp only [Option.some.injEq] at hstep
        rw [← hstep]
        exact ⟨f1, f2⟩
      | error e =>
        simp only [Option.some.injEq] at hstep
        rw [← hstep]
        exact ⟨f1, f2⟩
      | panic => simp at hstep
    | EvaluateFilename io filename n1 n2 =>
      have f1 := EvaluateFilenameMem_frame w.heap io w.fs filename n1 n2 Obj.Data (by decide)
      have f2 := EvaluateFilenameMem_frame w.heap io w.fs filename n1 n2 Obj.Hash (by decide)
      simp only [step] at hstep
      rcases hr : EvaluateFilenameMem w.heap io w.fs filename n1 n2 with ⟨out, fs, h⟩
      rw [hr] at hstep f1 f2
      cases out with
      | ok =>
        simp only [Option.some.injEq] at hstep
        rw [← hstep]
        exact ⟨f1, f2⟩
      | error e =>
        simp only [Option.some.injEq] at hstep
        rw [← hstep]
        exact ⟨f1, f2⟩
      | panic => simp at hstep
    | Export cipher pubkeys rng fuel =>
      simp only [step] at hstep
      cases hr : ExportMem cipher w.heap pubkeys rng fuel with
      | done r =>
        rw [hr] at hstep
        simp only [Option.some.injEq] at hstep
        rw [← hstep]
        exact ⟨ExportMem_frame cipher w.heap pubkeys rng fuel r hr Obj.Data (by decide),
          ExportMem_frame cipher w.heap pubkeys rng fuel r hr Obj.Hash (by decide)⟩
      | panic =>
        rw [hr] at hstep
        simp at hstep
      | outOfFuel =>
        rw [hr] at hstep
        simp at hstep
    | Erase => simp [Op.isErase] at hop
  unfold Heap.keytab
  rw [key.1, key.2]

theorem run_keytab {PublicKey : Type} (ops : List (Op PublicKey)) :
    ∀ (w w2 : World), (∀ op ∈ ops, op.isErase = false) → run w ops = some w2 →
      w2.heap.keytab = w.heap.keytab := by
  induction ops with
  | nil =>
    intro w w2 _ hrun
    simp only [run, Option.some.injEq] at hrun
    rw [hrun]
  | cons op rest ih =>
    intro w w2 hops hrun
    rw [run] at hrun
    cases hs : step w op with
    | none =>
      rw [hs] at hrun
      simp at hrun
    | some w1 =>
      rw [hs] at hrun
      simp only [] at hrun
      rw [ih w1 w2 (fun o ho => hops o (List.mem_cons_of_mem _ ho)) hrun,
        step_keytab w w1 op (hops op (List.mem_cons_self _ _)) hs]

/-- With a key table of `0x300000` bytes, a call of `EvaluateFilename` returns,
whatever the system calls do. -/
theorem step_EvaluateFilename_returns {PublicKey : Type} (w : World)
    (hD : (w.heap.get Obj.Data).length = EncryptionKeyTabSize) (io : Faults)
    (filename : String) (n1 n2 : Nat) :
    ∃ w2, step w (Op.EvaluateFilename io filename n1 n2 : Op PublicKey) = some w2 := by
  have hne : (EvaluateFilenameMem w.heap io w.fs filename n1 n2).1 ≠ Outcome.panic := by
    rw [(EvaluateFilenameMem_eq w.heap io w.fs filename n1 n2).1]
    rcases EvaluateFilename_cases w.heap.keytab io w.fs filename n1 n2 with
      ⟨e, h, _⟩ | ⟨content, _, _, _, h⟩
    · rw [h]
      simp
    · rw [h]
      simp only []
      by_cases hs : content.length = 0
      · rw [evaluateContent_empty _ _ _ hs]
        simp
      · rw [evaluateContent_eq w.heap.keytab hD io content hs n1 n2]
        exact (blockLoop_faults _ _ _ _ _ io _ _ _ _).1
  simp only [step]
  rcases hr : EvaluateFilenameMem w.heap io w.fs filename n1 n2 with ⟨out, fs, h⟩
  rw [hr] at hne
  cases out with
  | ok => exact ⟨_, rfl⟩
  | error e => exact ⟨_, rfl⟩
  | panic => exact absurd rfl hne

/-- What a key table returned by `GenKeyTab` is made of: the source filled the
buffer, `Data` is the filled buffer and `Hash` is its digest. -/
theorem GenKeyTab_some (sha : Sha) (src : RandRead) (kt : EncryptionKeyTab)
    (h : GenKeyTab sha src = some kt) :
    ∃ stream, src = RandRead.filled stream ∧
      kt.Data = (List.range EncryptionKeyTabSize).map stream ∧
      kt.Hash = sha.Sum512_256 kt.Data := by
  cases src with
  | filled stream =>
    rw [GenKeyTab_filled] at h
    cases kt with
    | mk D H =>
      simp only [Option.some.injEq, EncryptionKeyTab.mk.injEq] at h
      refine ⟨stream, rfl, ?_, ?_⟩
      · simp only []
        exact h.1.symm
      · simp only []
        rw [← h.2, ← h.1]
  | failed delivered e =>
    rw [GenKeyTab_failed] at h
    simp at h

theorem Heap.keytab_ofKeytab (kt : EncryptionKeyTab) : (Heap.ofKeytab kt).keytab = kt := rfl

theorem Heap.get_ofKeytab_Data (kt : EncryptionKeyTab) :
    (Heap.ofKeytab kt).get Obj.Data = kt.Data := rfl

/-- Started on the memory that holds a key table of `0x300000` bytes, a call of
`EvaluateFilename` returns, whatever the system calls do. -/
theorem run_EvaluateFilename_returns {PublicKey : Type} (kt : EncryptionKeyTab)
    (hD : kt.Data.length = EncryptionKeyTabSize) (fs : FS) (io : Faults)
    (filename : String) (n1 n2 : Nat) :
    ∃ w2, run ⟨Heap.ofKeytab kt, fs⟩
      ([Op.EvaluateFilename io filename n1 n2] : List (Op PublicKey)) = some w2 := by
  obtain ⟨w2, hw2⟩ := step_EvaluateFilename_returns (⟨Heap.ofKeytab kt, fs⟩ : World)
    (by rw [Heap.get_ofKeytab_Data]; exact hD) io filename n1 n2
  refine ⟨w2, ?_⟩
  rw [run, hw2]
  rfl

/-- With a toolchain before Go 1.24, `GenKeyTab` returns a key table also when
the source fails: `Data` is then the delivered bytes followed by the zero bytes
of the fresh buffer, and `Hash` is the digest of that. -/
theorem GenKeyTabBefore124_failed (sha : Sha) (delivered : List Nat) (e : Err) :
    GenKeyTabBefore124 sha (RandRead.failed delivered e)
      = ⟨copy (List.replicate EncryptionKeyTabSize 0) delivered,
          sha.Sum512_256 (copy (List.replicate EncryptionKeyTabSize 0) delivered)⟩ := by
  unfold GenKeyTabBefore124 cryptorandReadBefore124
  simp only []

/-! ## The claims -/

theorem zeroKeyTab_length : zeroKeyTab.Data.length = EncryptionKeyTabSize := by
  simp [zeroKeyTab]

/-- C1. Round trip of `EvaluateFilename`: for every key table with
`len(Data) = 0x300000`, every pair of seeds and every file content of any size,
running `EvaluateFilename` twice on the file with the same key table and seeds,
with no system call failing, succeeds both times and leaves the file
byte-for-byte equal to the original content (and the file system as it was). -/
theorem EvaluateFilename_round_trip (keytab : EncryptionKeyTab)
    (hD : keytab.Data.length = EncryptionKeyTabSize) (fs : FS) (filename : String)
    (content : List Nat) (hf : fs filename = some content) (n1 n2 : Nat) :
    (EvaluateFilename keytab Faults.none fs filename n1 n2).1 = Outcome.ok ∧
    (EvaluateFilename keytab Faults.none
      (EvaluateFilename keytab Faults.none fs filename n1 n2).2.1 filename n1 n2).1
        = Outcome.ok ∧
    (EvaluateFilename keytab Faults.none
      (EvaluateFilename keytab Faults.none fs filename n1 n2).2.1 filename n1 n2).2.1 filename
        = some content ∧
    (EvaluateFilename keytab Faults.none
      (EvaluateFilename keytab Faults.none fs filename n1 n2).2.1 filename n1 n2).2.1 = fs := by
  obtain ⟨a1, a2, a3⟩ := evaluateContent_twice keytab hD content n1 n2
  rw [EvaluateFilename_eq keytab fs filename content hf n1 n2]
  simp only []
  rw [EvaluateFilename_eq keytab _ filename _ (FS_set_same fs filename _) n1 n2]
  simp only []
  rw [a3, FS_set_set, FS_set_same, FS_set_self fs filename _ hf]
  exact ⟨a1, a2, rfl, rfl⟩

theorem EvaluateFilename_round_trip_witness :
    (EvaluateFilename zeroKeyTab Faults.none
      (EvaluateFilename zeroKeyTab Faults.none (fun _ => some [1, 2, 3]) "a" 5 6).2.1
        "a" 5 6).2.1 "a" = some [1, 2, 3] :=
  (EvaluateFilename_round_trip zeroKeyTab zeroKeyTab_length (fun _ => some [1, 2, 3]) "a"
    [1, 2, 3] rfl 5 6).2.2.1

/-- C2. Block count: on a file of size `s` (no system call failing, key table of
`0x300000` bytes) `EvaluateFilename` returns success without reading or writing
when `s = 0`; otherwise the value of `num_blocks`, which is also the number of
blocks it reads and writes, is 1 when `0 < s <= 4096`, 2 when `s > 4096` and
`raw_count < 2`, and `min raw_count 256` otherwise, where
`raw_count = 30 * (s / 4096) / 100`. -/
theorem EvaluateFilename_block_count (keytab : EncryptionKeyTab)
    (hD : keytab.Data.length = EncryptionKeyTabSize) (fs : FS) (filename : String)
    (content : List Nat) (hf : fs filename = some content) (n1 n2 : Nat) :
    (content.length = 0 →
      EvaluateFilename keytab Faults.none fs filename n1 n2 = (Outcome.ok, fs, [])) ∧
    (content.length ≠ 0 → numBlocks content.length =
      if content.length ≤ 4096 then 1
      else if 30 * (content.length / 4096) / 100 < 2 then 2
      else min (30 * (content.length / 4096) / 100) 256) ∧
    (EvaluateFilename keytab Faults.none fs filename n1 n2).2.2.length =
      if content.length = 0 then 0
      else if content.length ≤ 4096 then 1
      else if 30 * (content.length / 4096) / 100 < 2 then 2
      else min (30 * (content.length / 4096) / 100) 256 := by
  have hform : numBlocks content.length =
      if content.length ≤ 4096 then 1
      else if 30 * (content.length / 4096) / 100 < 2 then 2
      else min (30 * (content.length / 4096) / 100) 256 := by
    unfold numBlocks MaxNumBlocks BlockSize
    simp only []
    split_ifs <;> omega
  rw [EvaluateFilename_eq keytab fs filename content hf n1 n2]
  refine ⟨?_, fun _ => hform, ?_⟩
  · intro hs
    rw [evaluateContent_empty keytab Faults.none content hs n1 n2]
    simp only []
    rw [FS_set_self fs filename _ hf]
  · by_cases hs : content.length = 0
    · rw [evaluateContent_empty keytab Faults.none content hs n1 n2, if_pos hs]
      rfl
    · obtain ⟨_, _, _, a4, _⟩ := evaluateContent_log keytab hD content hs n1 n2
      rw [if_neg hs]
      simp only []
      rw [a4, hform]

theorem EvaluateFilename_block_count_witness :
    (EvaluateFilename zeroKeyTab Faults.none (fun _ => some (List.replicate 10000 7))
      "a" 5 6).2.2.length = 2 := by
  have h := (EvaluateFilename_block_count zeroKeyTab zeroKeyTab_length
    (fun _ => some (List.replicate 10000 7)) "a" (List.replicate 10000 7) rfl 5 6).2.2
  simp only [List.length_replicate] at h
  exact h

/-- C3 (the code departs from the claim). On a file of 57344 bytes the plan has
four blocks and `block_space = 13653`; the claim places block 3 at
`2 * 13653 = 27306`, but the loop reads and writes blocks 2 and 3 at the same
offset 13653, because `file_off` is declared inside the loop body. -/
theorem middle_blocks_share_one_offset :
    numBlocks 57344 = 4 ∧ blockSpace 57344 4 = 13653 ∧
    (EvaluateFilename zeroKeyTab Faults.none (fun _ => some (List.replicate 57344 7))
      "a" 5 6).2.2.map (fun o => o.file_off) = [0, 13653, 13653, 53248] := by
  have hN : numBlocks 57344 = 4 := by decide
  have hB : blockSpace 57344 4 = 13653 := by decide
  have key : ∀ content : List Nat, content.length = 57344 →
      (EvaluateFilename zeroKeyTab Faults.none (fun _ => some content)
        "a" 5 6).2.2.map (fun o => o.file_off) = [0, 13653, 13653, 53248] := by
    intro content hlen
    rw [EvaluateFilename_eq zeroKeyTab _ "a" content rfl 5 6]
    simp only []
    rw [evaluateContent_offsets zeroKeyTab zeroKeyTab_length content
      (by rw [hlen]; decide) 5 6, hlen, hN, hB]
    decide
  exact ⟨hN, hB, key _ (List.length_replicate _ _)⟩

/-- C4. Last block ends at end-of-file: for every file of size `s > 4096` (no
system call failing) the first block processed by `EvaluateFilename` starts at
offset 0 and the last block (block `N`) starts at `s - 4096` and is 4096 bytes
long, so it covers exactly the final 4096 bytes; for `s = 10000` the plan is
exactly two blocks, at offsets 0 and 5904. -/
theorem last_block_ends_at_eof (keytab : EncryptionKeyTab)
    (hD : keytab.Data.length = EncryptionKeyTabSize) (fs : FS) (filename : String)
    (content : List Nat) (hf : fs filename = some content) (n1 n2 : Nat)
    (hs : 4096 < content.length) :
    (EvaluateFilename keytab Faults.none fs filename n1 n2).2.2.length
      = numBlocks content.length ∧
    (∃ op, (EvaluateFilename keytab Faults.none fs filename n1 n2).2.2[0]? = some op ∧
      op.block_num = 1 ∧ op.file_off = 0) ∧
    (∃ op, (EvaluateFilename keytab Faults.none fs filename n1 n2).2.2[
        numBlocks content.length - 1]? = some op ∧
      op.block_num = numBlocks content.length ∧
      op.file_off = (content.length : Int) - 4096 ∧
      op.bytes_in.length = 4096 ∧ op.bytes_out.length = 4096) ∧
    (content.length = 10000 →
      (EvaluateFilename keytab Faults.none fs filename n1 n2).2.2.map (fun o => o.file_off)
        = [0, 5904]) := by
  have hs0 : content.length ≠ 0 := by omega
  have hbig : BlockSize < content.length := by unfold BlockSize; omega
  have hN := numBlocks_large content.length hbig
  obtain ⟨_, _, _, a4, a5⟩ := evaluateContent_log keytab hD content hs0 n1 n2
  have hoffs := evaluateContent_offsets keytab hD content hs0 n1 n2
  rw [EvaluateFilename_eq keytab fs filename content hf n1 n2]
  simp only []
  refine ⟨a4, ?_, ?_, ?_⟩
  · have hget := List.getElem?_eq_getElem (show
      0 < (evaluateContent keytab Faults.none content n1 n2).2.2.length by rw [a4]; omega)
    obtain ⟨b1, b2, _⟩ := a5 0 _ hget
    refine ⟨_, hget, b1, ?_⟩
    rw [b2, blockOffset_first]
  · have hget := List.getElem?_eq_getElem (show numBlocks content.length - 1
        < (evaluateContent keytab Faults.none content n1 n2).2.2.length by rw [a4]; omega)
    obtain ⟨b1, b2, _, _, b5, b6⟩ := a5 _ _ hget
    have hk : 1 + (numBlocks content.length - 1) = numBlocks content.length := by omega
    rw [hk] at b1 b2
    rw [blockOffset_last content.length _ _ hN hbig] at b2
    have hin : ((evaluateContent keytab Faults.none content n1 n2).2.2[
        numBlocks content.length - 1]).bytes_in.length = 4096 := by
      rw [b6, b2]
      unfold BlockSize
      omega
    refine ⟨_, hget, b1, ?_, hin, ?_⟩
    · rw [b2]; rfl
    · rw [b5, encryptBlock_length, hin]
  · intro h10
    rw [hoffs, h10]
    decide

theorem last_block_ends_at_eof_witness :
    (EvaluateFilename zeroKeyTab Faults.none (fun _ => some (List.replicate 10000 7))
      "a" 5 6).2.2.map (fun o => o.file_off) = [0, 5904] :=
  (last_block_ends_at_eof zeroKeyTab zeroKeyTab_length
    (fun _ => some (List.replicate 10000 7)) "a" (List.replicate 10000 7) rfl 5 6
    (by rw [List.length_replicate]; decide)).2.2.2 (List.length_replicate _ _)

/-- C5. Keystream application: in a run of `EvaluateFilename` without failing
system calls, with 32-bit seeds and a key table of `0x300000` bytes, the final
file content is the result of the block writes of the log applied in order, and
for the `k`-th processed block: its position counter is the sum of the byte
counts of the blocks before it; its input is what the file holds at the block's
offset at that moment; and byte `i` of what is written back at the same offset
is the input byte XOR `Data[o1 + p mod 0x100000]` XOR `Data[o2 + p mod 0xC00]`
with `p = counter + i`, `o1 = n1 mod 0x200000`, `o2 = n2 mod (0x300000 - 0xC00)`,
both indices being valid indices of `Data`. -/
theorem keystream_application (keytab : EncryptionKeyTab)
    (hD : keytab.Data.length = EncryptionKeyTabSize) (fs : FS) (filename : String)
    (content : List Nat) (hf : fs filename = some content) (n1 n2 : Nat)
    (h1 : n1 < 2 ^ 32) (h2 : n2 < 2 ^ 32) :
    (EvaluateFilename keytab Faults.none fs filename n1 n2).2.1 filename
      = some (replay (EvaluateFilename keytab Faults.none fs filename n1 n2).2.2 content) ∧
    ∀ (k : Nat) (op : BlockOp),
      (EvaluateFilename keytab Faults.none fs filename n1 n2).2.2[k]? = some op →
      op.total_pos = (((EvaluateFilename keytab Faults.none fs filename n1 n2).2.2.take k).map
        (fun o => o.bytes_in.length)).sum ∧
      op.bytes_in = ((replay ((EvaluateFilename keytab Faults.none fs filename n1 n2).2.2.take k)
        content).drop op.file_off.toNat).take BlockSize ∧
      op.bytes_out.length = op.bytes_in.length ∧
      ∀ i, i < op.bytes_in.length →
        n1 % 0x200000 + (op.total_pos + i) % 0x100000 < keytab.Data.length ∧
        n2 % (0x300000 - 0xC00) + (op.total_pos + i) % 0xC00 < keytab.Data.length ∧
        op.bytes_out[i]? = some (op.bytes_in.getD i 0 ^^^
          (keytab.Data.getD (n1 % 0x200000 + (op.total_pos + i) % 0x100000) 0 ^^^
            keytab.Data.getD (n2 % (0x300000 - 0xC00) + (op.total_pos + i) % 0xC00) 0)) := by
  have ho1 : keyData1Pos n1 = n1 % 0x200000 := by
    unfold keyData1Pos EncryptionKeyTabSize Key1Size
    rw [Nat.mod_eq_of_lt h1]
  have ho2 : keyData2Pos n2 = n2 % (0x300000 - 0xC00) := by
    unfold keyData2Pos EncryptionKeyTabSize Key2Size
    rw [Nat.mod_eq_of_lt h2]
  rw [EvaluateFilename_eq keytab fs filename content hf n1 n2]
  simp only []
  by_cases hs : content.length = 0
  · rw [evaluateContent_empty keytab Faults.none content hs n1 n2]
    simp [FS_set_same, replay]
  · obtain ⟨_, a2, _, _, a5⟩ := evaluateContent_log keytab hD content hs n1 n2
    refine ⟨by rw [FS_set_same, ← a2], ?_⟩
    intro k op hk
    obtain ⟨_, _, b3, b4, b5, _⟩ := a5 k op hk
    refine ⟨by rw [b3, Nat.zero_add], b4, by rw [b5, encryptBlock_length], ?_⟩
    intro i hi
    have hm1 : (op.total_pos + i) % 0x100000 < 0x100000 := Nat.mod_lt _ (by decide)
    have hm2 : (op.total_pos + i) % 0xC00 < 0xC00 := Nat.mod_lt _ (by decide)
    have hl1 : n1 % 0x200000 < 0x200000 := Nat.mod_lt _ (by decide)
    have hl2 : n2 % (0x300000 - 0xC00) < 0x300000 - 0xC00 := Nat.mod_lt _ (by decide)
    refine ⟨by rw [hD]; unfold EncryptionKeyTabSize; omega,
      by rw [hD]; unfold EncryptionKeyTabSize; omega, ?_⟩
    have hw1 := window1_getD keytab n1 (op.total_pos + i)
    have hw2 := window2_getD keytab n2 (op.total_pos + i)
    rw [ho1] at hw1
    rw [ho2] at hw2
    unfold Key1Size at hw1
    unfold Key2Size at hw2
    rw [b5]
    unfold encryptBlock
    rw [List.getElem?_mapIdx, List.getElem?_eq_getElem hi, Option.map_some']
    unfold keyByte Key1Size Key2Size
    rw [hw1, hw2, List.getD_eq_getElem _ _ hi]

theorem keystream_application_witness :
    (EvaluateFilename zeroKeyTab Faults.none (fun _ => some [1, 2, 3]) "a" 5 6).2.1 "a"
      = some (replay (EvaluateFilename zeroKeyTab Faults.none (fun _ => some [1, 2, 3])
          "a" 5 6).2.2 [1, 2, 3]) :=
  (keystream_application zeroKeyTab zeroKeyTab_length (fun _ => some [1, 2, 3]) "a"
    [1, 2, 3] rfl 5 6 (by decide) (by decide)).1

/-- C6. Window bounds: for every 32-bit seed and both window sizes `W`, the
window offset `seed mod (0x300000 - W)` satisfies `offset + W <= 0x300000` and
`offset + W` does not wrap in 32 bits; so for a key table with
`len(Data) = 0x300000` both slice expressions of `EvaluateFilename` succeed,
the slices have `W` elements, and every keystream index `pos mod W` is a valid
index of the slice that reads the valid index `offset + pos mod W` of `Data`. -/
theorem window_bounds (keytab : EncryptionKeyTab)
    (hD : keytab.Data.length = EncryptionKeyTabSize) (n1 n2 : Nat)
    (h1 : n1 < 2 ^ 32) (h2 : n2 < 2 ^ 32) :
    (keyData1Pos n1 = n1 % (0x300000 - 0x100000) ∧
      keyData1Pos n1 + Key1Size ≤ 0x300000 ∧
      (keyData1Pos n1 + Key1Size) % 2 ^ 32 = keyData1Pos n1 + Key1Size) ∧
    (keyData2Pos n2 = n2 % (0x300000 - 0xC00) ∧
      keyData2Pos n2 + Key2Size ≤ 0x300000 ∧
      (keyData2Pos n2 + Key2Size) % 2 ^ 32 = keyData2Pos n2 + Key2Size) ∧
    (∃ key_data1,
      slice keytab.Data (keyData1Pos n1) ((keyData1Pos n1 + Key1Size) % 2 ^ 32)
        = some key_data1 ∧ key_data1.length = 0x100000 ∧
      ∀ pos, pos % Key1Size < key_data1.length ∧
        keyData1Pos n1 + pos % Key1Size < keytab.Data.length ∧
        key_data1[pos % Key1Size]? = keytab.Data[keyData1Pos n1 + pos % Key1Size]?) ∧
    (∃ key_data2,
      slice keytab.Data (keyData2Pos n2) ((keyData2Pos n2 + Key2Size) % 2 ^ 32)
        = some key_data2 ∧ key_data2.length = 0xC00 ∧
      ∀ pos, pos % Key2Size < key_data2.length ∧
        keyData2Pos n2 + pos % Key2Size < keytab.Data.length ∧
        key_data2[pos % Key2Size]? = keytab.Data[keyData2Pos n2 + pos % Key2Size]?) := by
  have hl1 := keyData1Pos_lt n1
  have hl2 := keyData2Pos_lt n2
  have ho1 : keyData1Pos n1 = n1 % (0x300000 - 0x100000) := by
    unfold keyData1Pos EncryptionKeyTabSize Key1Size
    rw [Nat.mod_eq_of_lt h1]
  have ho2 : keyData2Pos n2 = n2 % (0x300000 - 0xC00) := by
    unfold keyData2Pos EncryptionKeyTabSize Key2Size
    rw [Nat.mod_eq_of_lt h2]
  unfold EncryptionKeyTabSize Key1Size at hl1
  unfold EncryptionKeyTabSize Key2Size at hl2
  unfold EncryptionKeyTabSize at hD
  refine ⟨⟨ho1, by unfold Key1Size; omega, ?_⟩, ⟨ho2, by unfold Key2Size; omega, ?_⟩, ?_, ?_⟩
  · apply Nat.mod_eq_of_lt
    unfold Key1Size
    omega
  · apply Nat.mod_eq_of_lt
    unfold Key2Size
    omega
  · have hlen : (window1 keytab n1).length = 0x100000 := by
      simp only [window1, List.length_take, List.length_drop, hD, Key1Size]
      omega
    refine ⟨window1 keytab n1, slice_window1 keytab (by unfold EncryptionKeyTabSize; exact hD) n1,
      hlen, ?_⟩
    intro pos
    have hm : pos % Key1Size < Key1Size := Nat.mod_lt _ (by decide)
    refine ⟨by rw [hlen]; unfold Key1Size at hm; exact hm,
      by rw [hD]; unfold Key1Size at *; omega, ?_⟩
    simp only [window1, List.getElem?_take, List.getElem?_drop, hm, if_true]
  · have hlen : (window2 keytab n2).length = 0xC00 := by
      simp only [window2, List.length_take, List.length_drop, hD, Key2Size]
      omega
    refine ⟨window2 keytab n2, slice_window2 keytab (by unfold EncryptionKeyTabSize; exact hD) n2,
      hlen, ?_⟩
    intro pos
    have hm : pos % Key2Size < Key2Size := Nat.mod_lt _ (by decide)
    refine ⟨by rw [hlen]; unfold Key2Size at hm; exact hm,
      by rw [hD]; unfold Key2Size at *; omega, ?_⟩
    simp only [window2, List.getElem?_take, List.getElem?_drop, hm, if_true]

theorem window_bounds_witness :
    keyData1Pos 4294967295 + Key1Size ≤ 0x300000 ∧
      keyData2Pos 4294967295 + Key2Size ≤ 0x300000 :=
  ⟨(window_bounds zeroKeyTab zeroKeyTab_length 4294967295 4294967295
      (by decide) (by decide)).1.2.1,
    (window_bounds zeroKeyTab zeroKeyTab_length 4294967295 4294967295
      (by decide) (by decide)).2.1.2.1⟩

/-- C7 (counterexample). The two key windows are not disjoint for every pair of
seeds: for the seeds `(0, 0)` both windows start at index 0 of `Data`. -/
theorem windows_overlap_at_zero_seeds :
    ¬ (∀ n1 n2 : Nat, n1 < 2 ^ 32 → n2 < 2 ^ 32 →
        ∀ j, ¬ (inWindow1 n1 j ∧ inWindow2 n2 j)) := by
  intro h
  apply h 0 0 (by decide) (by decide) 0
  unfold inWindow1 inWindow2
  decide

/-- C7 (amended). For every pair of seeds both key windows lie inside a table
of `0x300000` bytes, and they are disjoint exactly when one of them ends at or
before the start of the other. -/
theorem windows_disjoint_iff (n1 n2 : Nat) :
    (keyData1Pos n1 + Key1Size ≤ EncryptionKeyTabSize ∧
      keyData2Pos n2 + Key2Size ≤ EncryptionKeyTabSize) ∧
    ((∀ j, ¬ (inWindow1 n1 j ∧ inWindow2 n2 j)) ↔
      (keyData1Pos n1 + Key1Size ≤ keyData2Pos n2 ∨
        keyData2Pos n2 + Key2Size ≤ keyData1Pos n1)) := by
  have hl1 := keyData1Pos_lt n1
  have hl2 := keyData2Pos_lt n2
  unfold EncryptionKeyTabSize Key1Size at hl1
  unfold EncryptionKeyTabSize Key2Size at hl2
  unfold inWindow1 inWindow2 EncryptionKeyTabSize Key1Size Key2Size
  refine ⟨⟨by omega, by omega⟩, ?_, ?_⟩
  · intro h
    by_contra hc
    have hmax := h (max (keyData1Pos n1) (keyData2Pos n2))
    apply hmax
    omega
  · intro h j
    omega
/-- C8. Tag layout and seed recovery: for every key table with a 32-byte `Hash`
and every pair of 32-bit seeds, the tag built by `EncryptFilename` has length 42
with bytes 0..31 = `Hash`, byte 32 = `0xFF`, bytes 33..36 = `n1` little-endian,
bytes 37..40 = `n2` little-endian and byte 41 = `0x34`; reading bytes 33..36 and
37..40 back as little-endian integers gives the seeds; the new file name is
`original + "." + base64url(tag) + "." + suffix`; and when the rename succeeds,
`EncryptFilename` is `EvaluateFilename` on the renamed file with the seeds read
back from the tag. -/
theorem tag_layout (keytab : EncryptionKeyTab) (hH : keytab.Hash.length = 32)
    (n1 n2 : Nat) (h1 : n1 < 2 ^ 32) (h2 : n2 < 2 ^ 32) (io : Faults) (fs : FS)
    (filename ransom_ext : String) :
    (extData keytab n1 n2).length = 42 ∧
    (extData keytab n1 n2).take 32 = keytab.Hash ∧
    (extData keytab n1 n2)[32]? = some 0xFF ∧
    ((extData keytab n1 n2).drop 33).take 4 = le32 n1 ∧
    ((extData keytab n1 n2).drop 37).take 4 = le32 n2 ∧
    (extData keytab n1 n2)[41]? = some 0x34 ∧
    readLE32 (((extData keytab n1 n2).drop 33).take 4) = n1 ∧
    readLE32 (((extData keytab n1 n2).drop 37).take 4) = n2 ∧
    newFilename keytab filename ransom_ext n1 n2
      = filename ++ "." ++ String.mk (EncodeToString (extData keytab n1 n2)) ++ "."
          ++ ransom_ext ∧
    (∀ content, io.rename = Option.none → fs filename = some content →
      EncryptFilename keytab io fs filename ransom_ext n1 n2 =
        EvaluateFilename keytab io
          (FS.set (FS.set fs filename Option.none)
            (filename ++ "." ++ String.mk (EncodeToString (extData keytab n1 n2)) ++ "."
              ++ ransom_ext) (some content))
          (filename ++ "." ++ String.mk (EncodeToString (extData keytab n1 n2)) ++ "."
            ++ ransom_ext)
          (readLE32 (((extData keytab n1 n2).drop 33).take 4))
          (readLE32 (((extData keytab n1 n2).drop 37).take 4))) := by
  have he := extData_eq keytab hH n1 n2
  have hl1 : (le32 n1).length = 4 := rfl
  have hl2 : (le32 n2).length = 4 := rfl
  have a1 : (extData keytab n1 n2).length = 42 := by
    rw [he]
    simp [hH, hl1, hl2]
  have a2 : (extData keytab n1 n2).take 32 = keytab.Hash := by
    rw [he]
    simp only [List.append_assoc]
    rw [List.take_append_of_le_length (by omega), ← hH, List.take_length]
  have a3 : ((extData keytab n1 n2).drop 33).take 4 = le32 n1 := by
    rw [he]
    have : keytab.Hash ++ [255] ++ le32 n1 ++ le32 n2 ++ [52]
        = (keytab.Hash ++ [255]) ++ (le32 n1 ++ (le32 n2 ++ [52])) := by
      simp only [List.append_assoc]
    rw [this, List.drop_append_of_le_length (by simp [hH]),
      List.drop_of_length_le (by simp [hH]), List.nil_append,
      List.take_append_of_le_length (by omega), ← hl1, List.take_length]
  have a4 : ((extData keytab n1 n2).drop 37).take 4 = le32 n2 := by
    rw [he]
    have : keytab.Hash ++ [255] ++ le32 n1 ++ le32 n2 ++ [52]
        = (keytab.Hash ++ [255] ++ le32 n1) ++ (le32 n2 ++ [52]) := by
      simp only [List.append_assoc]
    rw [this, List.drop_append_of_le_length (by simp [hH, hl1]),
      List.drop_of_length_le (by simp [hH, hl1]), List.nil_append,
      List.take_append_of_le_length (by omega), ← hl2, List.take_length]
  have a5 : (extData keytab n1 n2)[32]? = some 0xFF := by
    rw [he]
    simp only [List.append_assoc]
    rw [List.getElem?_append_right (by omega), hH]
    rfl
  have a6 : (extData keytab n1 n2)[41]? = some 0x34 := by
    rw [he]
    rw [List.getElem?_append_right (by simp [hH, hl1, hl2])]
    simp [hH, hl1, hl2]
  have r1 := readLE32_le32 n1 h1
  have r2 := readLE32_le32 n2 h2
  refine ⟨a1, a2, a5, a3, a4, a6, by rw [a3, r1], by rw [a4, r2], rfl, ?_⟩
  intro content hr hf
  rw [a3, a4, r1, r2]
  unfold EncryptFilename Rename
  simp only [hr, hf]
  rfl

theorem tag_layout_witness :
    (extData zeroKeyTab 1 2).length = 42 ∧ readLE32 (((extData zeroKeyTab 1 2).drop 33).take 4) = 1 :=
  ⟨(tag_layout zeroKeyTab (by simp [zeroKeyTab]) 1 2 (by decide) (by decide) Faults.none
      (fun _ => Option.none) "a" "x").1,
    (tag_layout zeroKeyTab (by simp [zeroKeyTab]) 1 2 (by decide) (by decide) Faults.none
      (fun _ => Option.none) "a" "x").2.2.2.2.2.2.1⟩

/-- C9. Export chunking: for every key table and every non-empty recipient list
whose keys are all larger than 66 bytes, `Export` finishes (any bound of at
least `len(Data)` iterations is enough); the `j`-th chunk it encrypts is
encrypted under `recipients[j mod len(recipients)]`, starts where chunk `j-1`
ended (chunk 0 at 0), and has plaintext length
`min(remaining bytes, keySize - 66)`, which is at least 1; the plaintext chunks
concatenated in order are `Data`; and the output is the concatenation of the
ciphertexts in that same order. -/
theorem Export_chunking {PublicKey : Type} (cipher : Cipher PublicKey)
    (keytab : EncryptionKeyTab) (pubkeys : List PublicKey) (rng : Nat → Nat)
    (hne : pubkeys ≠ []) (hsz : ∀ pk ∈ pubkeys, 66 < cipher.Size pk)
    (fuel : Nat) (hfuel : keytab.Data.length ≤ fuel) :
    ∃ (dst : List Nat) (log : List (ChunkOp PublicKey)),
      Export cipher keytab pubkeys rng fuel = Run.done (dst, log) ∧
      dst = (log.map (fun o => o.enc_chunk)).flatten ∧
      (log.map (fun o => o.chunk)).flatten = keytab.Data ∧
      (∀ (j : Nat) (op : ChunkOp PublicKey), log[j]? = some op →
        op.i = j ∧
        pubkeys[j % pubkeys.length]? = some op.pubkey ∧
        op.pos = ((log.take j).map (fun o => o.chunk.length)).sum ∧
        op.chunk = (keytab.Data.drop op.pos).take
          (min (keytab.Data.length - op.pos) (cipher.Size op.pubkey - 66)) ∧
        op.chunk.length = min (keytab.Data.length - op.pos) (cipher.Size op.pubkey - 66) ∧
        1 ≤ op.chunk.length ∧
        op.enc_chunk = (cipher.EncryptOAEP op.pubkey (rng j) op.chunk).getD []) ∧
      (∀ (j : Nat) (a b : ChunkOp PublicKey), log[j]? = some a → log[j + 1]? = some b →
        b.pos = a.pos + a.chunk.length) := by
  obtain ⟨log, e1, e2, _, e4⟩ := exportLoop_log cipher pubkeys keytab.Data rng hne hsz
    fuel 0 keytab.Data.length 0 [] (by omega) hfuel
  refine ⟨(log.map (fun o => o.enc_chunk)).flatten, log, ?_, rfl, ?_, ?_, ?_⟩
  · unfold Export
    rw [e1, List.nil_append]
  · rw [e2, List.drop_zero]
  · intro j op hj
    obtain ⟨f1, f2, f3, f4, f5, f6, f7⟩ := e4 j op hj
    rw [Nat.zero_add] at f1 f2 f3
    rw [f1] at f7
    exact ⟨f1, f2, f3, f4, f5, f6, f7⟩
  · intro j a b ha hb
    obtain ⟨_, _, fa, _⟩ := e4 j a ha
    obtain ⟨_, _, fb, _⟩ := e4 (j + 1) b hb
    rw [fa, fb, List.take_succ, ha]
    simp only [Option.toList_some, List.map_append, List.sum_append, List.map_cons,
      List.map_nil, List.sum_cons, List.sum_nil]
    omega

theorem Export_chunking_witness :
    ∃ (dst : List Nat) (log : List (ChunkOp Nat)),
      Export toyCipher ⟨[1, 2, 3], []⟩ [68, 67] (fun _ => 9) 3 = Run.done (dst, log) ∧
      (log.map (fun o => o.chunk)).flatten = [1, 2, 3] := by
  obtain ⟨dst, log, h1, _, h3, _⟩ := Export_chunking toyCipher ⟨[1, 2, 3], []⟩ [68, 67]
    (fun _ => 9) (by simp) (by simp [toyCipher]) 3 (by simp)
  exact ⟨dst, log, h1, h3⟩

/-- C10. Export/import round trip: for every key table and every non-empty
recipient list with key sizes larger than 66 bytes, given a cipher in which
every ciphertext under a key has the length of the key size and decryption
undoes encryption for every message of at most key size minus 66 bytes,
cutting the blob returned by `Export` into consecutive pieces of the key sizes
of the recipients taken round-robin, decrypting each piece with the key of its
recipient and concatenating the results yields exactly `Data`. -/
theorem Export_import_round_trip {PublicKey : Type} (cipher : Cipher PublicKey)
    (decrypt : PublicKey → List Nat → Option (List Nat))
    (keytab : EncryptionKeyTab) (pubkeys : List PublicKey) (rng : Nat → Nat)
    (hne : pubkeys ≠ []) (hsz : ∀ pk ∈ pubkeys, 66 < cipher.Size pk)
    (hcipher : ∀ pk ∈ pubkeys, ∀ (r : Nat) (m : List Nat), m.length ≤ cipher.Size pk - 66 →
      ∃ ct, cipher.EncryptOAEP pk r m = some ct ∧ ct.length = cipher.Size pk ∧
        decrypt pk ct = some m)
    (fuel : Nat) (hfuel : keytab.Data.length ≤ fuel) :
    ∃ (dst : List Nat) (log : List (ChunkOp PublicKey)),
      Export cipher keytab pubkeys rng fuel = Run.done (dst, log) ∧
      specImport cipher.Size decrypt pubkeys dst = some keytab.Data := by
  obtain ⟨log, e1, e2, _, e4⟩ := exportLoop_log cipher pubkeys keytab.Data rng hne hsz
    fuel 0 keytab.Data.length 0 [] (by omega) hfuel
  refine ⟨(log.map (fun o => o.enc_chunk)).flatten, log, ?_, ?_⟩
  · unfold Export
    rw [e1, List.nil_append]
  · unfold specImport
    rw [specImportLoop_log cipher.Size decrypt pubkeys log 0 _ ?_ (le_refl _), e2,
      List.drop_zero]
    intro j op hj
    obtain ⟨_, f2, _, _, f5, _, f7⟩ := e4 j op hj
    have hmem : op.pubkey ∈ pubkeys := List.getElem?_mem f2
    obtain ⟨ct, c1, c2, c3⟩ := hcipher op.pubkey hmem (rng op.i) op.chunk
      (by rw [f5]; exact Nat.min_le_right _ _)
    have hs := hsz op.pubkey hmem
    rw [c1] at f7
    simp only [Option.getD_some] at f7
    rw [f7]
    exact ⟨f2, by omega, c2, c3⟩

theorem Export_import_round_trip_witness :
    ∃ (dst : List Nat) (log : List (ChunkOp Nat)),
      Export toyCipher ⟨[1, 2, 3], []⟩ [68, 67] (fun _ => 9) 3 = Run.done (dst, log) ∧
      specImport toyCipher.Size toyDecrypt [68, 67] dst = some [1, 2, 3] :=
  Export_import_round_trip toyCipher toyDecrypt ⟨[1, 2, 3], []⟩ [68, 67] (fun _ => 9)
    (by simp) (by simp [toyCipher])
    (by
      intro pk hpk r m hm
      have hle : m.length + 66 ≤ pk := by
        simp only [toyCipher] at hm
        simp only [List.mem_cons, List.mem_singleton, List.not_mem_nil, or_false] at hpk
        omega
      refine ⟨m.length :: (m ++ List.replicate (pk - 1 - m.length) r), ?_, ?_, ?_⟩
      · simp [toyCipher, hle]
      · simp [toyCipher]
        omega
      · simp [toyDecrypt])
    3 (by simp)

/-- C11. Erase: for every key table, after `Erase` every byte of `Data` and
every byte of `Hash` is 0 and the lengths of `Data` and `Hash` are unchanged;
`Erase` applied twice gives the same key table as `Erase` applied once. -/
theorem Erase_zeroes_and_is_idempotent (keytab : EncryptionKeyTab) :
    (Erase keytab).Data = List.replicate keytab.Data.length 0 ∧
    (Erase keytab).Hash = List.replicate keytab.Hash.length 0 ∧
    (∀ b ∈ (Erase keytab).Data, b = 0) ∧
    (∀ b ∈ (Erase keytab).Hash, b = 0) ∧
    (Erase keytab).Data.length = keytab.Data.length ∧
    (Erase keytab).Hash.length = keytab.Hash.length ∧
    Erase (Erase keytab) = Erase keytab := by
  have hD : (Erase keytab).Data = List.replicate keytab.Data.length 0 := zeroLoop_eq _
  have hH : (Erase keytab).Hash = List.replicate keytab.Hash.length 0 := zeroLoop_eq _
  refine ⟨hD, hH, ?_, ?_, ?_, ?_, ?_⟩
  · intro b hb
    rw [hD] at hb
    exact List.eq_of_mem_replicate hb
  · intro b hb
    rw [hH] at hb
    exact List.eq_of_mem_replicate hb
  · rw [hD, List.length_replicate]
  · rw [hH, List.length_replicate]
  · have e1 : (Erase (Erase keytab)).Data = (Erase keytab).Data := by
      show zeroLoop (Erase keytab).Data = _
      rw [zeroLoop_eq, hD, List.length_replicate]
    have e2 : (Erase (Erase keytab)).Hash = (Erase keytab).Hash := by
      show zeroLoop (Erase keytab).Hash = _
      rw [zeroLoop_eq, hH, List.length_replicate]
    calc Erase (Erase keytab)
        = ⟨(Erase (Erase keytab)).Data, (Erase (Erase keytab)).Hash⟩ := rfl
      _ = ⟨(Erase keytab).Data, (Erase keytab).Hash⟩ := by rw [e1, e2]
      _ = Erase keytab := rfl

/-- C12. KeyTable invariant: the key table returned by `GenKeyTab` has
`len(Data) = 0x300000`, `len(Hash) = 32` and `Hash = SHA-512/256(Data)`; on the
memory that the methods share, a call of `EncryptFilename`, `EvaluateFilename`
or `Export` that returns leaves both `Data` and `Hash` as they were (all their
stores go to `ext_data`, `buf` and `dst_data`), and returns what the methods on
values return; so in every state reached from the table of `GenKeyTab` by a
sequence of such calls without `Erase`, the key table is still that table and
`Hash = SHA-512/256(Data)` holds. -/
theorem keytab_invariant {PublicKey : Type} (sha : Sha) (src : RandRead)
    (keytab : EncryptionKeyTab) (hgen : GenKeyTab sha src = some keytab) :
    keytab.Data.length = 0x300000 ∧ keytab.Hash.length = 32 ∧
    keytab.Hash = sha.Sum512_256 keytab.Data ∧
    (∀ (h : Heap) (io : Faults) (fs : FS) (filename ransom_ext : String) (n1 n2 : Nat),
      (EncryptFilenameMem h io fs filename ransom_ext n1 n2).2.2.keytab = h.keytab ∧
      (EncryptFilenameMem h io fs filename ransom_ext n1 n2).1
        = (EncryptFilename h.keytab io fs filename ransom_ext n1 n2).1 ∧
      (EncryptFilenameMem h io fs filename ransom_ext n1 n2).2.1
        = (EncryptFilename h.keytab io fs filename ransom_ext n1 n2).2.1) ∧
    (∀ (h : Heap) (io : Faults) (fs : FS) (filename : String) (n1 n2 : Nat),
      (EvaluateFilenameMem h io fs filename n1 n2).2.2.keytab = h.keytab ∧
      (EvaluateFilenameMem h io fs filename n1 n2).1
        = (EvaluateFilename h.keytab io fs filename n1 n2).1 ∧
      (EvaluateFilenameMem h io fs filename n1 n2).2.1
        = (EvaluateFilename h.keytab io fs filename n1 n2).2.1) ∧
    (∀ (h : Heap) (cipher : Cipher PublicKey) (pubkeys : List PublicKey) (rng : Nat → Nat)
      (fuel : Nat),
      (∀ r, ExportMem cipher h pubkeys rng fuel = Run.done r → r.2.keytab = h.keytab) ∧
      (∀ r, Export cipher h.keytab pubkeys rng fuel = Run.done r →
        ∃ h2, ExportMem cipher h pubkeys rng fuel = Run.done (r.1, h2))) ∧
    (∀ (w w2 : World) (op : Op PublicKey), op.isErase = false → step w op = some w2 →
      w2.heap.keytab = w.heap.keytab) ∧
    (∀ (w w2 : World) (ops : List (Op PublicKey)), w.heap.keytab = keytab →
      (∀ op ∈ ops, op.isErase = false) → run w ops = some w2 →
      w2.heap.keytab = keytab ∧
      w2.heap.keytab.Hash = sha.Sum512_256 w2.heap.keytab.Data) := by
  have hshape : keytab.Data.length = 0x300000 ∧ keytab.Hash.length = 32 ∧
      keytab.Hash = sha.Sum512_256 keytab.Data := by
    obtain ⟨stream, _, hD, hH⟩ := GenKeyTab_some sha src keytab hgen
    refine ⟨?_, ?_, hH⟩
    · rw [hD, List.length_map, List.length_range]
      rfl
    · rw [hH]
      exact sha.size _
  refine ⟨hshape.1, hshape.2.1, hshape.2.2, ?_, ?_, ?_, ?_, ?_⟩
  · intro h io fs filename ransom_ext n1 n2
    refine ⟨?_, EncryptFilenameMem_eq h io fs filename ransom_ext n1 n2⟩
    unfold Heap.keytab
    rw [EncryptFilenameMem_frame _ _ _ _ _ _ _ Obj.Data (by decide) (by decide),
      EncryptFilenameMem_frame _ _ _ _ _ _ _ Obj.Hash (by decide) (by decide)]
  · intro h io fs filename n1 n2
    refine ⟨?_, EvaluateFilenameMem_eq h io fs filename n1 n2⟩
    unfold Heap.keytab
    rw [EvaluateFilenameMem_frame _ _ _ _ _ _ Obj.Data (by decide),
      EvaluateFilenameMem_frame _ _ _ _ _ _ Obj.Hash (by decide)]
  · intro h cipher pubkeys rng fuel
    refine ⟨?_, (ExportMem_eq cipher h pubkeys rng fuel).1⟩
    intro r hr
    unfold Heap.keytab
    rw [ExportMem_frame cipher h pubkeys rng fuel r hr Obj.Data (by decide),
      ExportMem_frame cipher h pubkeys rng fuel r hr Obj.Hash (by decide)]
  · intro w w2 op hop hstep
    exact step_keytab w w2 op hop hstep
  · intro w w2 ops hw hops hrun
    have hk := run_keytab ops w w2 hops hrun
    rw [hw] at hk
    exact ⟨hk, by rw [hk]; exact hshape.2.2⟩

theorem keytab_invariant_witness :
    ∃ (kt : EncryptionKeyTab) (w2 : World),
      GenKeyTab zeroSha (RandRead.filled (fun i => i % 251)) = some kt ∧
      run ⟨Heap.ofKeytab kt, fun _ => some [1, 2, 3]⟩
        ([Op.EvaluateFilename Faults.none "a" 1 2] : List (Op Nat)) = some w2 ∧
      w2.heap.keytab = kt ∧
      w2.heap.keytab.Hash = zeroSha.Sum512_256 w2.heap.keytab.Data := by
  have hgen := GenKeyTab_filled zeroSha (fun i => i % 251)
  have hk := @keytab_invariant Nat zeroSha (RandRead.filled (fun i => i % 251)) _ hgen
  obtain ⟨w2, hw2⟩ := @run_EvaluateFilename_returns Nat _ hk.1
    (fun _ => some [1, 2, 3]) Faults.none "a" 1 2
  exact ⟨_, w2, hgen, hw2,
    hk.2.2.2.2.2.2.2 _ w2 _ (Heap.keytab_ofKeytab _)
      (fun op hop => by rw [List.mem_singleton] at hop; rw [hop]; rfl) hw2⟩

/-- C13. Generator failure: `GenKeyTab` fails (produces no key table) when the
secure random source fails, that is, reports an error or delivers fewer than
`0x300000` bytes, and only then; a key table it returns has `Data` of
`0x300000` bytes, every one of them delivered by the source, and
`Hash = SHA-512/256(Data)`. -/
theorem GenKeyTab_fails_iff_source_fails (sha : Sha) (src : RandRead) :
    (GenKeyTab sha src = Option.none ↔ ∃ delivered e, src = RandRead.failed delivered e) ∧
    (∀ kt, GenKeyTab sha src = some kt →
      ∃ stream, src = RandRead.filled stream ∧
        kt.Data.length = 0x300000 ∧
        (∀ i, i < 0x300000 → kt.Data[i]? = some (stream i)) ∧
        kt.Hash = sha.Sum512_256 kt.Data) := by
  refine ⟨?_, ?_⟩
  · cases src with
    | filled stream =>
      rw [GenKeyTab_filled]
      exact ⟨fun h => by simp at h, fun ⟨d, e, h⟩ => by simp at h⟩
    | failed delivered e =>
      rw [GenKeyTab_failed]
      exact ⟨fun _ => ⟨delivered, e, rfl⟩, fun _ => rfl⟩
  · intro kt hkt
    obtain ⟨stream, hs, hD, hH⟩ := GenKeyTab_some sha src kt hkt
    refine ⟨stream, hs, ?_, ?_, hH⟩
    · rw [hD, List.length_map, List.length_range]
      rfl
    · intro i hi
      have hi2 : i < (List.range EncryptionKeyTabSize).length := by
        rw [List.length_range]
        exact hi
      rw [hD, List.getElem?_map, List.getElem?_eq_getElem hi2, List.getElem_range]
      rfl

/-- C14. Rename failure is atomic: if the rename in `EncryptFilename` fails, then
`EncryptFilename` returns exactly that error, the file system (names and
contents) is unchanged, no block is read or written, and the behaviour of
`open`, `stat`, `ReadAt` and `WriteAt` plays no part in the result; if the
rename succeeds, the result of `EncryptFilename` is exactly the result of
`EvaluateFilename` on the renamed file with the two seeds that went into the
tag of the new name. -/
theorem rename_failure_is_atomic (keytab : EncryptionKeyTab) (io : Faults) (fs : FS)
    (filename ransom_ext : String) (n1 n2 : Nat) :
    (∀ e, (Rename io fs filename (newFilename keytab filename ransom_ext n1 n2)).1 = some e →
      EncryptFilename keytab io fs filename ransom_ext n1 n2 = (Outcome.error e, fs, []) ∧
      (EncryptFilename keytab io fs filename ransom_ext n1 n2).2.1 filename = fs filename ∧
      ∀ io2 : Faults, io2.rename = io.rename →
        EncryptFilename keytab io2 fs filename ransom_ext n1 n2 = (Outcome.error e, fs, [])) ∧
    ((Rename io fs filename (newFilename keytab filename ransom_ext n1 n2)).1 = Option.none →
      (∃ content, fs filename = some content ∧
        (Rename io fs filename (newFilename keytab filename ransom_ext n1 n2)).2
          = FS.set (FS.set fs filename Option.none)
              (newFilename keytab filename ransom_ext n1 n2) (some content)) ∧
      EncryptFilename keytab io fs filename ransom_ext n1 n2 =
        EvaluateFilename keytab io
          (Rename io fs filename (newFilename keytab filename ransom_ext n1 n2)).2
          (newFilename keytab filename ransom_ext n1 n2) n1 n2) := by
  have hfail : ∀ (io1 : Faults) (e : Err),
      (Rename io1 fs filename (newFilename keytab filename ransom_ext n1 n2)).1 = some e →
      EncryptFilename keytab io1 fs filename ransom_ext n1 n2 = (Outcome.error e, fs, []) := by
    intro io1 e h
    unfold EncryptFilename
    unfold Rename at h ⊢
    cases hr : io1.rename with
    | some e1 =>
      rw [hr] at h
      simp only [Option.some.injEq] at h
      simp only [h]
    | none =>
      rw [hr] at h
      cases hf : fs filename with
      | none =>
        rw [hf] at h
        simp only [Option.some.injEq] at h
        simp only [h]
      | some content =>
        rw [hf] at h
        simp at h
  constructor
  · intro e h
    refine ⟨hfail io e h, by rw [hfail io e h], ?_⟩
    intro io2 h2
    apply hfail io2 e
    unfold Rename at h ⊢
    rw [h2]
    exact h
  · intro h
    unfold Rename at h
    cases hr : io.rename with
    | some e1 =>
      rw [hr] at h
      simp at h
    | none =>
      rw [hr] at h
      cases hf : fs filename with
      | none =>
        rw [hf] at h
        simp at h
      | some content =>
        refine ⟨⟨content, rfl, ?_⟩, ?_⟩
        · unfold Rename
          simp only [hr, hf]
        · unfold EncryptFilename Rename
          simp only [hr, hf]

theorem rename_failure_is_atomic_witness :
    EncryptFilename zeroKeyTab
      ⟨some (Err.other 13), Option.none, Option.none, fun _ => Option.none, fun _ => Option.none⟩
      (fun _ => some [1, 2, 3]) "a" "x" 1 2
      = (Outcome.error (Err.other 13), fun _ => some [1, 2, 3], []) :=
  ((rename_failure_is_atomic zeroKeyTab
      ⟨some (Err.other 13), Option.none, Option.none, fun _ => Option.none, fun _ => Option.none⟩
      (fun _ => some [1, 2, 3]) "a" "x" 1 2).1 (Err.other 13) rfl).1

/-- C15. I/O error surfacing in `EvaluateFilename` (key table of `0x300000`
bytes): a failing `open` (the file missing included) or `stat` is returned as
it is, with no block touched.  After that, every logged block was read without
failure from the file as the earlier writes left it, and written in full except
possibly the last one.  The call returns an error exactly when the read that
follows the logged blocks fails with an error other than end-of-file, or the
write of the last logged block fails; it returns that error, processes no later
block and keeps every write already made.  It returns success exactly when
nothing failed: then it ran all its blocks, or the file is empty, or a read
returned zero bytes (with no error or with end-of-file), which ends the loop
with the remaining blocks untouched. -/
theorem io_errors_surface (keytab : EncryptionKeyTab)
    (hD : keytab.Data.length = EncryptionKeyTabSize) (io : Faults) (fs : FS)
    (filename : String) (n1 n2 : Nat) :
    (∀ e, io.openFile = some e →
      EvaluateFilename keytab io fs filename n1 n2 = (Outcome.error e, fs, [])) ∧
    (io.openFile = Option.none → fs filename = Option.none →
      EvaluateFilename keytab io fs filename n1 n2 = (Outcome.error Err.notExist, fs, [])) ∧
    (∀ e content, io.openFile = Option.none → fs filename = some content →
      io.stat = some e →
      EvaluateFilename keytab io fs filename n1 n2 = (Outcome.error e, fs, [])) ∧
    (∀ content, io.openFile = Option.none → fs filename = some content →
      io.stat = Option.none →
      ∃ final,
        (EvaluateFilename keytab io fs filename n1 n2).2.1
          = FS.set fs filename (some final) ∧
        final.length = content.length ∧
        (EvaluateFilename keytab io fs filename n1 n2).1 ≠ Outcome.panic ∧
        (∀ (k : Nat) (op : BlockOp),
          (EvaluateFilename keytab io fs filename n1 n2).2.2[k]? = some op →
          op.block_num = 1 + k ∧
          op.bytes_in = (readOfBlock io content.length (numBlocks content.length)
            (blockSpace content.length (numBlocks content.length))
            (replay ((EvaluateFilename keytab io fs filename n1 n2).2.2.take k) content)
            (1 + k)).1 ∧
          ¬ readFailed (readOfBlock io content.length (numBlocks content.length)
            (blockSpace content.length (numBlocks content.length))
            (replay ((EvaluateFilename keytab io fs filename n1 n2).2.2.take k) content)
            (1 + k)) ∧
          op.bytes_in ≠ [] ∧
          (k + 1 < (EvaluateFilename keytab io fs filename n1 n2).2.2.length →
            io.write (1 + k) = Option.none)) ∧
        ((EvaluateFilename keytab io fs filename n1 n2).1 = Outcome.ok →
          (∀ op ∈ (EvaluateFilename keytab io fs filename n1 n2).2.2,
            io.write op.block_num = Option.none) ∧
          final = replay (EvaluateFilename keytab io fs filename n1 n2).2.2 content ∧
          (content.length = 0 ∨
            (EvaluateFilename keytab io fs filename n1 n2).2.2.length
              = numBlocks content.length ∨
            ((EvaluateFilename keytab io fs filename n1 n2).2.2.length
                < numBlocks content.length ∧
              ¬ readFailed (readOfBlock io content.length (numBlocks content.length)
                (blockSpace content.length (numBlocks content.length)) final
                (1 + (EvaluateFilename keytab io fs filename n1 n2).2.2.length)) ∧
              (readOfBlock io content.length (numBlocks content.length)
                (blockSpace content.length (numBlocks content.length)) final
                (1 + (EvaluateFilename keytab io fs filename n1 n2).2.2.length)).1 = []))) ∧
        (∀ e, (EvaluateFilename keytab io fs filename n1 n2).1 = Outcome.error e →
          ((EvaluateFilename keytab io fs filename n1 n2).2.2.length
              < numBlocks content.length ∧
            (∀ op ∈ (EvaluateFilename keytab io fs filename n1 n2).2.2,
              io.write op.block_num = Option.none) ∧
            final = replay (EvaluateFilename keytab io fs filename n1 n2).2.2 content ∧
            (readOfBlock io content.length (numBlocks content.length)
              (blockSpace content.length (numBlocks content.length)) final
              (1 + (EvaluateFilename keytab io fs filename n1 n2).2.2.length)).2 = some e ∧
            e ≠ Err.EOF) ∨
          (∃ (op : BlockOp) (n : Nat),
            (EvaluateFilename keytab io fs filename n1 n2).2.2.getLast? = some op ∧
            io.write op.block_num = some (n, e) ∧
            final = WriteAt
              (replay (EvaluateFilename keytab io fs filename n1 n2).2.2.dropLast content)
              (op.bytes_out.take n) op.file_off.toNat)) ∧
        ((∃ e, (EvaluateFilename keytab io fs filename n1 n2).1 = Outcome.error e) ↔
          (content.length ≠ 0 ∧
            (((EvaluateFilename keytab io fs filename n1 n2).2.2.length
                < numBlocks content.length ∧
              readFailed (readOfBlock io content.length (numBlocks content.length)
                (blockSpace content.length (numBlocks content.length))
                (replay (EvaluateFilename keytab io fs filename n1 n2).2.2 content)
                (1 + (EvaluateFilename keytab io fs filename n1 n2).2.2.length))) ∨
            (∃ (op : BlockOp) (n : Nat) (e : Err),
              (EvaluateFilename keytab io fs filename n1 n2).2.2.getLast? = some op ∧
              io.write op.block_num = some (n, e)))))) := by
  refine ⟨?_, ?_, ?_, ?_⟩
  · intro e h
    unfold EvaluateFilename
    simp only [h]
  · intro ho hf
    unfold EvaluateFilename
    simp only [ho, hf]
  · intro e content ho hf hst
    unfold EvaluateFilename
    simp only [ho, hf, hst]
  · intro content ho hf hst
    have hEF : EvaluateFilename keytab io fs filename n1 n2 =
        ((evaluateContent keytab io content n1 n2).1,
          FS.set fs filename (some (evaluateContent keytab io content n1 n2).2.1),
          (evaluateContent keytab io content n1 n2).2.2) := by
      unfold EvaluateFilename
      simp only [ho, hf, hst]
    rw [hEF]
    simp only []
    refine ⟨(evaluateContent keytab io content n1 n2).2.1, rfl,
      (evaluateContent_bounds keytab io content n1 n2).2.1, ?_⟩
    by_cases hs : content.length = 0
    · rw [evaluateContent_empty keytab io content hs n1 n2]
      refine ⟨by simp, by simp, ?_, by simp, ?_⟩
      · intro _
        exact ⟨by simp, rfl, Or.inl hs⟩
      · constructor
        · rintro ⟨e, he⟩
          simp at he
        · rintro ⟨h, _⟩
          exact absurd hs h
    · obtain ⟨_, _, b3, _⟩ := evaluateContent_bounds keytab io content n1 n2
      rw [evaluateContent_eq keytab hD io content hs n1 n2] at b3 ⊢
      obtain ⟨f1, f2, f3, f4⟩ := blockLoop_faults (window1 keytab n1) (window2 keytab n2)
        content.length (numBlocks content.length)
        (blockSpace content.length (numBlocks content.length)) io
        (numBlocks content.length) 1 0 content
      generalize blockLoop (window1 keytab n1) (window2 keytab n2) content.length
        (numBlocks content.length) (blockSpace content.length (numBlocks content.length)) io
        (numBlocks content.length) 1 0 content = r at b3 f1 f2 f3 f4 ⊢
      refine ⟨f1, ?_, ?_, f4, ?_⟩
      · intro k op hk
        obtain ⟨g1, g2, g3, g4⟩ := f2 k op hk
        exact ⟨(b3 k op hk).1, g1, g2, g3, g4⟩
      · intro hok
        obtain ⟨o1, o2, o3⟩ := f3 hok
        exact ⟨o1, o2, Or.inr o3⟩
      · constructor
        · rintro ⟨e, he⟩
          refine ⟨hs, ?_⟩
          rcases f4 e he with ⟨p1, _, p3, p4, p5⟩ | ⟨op, n, q1, q2, _⟩
          · left
            refine ⟨p1, ?_⟩
            rw [← p3]
            unfold readFailed
            rw [p4]
            exact ⟨by simp, fun h => p5 (Option.some.inj h)⟩
          · right
            exact ⟨op, n, e, q1, q2⟩
        · rintro ⟨_, h⟩
          cases hr : r.1 with
          | error e => exact ⟨e, rfl⟩
          | panic => exact absurd hr f1
          | ok =>
            exfalso
            obtain ⟨o1, o2, o3⟩ := f3 hr
            rcases h with ⟨h1, h2⟩ | ⟨op, n, e, q1, q2⟩
            · rw [← o2] at h2
              rcases o3 with h3 | ⟨_, h4, _⟩
              · omega
              · exact h4 h2
            · have hmem : op ∈ r.2.2 := List.mem_of_getLast?_eq_some q1
              rw [o1 op hmem] at q2
              simp at q2

theorem io_errors_surface_witness :
    EvaluateFilename zeroKeyTab
      ⟨Option.none, some (Err.other 5), Option.none, fun _ => Option.none, fun _ => Option.none⟩
      (fun _ => Option.none) "a" 5 6
      = (Outcome.error (Err.other 5), fun _ => Option.none, []) :=
  (io_errors_surface zeroKeyTab zeroKeyTab_length
    ⟨Option.none, some (Err.other 5), Option.none, fun _ => Option.none, fun _ => Option.none⟩
    (fun _ => Option.none) "a" 5 6).1 (Err.other 5) rfl

/-- C16. Block count monotonicity and cap: with `blockCount s` the number of
blocks `EvaluateFilename` plans for file size `s` (it is the number of blocks a
run without faults processes), `blockCount a <= blockCount b` for all
`a <= b`; `blockCount s = 0` iff `s = 0`; `blockCount s = 1` iff
`0 < s <= 4096`; `blockCount s >= 2` for every `s > 4096`; `blockCount s <= 256`
for every `s`; and every run, whatever the system calls do, logs at most
`blockCount s <= 256` blocks, each read and written with at most 4096 bytes. -/
theorem blockCount_monotone_and_capped :
    (∀ a b : Nat, a ≤ b → blockCount a ≤ blockCount b) ∧
    (∀ s : Nat, blockCount s = 0 ↔ s = 0) ∧
    (∀ s : Nat, blockCount s = 1 ↔ 0 < s ∧ s ≤ 4096) ∧
    (∀ s : Nat, 4096 < s → 2 ≤ blockCount s) ∧
    (∀ s : Nat, blockCount s ≤ 256) ∧
    (∀ (keytab : EncryptionKeyTab) (fs : FS) (filename : String) (content : List Nat)
      (n1 n2 : Nat), keytab.Data.length = EncryptionKeyTabSize →
      fs filename = some content →
      (EvaluateFilename keytab Faults.none fs filename n1 n2).2.2.length
        = blockCount content.length) ∧
    (∀ (keytab : EncryptionKeyTab) (io : Faults) (fs : FS) (filename : String)
      (content : List Nat) (n1 n2 : Nat), fs filename = some content →
      (EvaluateFilename keytab io fs filename n1 n2).2.2.length ≤ blockCount content.length ∧
      (EvaluateFilename keytab io fs filename n1 n2).2.2.length ≤ 256 ∧
      ∀ op ∈ (EvaluateFilename keytab io fs filename n1 n2).2.2,
        op.bytes_in.length ≤ 4096 ∧ op.bytes_out.length ≤ 4096) := by
  have hcap : ∀ s : Nat, blockCount s ≤ 256 := by
    intro s
    unfold blockCount
    have := numBlocks_le_max s
    unfold MaxNumBlocks at this
    split_ifs <;> omega
  refine ⟨?_, ?_, ?_, ?_, hcap, ?_, ?_⟩
  · intro a b hab
    unfold blockCount numBlocks MaxNumBlocks BlockSize
    simp only []
    split_ifs <;> omega
  · intro s
    unfold blockCount
    have := numBlocks_pos s
    split_ifs <;> omega
  · intro s
    unfold blockCount
    by_cases h0 : s = 0
    · rw [if_pos h0]
      omega
    · rw [if_neg h0]
      by_cases h1 : s ≤ 4096
      · have := numBlocks_small s (by unfold BlockSize; exact h1)
        omega
      · have := numBlocks_large s (by unfold BlockSize; omega)
        omega
  · intro s hs
    unfold blockCount
    have := numBlocks_large s (by unfold BlockSize; exact hs)
    split_ifs <;> omega
  · intro keytab fs filename content n1 n2 hD hf
    rw [EvaluateFilename_eq keytab fs filename content hf n1 n2]
    simp only []
    unfold blockCount
    by_cases hs : content.length = 0
    · rw [evaluateContent_empty keytab Faults.none content hs n1 n2, if_pos hs]
      rfl
    · rw [if_neg hs]
      exact (evaluateContent_log keytab hD content hs n1 n2).2.2.2.1
  · intro keytab io fs filename content n1 n2 hf
    have hlog : (EvaluateFilename keytab io fs filename n1 n2).2.2 = [] ∨
        (EvaluateFilename keytab io fs filename n1 n2).2.2
          = (evaluateContent keytab io content n1 n2).2.2 := by
      rcases EvaluateFilename_cases keytab io fs filename n1 n2 with ⟨e, h, _⟩ | ⟨c2, _, h2, _, h⟩
      · left
        rw [h]
      · right
        rw [hf, Option.some.injEq] at h2
        rw [h, h2]
    obtain ⟨b1, _, b3, _⟩ := evaluateContent_bounds keytab io content n1 n2
    rcases hlog with h | h
    · rw [h]
      simp
    · rw [h]
      refine ⟨b1, le_trans b1 (hcap _), ?_⟩
      intro op hop
      obtain ⟨k, hk⟩ := List.getElem?_of_mem hop
      obtain ⟨_, _, _, _, _, j6, j7, _⟩ := b3 k op hk
      unfold BlockSize at j6
      exact ⟨j6, by rw [j7]; exact j6⟩

theorem blockCount_monotone_and_capped_witness :
    blockCount 4096 ≤ blockCount 4097 ∧ blockCount 4097 = 2 ∧
      blockCount (4096 * 100000) ≤ 256 :=
  ⟨blockCount_monotone_and_capped.1 4096 4097 (by decide), by decide,
    blockCount_monotone_and_capped.2.2.2.2.1 _⟩

/-- C17. Every planned block lies inside the file: for every file of size
`s > 0`, every planned offset `off` satisfies `0 <= off < s` (and
`off + 4096 <= s` when `s > 4096`), `block_space >= 0` whenever a middle block
exists (`N >= 3`), and in a run where no system call fails every processed
block reads and writes `min(4096, s - off) >= 1` bytes with
`off + length <= s`, the full 4096 when `s > 4096`; the zero-byte early exit is
never taken, and exactly `blockCount s` blocks are processed. -/
theorem planned_blocks_inside_file (keytab : EncryptionKeyTab)
    (hD : keytab.Data.length = EncryptionKeyTabSize) (fs : FS) (filename : String)
    (content : List Nat) (hf : fs filename = some content) (n1 n2 : Nat)
    (hs : 0 < content.length) :
    (∀ k, 1 ≤ k → k ≤ numBlocks content.length →
      0 ≤ blockOffset content.length (numBlocks content.length)
        (blockSpace content.length (numBlocks content.length)) k ∧
      blockOffset content.length (numBlocks content.length)
        (blockSpace content.length (numBlocks content.length)) k < (content.length : Int) ∧
      (4096 < content.length →
        blockOffset content.length (numBlocks content.length)
          (blockSpace content.length (numBlocks content.length)) k + 4096
            ≤ (content.length : Int))) ∧
    (3 ≤ numBlocks content.length →
      0 ≤ blockSpace content.length (numBlocks content.length)) ∧
    (EvaluateFilename keytab Faults.none fs filename n1 n2).1 = Outcome.ok ∧
    (EvaluateFilename keytab Faults.none fs filename n1 n2).2.2.length
      = blockCount content.length ∧
    (∀ (k : Nat) (op : BlockOp),
      (EvaluateFilename keytab Faults.none fs filename n1 n2).2.2[k]? = some op →
      op.block_num = k + 1 ∧
      op.file_off = blockOffset content.length (numBlocks content.length)
        (blockSpace content.length (numBlocks content.length)) (k + 1) ∧
      0 ≤ op.file_off ∧ op.file_off < (content.length : Int) ∧
      op.bytes_in.length = min 4096 (content.length - op.file_off.toNat) ∧
      op.bytes_out.length = op.bytes_in.length ∧
      1 ≤ op.bytes_in.length ∧
      op.file_off + (op.bytes_in.length : Int) ≤ (content.length : Int) ∧
      (4096 < content.length → op.bytes_in.length = 4096)) := by
  have hs0 : content.length ≠ 0 := by omega
  have hplan : ∀ k, 1 ≤ k → k ≤ numBlocks content.length →
      0 ≤ blockOffset content.length (numBlocks content.length)
        (blockSpace content.length (numBlocks content.length)) k ∧
      blockOffset content.length (numBlocks content.length)
        (blockSpace content.length (numBlocks content.length)) k < (content.length : Int) ∧
      (4096 < content.length →
        blockOffset content.length (numBlocks content.length)
          (blockSpace content.length (numBlocks content.length)) k + 4096
            ≤ (content.length : Int)) := by
    intro k h1 h2
    obtain ⟨a, b, d⟩ := blockOffset_in_file content.length hs k h1 h2
    refine ⟨a, by omega, ?_⟩
    intro h
    have := d (by unfold BlockSize; exact h)
    unfold BlockSize at this
    exact this
  obtain ⟨a1, _, _, a4, a5⟩ := evaluateContent_log keytab hD content hs0 n1 n2
  rw [EvaluateFilename_eq keytab fs filename content hf n1 n2]
  simp only []
  refine ⟨hplan, fun h => (blockSpace_bounds content.length h).1, a1, ?_, ?_⟩
  · unfold blockCount
    rw [if_neg hs0]
    exact a4
  · intro k op hk
    obtain ⟨b1, b2, _, _, b5, b6⟩ := a5 k op hk
    have hklt : k < numBlocks content.length := by
      rw [← a4]
      exact (List.getElem?_eq_some.mp hk).1
    have hkk : 1 + k = k + 1 := by omega
    rw [hkk] at b1 b2
    obtain ⟨p1, p2, p3⟩ := hplan (k + 1) (by omega) (by omega)
    rw [← b2] at p1 p2 p3
    unfold BlockSize at b6
    refine ⟨b1, b2, p1, p2, b6, by rw [b5, encryptBlock_length], ?_, ?_, ?_⟩
    · rw [b6]
      omega
    · rw [b6]
      omega
    · intro h
      have := p3 h
      rw [b6]
      omega

theorem planned_blocks_inside_file_witness :
    (EvaluateFilename zeroKeyTab Faults.none (fun _ => some [1, 2, 3]) "a" 5 6).2.2.length
      = blockCount 3 :=
  (planned_blocks_inside_file zeroKeyTab zeroKeyTab_length (fun _ => some [1, 2, 3]) "a"
    [1, 2, 3] rfl 5 6 (by decide)).2.2.2.1

/-- C18. The position counter never wraps window 1: in every run of
`EvaluateFilename`, the total number of bytes transformed is at most
`256 * 4096 = 0x100000 = Key1Size`, so every position `pos` used in the
keystream index is below `0x100000` and `pos mod Key1Size = pos`; hence two
different positions never use the same byte of window 1, while the index into
window 2 repeats with period `0xC00`. -/
theorem position_counter_never_wraps (keytab : EncryptionKeyTab) (io : Faults) (fs : FS)
    (filename : String) (n1 n2 : Nat) :
    MaxNumBlocks * BlockSize = Key1Size ∧
    (((EvaluateFilename keytab io fs filename n1 n2).2.2.map
      (fun o => o.bytes_in.length)).sum ≤ 0x100000) ∧
    (∀ (k : Nat) (op : BlockOp),
      (EvaluateFilename keytab io fs filename n1 n2).2.2[k]? = some op →
      op.total_pos = (((EvaluateFilename keytab io fs filename n1 n2).2.2.take k).map
        (fun o => o.bytes_in.length)).sum ∧
      ∀ i, i < op.bytes_in.length →
        op.total_pos + i < 0x100000 ∧
        (op.total_pos + i) % Key1Size = op.total_pos + i) ∧
    (∀ (ka kb : Nat) (a b : BlockOp) (ia ib : Nat),
      (EvaluateFilename keytab io fs filename n1 n2).2.2[ka]? = some a →
      (EvaluateFilename keytab io fs filename n1 n2).2.2[kb]? = some b →
      ia < a.bytes_in.length → ib < b.bytes_in.length →
      (a.total_pos + ia) % Key1Size = (b.total_pos + ib) % Key1Size →
      a.total_pos + ia = b.total_pos + ib) ∧
    (∀ (key_data2 : List Nat) (p : Nat),
      key_data2.getD ((p + 0xC00) % Key2Size) 0 = key_data2.getD (p % Key2Size) 0) := by
  have hlog : (EvaluateFilename keytab io fs filename n1 n2).2.2 = [] ∨
      ∃ content, (EvaluateFilename keytab io fs filename n1 n2).2.2
        = (evaluateContent keytab io content n1 n2).2.2 := by
    rcases EvaluateFilename_cases keytab io fs filename n1 n2 with ⟨e, h, _⟩ | ⟨c2, _, _, _, h⟩
    · left
      rw [h]
    · right
      exact ⟨c2, by rw [h]⟩
  have hpos : ∀ (k : Nat) (op : BlockOp),
      (EvaluateFilename keytab io fs filename n1 n2).2.2[k]? = some op →
      op.total_pos = (((EvaluateFilename keytab io fs filename n1 n2).2.2.take k).map
        (fun o => o.bytes_in.length)).sum ∧
      ∀ i, i < op.bytes_in.length →
        op.total_pos + i < 0x100000 ∧
        (op.total_pos + i) % Key1Size = op.total_pos + i := by
    intro k op hk
    rcases hlog with h | ⟨content, h⟩
    · rw [h] at hk
      simp at hk
    · rw [h] at hk ⊢
      obtain ⟨b1, _, b3, _⟩ := evaluateContent_bounds keytab io content n1 n2
      obtain ⟨_, _, _, _, _, j6, _, j8, j9⟩ := b3 k op hk
      have hk1 : k < (evaluateContent keytab io content n1 n2).2.2.length :=
        (List.getElem?_eq_some.mp hk).1
      have hcap := (blockCount_le_256 content.length)
      refine ⟨j8, ?_⟩
      intro i hi
      have hlt : op.total_pos + i < 0x100000 := by
        unfold BlockSize at j6 j9
        omega
      exact ⟨hlt, Nat.mod_eq_of_lt hlt⟩
  refine ⟨by decide, ?_, hpos, ?_, ?_⟩
  · rcases hlog with h | ⟨content, h⟩
    · rw [h]
      simp
    · rw [h]
      obtain ⟨b1, _, b3, _⟩ := evaluateContent_bounds keytab io content n1 n2
      have hcap := (blockCount_le_256 content.length)
      have hsum : ((evaluateContent keytab io content n1 n2).2.2.map
          (fun o => o.bytes_in.length)).sum
          ≤ (evaluateContent keytab io content n1 n2).2.2.length * BlockSize := by
        have := List.sum_le_card_nsmul
          ((evaluateContent keytab io content n1 n2).2.2.map (fun o => o.bytes_in.length))
          BlockSize
          (by
            intro x hx
            obtain ⟨op, hop, rfl⟩ := List.mem_map.mp hx
            obtain ⟨k, hk⟩ := List.getElem?_of_mem hop
            exact (b3 k op hk).2.2.2.2.2.1)
        simpa using this
      have hmul : (evaluateContent keytab io content n1 n2).2.2.length * BlockSize
          ≤ 256 * BlockSize := Nat.mul_le_mul_right _ (le_trans b1 hcap)
      unfold BlockSize at hsum hmul
      omega
  · intro ka kb a b ia ib ha hb hia hib hmod
    rw [(hpos ka a ha).2 ia hia |>.2, (hpos kb b hb).2 ib hib |>.2] at hmod
    exact hmod
  · intro key_data2 p
    have : (p + 0xC00) % Key2Size = p % Key2Size := by
      unfold Key2Size
      omega
    rw [this]

/-- C19. Frame of the transform: for every file size `s`, every seed pair and
whatever the system calls do, `EvaluateFilename` leaves the file length
unchanged and every other file as it was; every middle block `2..N-1` is read
and written at the single offset `block_space`; hence every byte whose offset
lies outside `[0, 4096) ∪ [block_space, block_space + 4096) ∪ [s - 4096, s)` is
unchanged, and at most `3 * 4096 = 12288` bytes differ from the original. -/
theorem transform_frame (keytab : EncryptionKeyTab) (io : Faults) (fs : FS)
    (filename : String) (content : List Nat) (hf : fs filename = some content)
    (n1 n2 : Nat) :
    (∀ p, p ≠ filename → (EvaluateFilename keytab io fs filename n1 n2).2.1 p = fs p) ∧
    (∀ op ∈ (EvaluateFilename keytab io fs filename n1 n2).2.2,
      1 < op.block_num → op.block_num < numBlocks content.length →
      op.file_off = blockSpace content.length (numBlocks content.length)) ∧
    ∃ final, (EvaluateFilename keytab io fs filename n1 n2).2.1 filename = some final ∧
      final.length = content.length ∧
      (∀ j : Nat,
        ¬ ((j : Int) < 4096) →
        ¬ (blockSpace content.length (numBlocks content.length) ≤ (j : Int) ∧
            (j : Int) < blockSpace content.length (numBlocks content.length) + 4096) →
        ¬ ((content.length : Int) - 4096 ≤ (j : Int) ∧ (j : Int) < (content.length : Int)) →
        final[j]? = content[j]?) ∧
      (diffIndices final content).card ≤ 12288 := by
  rcases EvaluateFilename_cases keytab io fs filename n1 n2 with ⟨e, h, _⟩ | ⟨c2, _, h2, _, h⟩
  · rw [h]
    refine ⟨fun p _ => rfl, by simp, content, hf, rfl, fun j _ _ _ => rfl, ?_⟩
    simp [diffIndices]
  · rw [hf, Option.some.injEq] at h2
    subst h2
    rw [h]
    simp only []
    obtain ⟨b1, b2, b3, b4⟩ := evaluateContent_bounds keytab io content n1 n2
    have hops : ∀ op ∈ (evaluateContent keytab io content n1 n2).2.2,
        content.length ≠ 0 ∧ 0 ≤ op.file_off ∧ op.bytes_in.length ≤ 4096 ∧
        op.file_off.toNat + op.bytes_in.length ≤ content.length ∧
        (1 < op.block_num → op.block_num < numBlocks content.length →
          op.file_off = blockSpace content.length (numBlocks content.length)) ∧
        (op.file_off = 0 ∨
          op.file_off = blockSpace content.length (numBlocks content.length) ∨
          op.file_off = (content.length : Int) - 4096) := by
      intro op hop
      obtain ⟨k, hk⟩ := List.getElem?_of_mem hop
      obtain ⟨j1, j2, j3, j4, j5, j6, _, _, _⟩ := b3 k op hk
      have hs0 : content.length ≠ 0 := by omega
      unfold BlockSize at j6
      refine ⟨hs0, j3, j6, j4, ?_, ?_⟩
      · intro h1 h2
        rw [j2, ← j1]
        exact blockOffset_middle _ _ _ _ (by omega) (by omega)
      · rw [j2]
        by_cases hk1 : 1 + k = 1
        · left
          rw [hk1, blockOffset_first]
        · by_cases hkN : 1 + k = numBlocks content.length
          · by_cases hbig : BlockSize < content.length
            · right; right
              rw [hkN, blockOffset_last _ _ _ (by omega) hbig]
              rfl
            · left
              have := numBlocks_small content.length (by omega)
              omega
          · right; left
            exact blockOffset_middle _ _ _ _ hk1 hkN
    have hframe : ∀ j : Nat,
        ¬ ((j : Int) < 4096) →
        ¬ (blockSpace content.length (numBlocks content.length) ≤ (j : Int) ∧
            (j : Int) < blockSpace content.length (numBlocks content.length) + 4096) →
        ¬ ((content.length : Int) - 4096 ≤ (j : Int) ∧ (j : Int) < (content.length : Int)) →
        (evaluateContent keytab io content n1 n2).2.1[j]? = content[j]? := by
      intro j h1 h2 h3
      apply b4
      intro op hop
      obtain ⟨_, q1, q2, q3, _, q5⟩ := hops op hop
      rcases q5 with q | q | q
      · rw [q] at q3 ⊢
        simp only [Int.toNat_zero, Nat.zero_add, Nat.zero_le, true_and, not_lt]
        omega
      · rw [q] at q1 q3 ⊢
        omega
      · rw [q] at q1 q3 ⊢
        omega
    refine ⟨?_, ?_, (evaluateContent keytab io content n1 n2).2.1, FS_set_same _ _ _,
      b2, hframe, ?_⟩
    · intro p hp
      simp [FS.set, hp]
    · intro op hop
      exact (hops op hop).2.2.2.2.1
    · have hsub : diffIndices (evaluateContent keytab io content n1 n2).2.1 content ⊆
          Finset.range 4096 ∪
            (Finset.Ico (blockSpace content.length (numBlocks content.length)).toNat
              ((blockSpace content.length (numBlocks content.length)).toNat + 4096) ∪
             Finset.Ico (content.length - 4096) content.length) := by
        intro j hj
        unfold diffIndices at hj
        rw [Finset.mem_filter, Finset.mem_range] at hj
        obtain ⟨hjl, hjd⟩ := hj
        rw [b2] at hjl
        by_contra hnot
        simp only [Finset.mem_union, Finset.mem_range, Finset.mem_Ico, not_or, not_and,
          not_lt] at hnot
        obtain ⟨n1', n2', n3'⟩ := hnot
        apply hjd
        apply hframe j
        · omega
        · intro hh
          have := n2' (by omega)
          omega
        · intro hh
          have := n3' (by omega)
          omega
      calc (diffIndices (evaluateContent keytab io content n1 n2).2.1 content).card
          ≤ (Finset.range 4096 ∪
            (Finset.Ico (blockSpace content.length (numBlocks content.length)).toNat
              ((blockSpace content.length (numBlocks content.length)).toNat + 4096) ∪
             Finset.Ico (content.length - 4096) content.length)).card :=
            Finset.card_le_card hsub
        _ ≤ (Finset.range 4096).card +
            ((Finset.Ico (blockSpace content.length (numBlocks content.length)).toNat
              ((blockSpace content.length (numBlocks content.length)).toNat + 4096)).card +
             (Finset.Ico (content.length - 4096) content.length).card) :=
            le_trans (Finset.card_union_le _ _)
              (Nat.add_le_add_left (Finset.card_union_le _ _) _)
        _ ≤ 12288 := by
            rw [Finset.card_range, Nat.card_Ico, Nat.card_Ico]
            omega

theorem transform_frame_witness :
    ∃ final, (EvaluateFilename zeroKeyTab Faults.none (fun _ => some [1, 2, 3]) "a" 5 6).2.1 "a"
        = some final ∧ final.length = 3 := by
  obtain ⟨_, _, final, h1, h2, _⟩ := transform_frame zeroKeyTab Faults.none
    (fun _ => some [1, 2, 3]) "a" [1, 2, 3] rfl 5 6
  exact ⟨final, h1, h2⟩

/-- C20. Export termination: for every key table and every non-empty recipient
list in which every key is larger than 66 bytes, the loop of `Export`
terminates without a panic (every iteration bound of at least `len(Data)` gives
the same finished run, which has at most `len(Data)` iterations); each iteration
takes its key at a valid index of the recipient list, takes a slice of `Data`
that is in bounds and at least 1 byte long, and so strictly decreases the
remaining length, which never becomes negative; with a single recipient key of
size `k > 66` the loop runs exactly `ceil(len(Data) / (k - 66))` times. -/
theorem Export_terminates {PublicKey : Type} (cipher : Cipher PublicKey)
    (keytab : EncryptionKeyTab) (pubkeys : List PublicKey) (rng : Nat → Nat)
    (hne : pubkeys ≠ []) (hsz : ∀ pk ∈ pubkeys, 66 < cipher.Size pk) :
    ∃ (dst : List Nat) (log : List (ChunkOp PublicKey)),
      (∀ fuel, keytab.Data.length ≤ fuel →
        Export cipher keytab pubkeys rng fuel = Run.done (dst, log)) ∧
      log.length ≤ keytab.Data.length ∧
      (∀ (j : Nat) (op : ChunkOp PublicKey), log[j]? = some op →
        op.i = j ∧
        j % pubkeys.length < pubkeys.length ∧
        pubkeys[j % pubkeys.length]? = some op.pubkey ∧
        1 ≤ op.chunk.length ∧
        op.pos + op.chunk.length ≤ keytab.Data.length ∧
        slice keytab.Data op.pos (op.pos + op.chunk.length) = some op.chunk ∧
        keytab.Data.length - (op.pos + op.chunk.length) < keytab.Data.length - op.pos) ∧
      (∀ pk, pubkeys = [pk] →
        log.length = (keytab.Data.length + (cipher.Size pk - 66) - 1)
          / (cipher.Size pk - 66)) := by
  obtain ⟨log, e1, _, e3, e4⟩ := exportLoop_log cipher pubkeys keytab.Data rng hne hsz
    keytab.Data.length 0 keytab.Data.length 0 [] (by omega) (le_refl _)
  refine ⟨[] ++ (log.map (fun o => o.enc_chunk)).flatten, log, ?_, e3, ?_, ?_⟩
  · intro fuel hfuel
    unfold Export
    rw [exportLoop_fuel_irrelevant cipher pubkeys keytab.Data rng hne hsz fuel
      keytab.Data.length 0 keytab.Data.length 0 [] (by omega) hfuel (le_refl _), e1]
  · intro j op hj
    obtain ⟨f1, f2, _, f4, f5, f6, _⟩ := e4 j op hj
    rw [Nat.zero_add] at f1 f2
    have hb : op.pos + op.chunk.length ≤ keytab.Data.length := by
      rw [f5]
      omega
    refine ⟨f1, Nat.mod_lt _ (List.length_pos.mpr hne), f2, f6, hb, ?_, by omega⟩
    unfold slice
    rw [if_pos ⟨by omega, hb⟩, Nat.add_sub_cancel_left]
    rw [f5, ← f4]
  · intro pk hpk
    subst hpk
    obtain ⟨r, hr, hlen⟩ := exportLoop_single_count cipher pk keytab.Data rng
      (hsz pk (List.mem_singleton.mpr rfl)) keytab.Data.length 0 keytab.Data.length 0 []
      (by omega) (le_refl _)
    rw [e1, Run.done.injEq] at hr
    rw [← hlen, ← hr]

theorem Export_terminates_witness :
    ∃ (dst : List Nat) (log : List (ChunkOp Nat)),
      Export toyCipher ⟨[1, 2, 3, 4, 5], []⟩ [68] (fun _ => 9) 5 = Run.done (dst, log) ∧
      log.length = 3 := by
  obtain ⟨dst, log, h1, _, _, h4⟩ := Export_terminates toyCipher ⟨[1, 2, 3, 4, 5], []⟩ [68]
    (fun _ => 9) (by simp) (by simp [toyCipher])
  exact ⟨dst, log, h1 5 (by simp), by rw [h4 68 rfl]; rfl⟩

end Keytab
